import Mathlib

/-!
# ndio-series: file-series pattern inference and position indexing

A shallow embedding of `src/ndio-series.cc`.

* `std::string` and C strings are lists of characters (`Str`); a C string's
  terminating NUL is the end of the list.
* `size_t` is a natural number reduced modulo `2^64` where the source adds or
  subtracts; `unsigned` capture values are natural numbers below `2^32`.
* `ndim_` counts one per rewritten field of the name, so it never exceeds the
  length of the name; it is kept as a natural number.
* The three `RE2::Replace` calls of the source use fixed regular expressions
  (`%+`, `\.(\d+)` and `\(\\d\+\)`); `RE2.Replace` models the library on exactly
  these.  `RE2::FullMatchN` is modelled on the patterns made of literal
  characters, `.` and `(\d+)` groups; what the library does on any other pattern
  text is a parameter (`RE2.Ext`) of every definition that matches names.
* The seek table, a `std::map<TPos,TName>`, is a list of pairs with at most one
  pair for a position; only its lookups and its emptiness are used.
* What the file system answers is a parameter (`World`), and so is what the
  codec answers for its transfers (`Codec`).
-/

namespace NdioSeries

/-! ## Definitions: the program and the library calls it makes -/

/-- Strings of the program, as character lists. -/
abbrev Str := List Char

/-- Positions, `typedef std::vector<size_t> TPos`. -/
abbrev TPos := List Nat

/-- The path separator `PATHSEP[0]` (non-Windows build). -/
def PATHSEP : Char := '/'

/-! ### The calls of `RE2::Replace` -/

/-- The text `(\d+)` of one capture slot. -/
def slot : Str := ['(', '\\', 'd', '+', ')']

/-- The compiled expressions of the source: `ptn_field` is `%+`, `eg_field` is
`\.(\d+)`, and `slot_re` is `\(\\d\+\)`, the expression `makename` passes. -/
inductive Regex where
  | ptn_field
  | eg_field
  | slot_re
deriving DecidableEq, Repr

/-- What remains of the text after the match of the expression that starts at
the head of the text (`+` is greedy), when there is one. -/
def RE2.matchHead : Regex → Str → Option Str
  | .ptn_field, c :: cs => if c = '%' then some (cs.dropWhile (fun x => x = '%')) else none
  | .eg_field, c :: d :: cs =>
      if c = '.' ∧ d.isDigit = true then some (cs.dropWhile Char.isDigit) else none
  | .slot_re, s => if slot.isPrefixOf s = true then some (s.drop 5) else none
  | _, _ => none

/-- The text a rewrite string stands for: `\\` is one backslash, any other
character is itself (the rewrite strings of the source name no group). -/
def RE2.rewriteText : Str → Str
  | '\\' :: '\\' :: cs => '\\' :: RE2.rewriteText cs
  | c :: cs => c :: RE2.rewriteText cs
  | [] => []

/-- The library call `RE2::Replace(&str, re, rewrite)`: the leftmost match of
`re` in `str` is replaced by the rewrite text. `none` is the `false` return
(no match, `str` unchanged), `some s` the `true` return with the new `str`. -/
def RE2.Replace : Str → Regex → Str → Option Str
  | [], _, _ => none
  | c :: cs, re, rw =>
    match RE2.matchHead re (c :: cs) with
    | some rest => some (RE2.rewriteText rw ++ rest)
    | none => (RE2.Replace cs re rw).map (fun r => c :: r)

/-! ### Helpers and the context class -/

/-- The loop of `parse_mode_string` over the characters of the mode. -/
def parse_mode_loop : Str → Bool → Bool → Bool × Bool × Bool
  | [], isr, isw => (true, isr, isw)
  | c :: cs, isr, isw =>
    if c = 'r' then parse_mode_loop cs true isw
    else if c = 'w' then parse_mode_loop cs isr true
    else (false, isr, isw)

/-- The source function `parse_mode_string(mode,&isr,&isw)`: the result, and the
flags as the call leaves them. The `do ... while(*++c)` loop looks at the first
character before any test, so the empty mode meets the terminator in the
`switch` and fails. -/
def parse_mode_string (mode : Str) : Bool × Bool × Bool :=
  match mode with
  | [] => (false, false, false)
  | _ :: _ => parse_mode_loop mode false false

/-- The standard call `p.rfind(c)`: the index of the last `c` in `p`. -/
def rfind (p : Str) (c : Char) : Option Nat :=
  match p with
  | [] => none
  | x :: xs =>
    match rfind xs c with
    | some i => some (i + 1)
    | none => if x = c then some 0 else none

/-- The source structure `struct series_t`. -/
structure series_t where
  path_ : Str
  pattern_ : Str
  ndim_ : Nat
  isr_ : Bool
  isw_ : Bool
  last_ : Nat
  fdim_ : Int
  seektable_ : List (TPos × Str)
deriving DecidableEq, Repr

/-- The member initialisers of the constructor. -/
def series_t.init : series_t :=
  { path_ := [], pattern_ := [], ndim_ := 0, isr_ := false, isw_ := false,
    last_ := 0, fdim_ := -1, seektable_ := [] }

/-- The two calls of `gen_pattern_` in the constructor: the expression and the
rewrite string of each. -/
inductive Strategy where
  | placeholder
  | eg
deriving DecidableEq, Repr

/-- The expression passed by the constructor. -/
def Strategy.re : Strategy → Regex
  | .placeholder => .ptn_field
  | .eg => .eg_field

/-- The rewrite string passed by the constructor, `"(\\\\d+)"` and
`".(\\\\d+)"` in the source text. -/
def Strategy.repl : Strategy → Str
  | .placeholder => ['(', '\\', '\\', 'd', '+', ')']
  | .eg => ['.', '(', '\\', '\\', 'd', '+', ')']

/-- The characters a successful `Replace` of the strategy removes at least one
of, and never adds. -/
def Strategy.trigger : Strategy → Char → Bool
  | .placeholder => fun c => c = '%'
  | .eg => Char.isDigit

/-- The source method `isok()`. -/
def series_t.isok (self : series_t) : Bool := decide (0 < self.ndim_)

/-! ### The call of `RE2::FullMatchN`, `parse` and `makename` -/

/-- The pieces of a pattern text the model of `RE2::FullMatchN` reads: a
literal character, the wildcard `.`, a capture group `(\d+)`. -/
inductive Tok where
  | lit (c : Char)
  | any
  | grp
deriving DecidableEq, Repr

/-- The characters with a meaning of their own in the library's pattern
syntax. -/
def RE2.special (c : Char) : Bool :=
  c ∈ ['\\', '^', '$', '.', '|', '?', '*', '+', '(', ')', '[', ']', '{', '}']

/-- Reading a pattern text: `(\d+)` is a group, `.` the wildcard, a character
without special meaning is itself. `none`: the text uses pattern syntax outside
this fragment. -/
def RE2.compile : Str → Option (List Tok)
  | [] => some []
  | c :: cs =>
    if c = '(' then
      match cs with
      | c1 :: c2 :: c3 :: c4 :: rest =>
        if c1 = '\\' ∧ c2 = 'd' ∧ c3 = '+' ∧ c4 = ')' then
          (RE2.compile rest).map (fun ts => Tok.grp :: ts)
        else none
      | _ => none
    else if c = '.' then (RE2.compile cs).map (fun ts => Tok.any :: ts)
    else if RE2.special c = true then none
    else (RE2.compile cs).map (fun ts => Tok.lit c :: ts)

/-- The number of capture groups, `NumberOfCapturingGroups()`. -/
def groups (ts : List Tok) : Nat := ts.count Tok.grp

/-- The greedy `+` of a group: the lengths `n, n-1, ..., 1` of the digit run
are tried in this order, and the first one after which the rest of the pattern
matches (`k`) is taken. -/
def tryLens (k : Str → Option (List Str)) (xs : Str) : Nat → Option (List Str)
  | 0 => none
  | n + 1 =>
    match k (xs.drop (n + 1)) with
    | some caps => some (xs.take (n + 1) :: caps)
    | none => tryLens k xs n

/-- Anchored match of the whole text against the pattern, with the captured
texts of the groups in order, under the library's leftmost-first rule. The
wildcard matches any character but the newline. -/
def matchToks : List Tok → Str → Option (List Str)
  | [], [] => some []
  | [], _ :: _ => none
  | .grp :: ts, xs => tryLens (fun ys => matchToks ts ys) xs (xs.takeWhile Char.isDigit).length
  | .lit _ :: _, [] => none
  | .any :: _, [] => none
  | .lit c :: ts, x :: xs => if x = c then matchToks ts xs else none
  | .any :: ts, x :: xs => if x = '\n' then none else matchToks ts xs

/-- The value of a run of decimal digits. -/
def decVal (s : Str) : Nat := s.foldl (fun acc c => 10 * acc + (c.toNat - 48)) 0

/-- What `RE2::Arg` does for an `unsigned` destination: the captured digits are
accepted when their value fits 32 bits. -/
def parseUnsigned (s : Str) : Option Nat :=
  if decVal s < 2 ^ 32 then some (decVal s) else none

/-- The conversion of the captured texts into the destinations, in order; the
first one that does not convert fails the call. -/
def parseArgs : List Str → Option (List Nat)
  | [] => some []
  | r :: rs =>
    match parseUnsigned r with
    | some v => (parseArgs rs).map (fun vs => v :: vs)
    | none => none

/-- What the library does with a pattern text outside the modelled fragment:
for the text, the pattern and the number `n` of destinations, either no match
or the `n` values stored. -/
abbrev RE2.Ext := Str → Str → (n : Nat) → Option (Fin n → Fin (2 ^ 32))

/-- An instance of `RE2.Ext`, for statements at concrete inputs. -/
def RE2.noExt : RE2.Ext := fun _ _ _ => none

/-- The library call `RE2::FullMatchN(text, pattern, args, n)` with `unsigned`
destinations: `none` is the `false` return, `some vals` the `true` return with
the `n` values stored. It fails when the pattern has fewer than `n` groups,
when the text does not match, and when a captured text does not convert. -/
def RE2.FullMatchN (ext : RE2.Ext) (text pattern : Str) (n : Nat) : Option (List Nat) :=
  match RE2.compile pattern with
  | some toks =>
    if groups toks < n then none
    else
      match matchToks toks text with
      | some caps => parseArgs (caps.take n)
      | none => none
  | none => (ext text pattern n).map (fun f => List.ofFn (fun i => (f i).val))

/-- The source method `series_t::parse(name,pos)`: `none` is the `false`
return, `some pos` the `true` return with the position stored. -/
def series_t.parse (ext : RE2.Ext) (self : series_t) (name : Str) : Option TPos :=
  if self.isok = false then none
  else if ¬ (self.ndim_ < 10) then none
  else RE2.FullMatchN ext name self.pattern_ self.ndim_

/-- The statement `ipos.back()+=d` on `size_t` elements. -/
def addLast : List Nat → Nat → List Nat
  | [], _ => []
  | [v], d => [(v + d) % 2 ^ 64]
  | v :: w :: vs, d => v :: addLast (w :: vs) d

/-- The statement `ipos.back()-=d` on `size_t` elements. -/
def subLast : List Nat → Nat → List Nat
  | [], _ => []
  | [v], d => [(v + 2 ^ 64 - d % 2 ^ 64) % 2 ^ 64]
  | v :: w :: vs, d => v :: subLast (w :: vs) d

/-- The loop of `makename`: each element of `ipos` in turn replaces the leftmost
slot text left in `t` by its decimal digits; a failed `Replace` ends the call. -/
def makename_loop : Str → List Nat → Option Str
  | t, [] => some t
  | t, v :: vs =>
    match RE2.Replace t .slot_re (Nat.toDigits 10 v) with
    | some t1 => makename_loop t1 vs
    | none => none

/-- The directory part `makename` and `find` put before a name. -/
def series_t.dirPrefix (self : series_t) : Str :=
  if self.path_.isEmpty = true then [] else self.path_ ++ [PATHSEP]

/-- The source method `series_t::makename(out,ipos)`: `none` is the `0` return,
`some (out, ipos)` the `1` return with the name and with `ipos` as the call
leaves it. `back()` of an empty `ipos` has no defined behaviour and gives no
result here. -/
def series_t.makename (self : series_t) (ipos : List Nat) : Option (Str × List Nat) :=
  if ipos.isEmpty = true then none
  else
    match makename_loop self.pattern_ (addLast ipos self.last_) with
    | some t => some (self.dirPrefix ++ t, subLast (addLast ipos self.last_) self.last_)
    | none => none

/-! ### The array library, the directory and the codec -/

/-- An array handle of the nd library, `nd_t`: the number of dimensions
(`ndndim`), the shape array (`ndshape`; an entry past the number of dimensions
is what an earlier, higher-rank shape left there), and for each axis the
displacement of the data pointer in elements, as moved by `ndoffset`. -/
structure nd_t where
  ndim : Nat
  shape : List Nat
  offset : Nat → Int

/-- The array a shape query returns: the given extents, no displacement. -/
def nd_t.ofShape (l : List Nat) : nd_t := { ndim := l.length, shape := l, offset := fun _ => 0 }

/-- The library call `ndoffset(a,idim,o)`: the data pointer moves by `o`
elements along axis `idim`. An axis the array does not have gives no result. -/
def ndoffset (a : nd_t) (idim : Nat) (o : Int) : Option nd_t :=
  if idim < a.ndim then some { a with offset := Function.update a.offset idim (a.offset idim + o) }
  else none

/-- The library call `ndreshape(a,ndim,shape)`: the array gets `ndim`
dimensions with the first `ndim` entries of `shape`; entries of the shape array
past `ndim` stay. Reading `shape` past its end gives no result. -/
def ndreshape (a : nd_t) (ndim : Nat) (shape : List Nat) : Option nd_t :=
  if ndim ≤ shape.length then
    some { a with ndim := ndim, shape := shape.take ndim ++ a.shape.drop ndim }
  else none

/-- The library call `ndInsertDim(a,idim)`: a dimension of extent 1 is inserted
at `idim`; when the array has fewer than `idim` dimensions it is first padded
with dimensions of extent 1. -/
def ndInsertDim (a : nd_t) (idim : Nat) : nd_t :=
  let s := a.shape.take a.ndim
  if idim < a.ndim then
    { a with ndim := a.ndim + 1, shape := s.take idim ++ 1 :: s.drop idim }
  else
    { a with ndim := idim + 1, shape := s ++ List.replicate (idim + 1 - a.ndim) 1 }

/-- The library call `ndShapeSet(a,idim,val)`: the extent of axis `idim`
becomes `val`, the array being padded with dimensions of extent 1 when it has
no such axis. -/
def ndShapeSet (a : nd_t) (idim : Nat) (val : Nat) : nd_t :=
  let s := a.shape.take a.ndim
  if idim < a.ndim then { a with shape := s.set idim val }
  else { a with ndim := idim + 1, shape := s ++ List.replicate (idim - a.ndim) 1 ++ [val] }

/-- A `size_t` read as `int64_t`. -/
def toInt64 (x : Nat) : Int :=
  if x % 2 ^ 64 < 2 ^ 63 then (x % 2 ^ 64 : Nat) else (x % 2 ^ 64 : Nat) - 2 ^ 64

/-- What a sub-file opened for reading answers: its shape (`ndioShape`, `none`
for the null return). -/
structure SubFile where
  ndioShape : Option (List Nat)

/-- What the file system and the codec answer during one call: the entries
`readdir` lists for `path_` in order (`none` when `opendir` fails), and for
each full path the file `ndioOpen(path,NULL,"r")` opens (`none` for the null
return). -/
structure World where
  dir : Option (List Str)
  ndioOpen : Str → Option SubFile

/-! ### Shape, read and write -/

/-- The source function `vmin(acc,pos)`. -/
def vmin (acc pos : TPos) : TPos :=
  if acc.length ≠ pos.length then pos
  else List.zipWith (fun m p => if m < p then m else p) acc pos

/-- The source function `vmax(acc,pos)`. -/
def vmax (acc pos : TPos) : TPos :=
  if acc.length ≠ pos.length then pos
  else List.zipWith (fun m p => if m > p then m else p) acc pos

/-- The source function `openfile(path,fname)`. -/
def openfile (w : World) (path fname : Str) : Option SubFile :=
  w.ndioOpen (path ++ [PATHSEP] ++ fname)

/-- The source function `get_file_shape(path,fname)`: `none` is the null
return. -/
def get_file_shape (w : World) (path fname : Str) : Option nd_t :=
  match openfile w path fname with
  | none => none
  | some file => file.ndioShape.map nd_t.ofShape

/-- The body of the `readdir` loop of `minmax`, for one entry. -/
def minmax_step (ext : RE2.Ext) (self : series_t) (acc : TPos × TPos) (ent : Str) : TPos × TPos :=
  match self.parse ext ent with
  | some pos => (vmin acc.1 pos, vmax acc.2 pos)
  | none => acc

/-- The source method `series_t::minmax(mn,mx)` on the directory listing:
`none` is the `false` return, `some (mn, mx)` the `true` return. -/
def series_t.minmax (ext : RE2.Ext) (self : series_t) (dir : Option (List Str))
    (mn mx : TPos) : Option (TPos × TPos) :=
  match dir with
  | none => none
  | some ents => some (ents.foldl (minmax_step ext self) (mn, mx))

/-- The `readdir` loop of `single_file_shape`. -/
def single_file_shape_loop (ext : RE2.Ext) (w : World) (self : series_t) : List Str → Option nd_t
  | [] => none
  | ent :: ents =>
    match self.parse ext ent with
    | some _ => get_file_shape w self.path_ ent
    | none => single_file_shape_loop ext w self ents

/-- The source method `series_t::single_file_shape()`: `none` is the null
return. -/
def series_t.single_file_shape (ext : RE2.Ext) (w : World) (self : series_t) : Option nd_t :=
  match w.dir with
  | none => none
  | some ents => single_file_shape_loop ext w self ents

/-- The loop `for(i=0;i<mn.size();++i) ndShapeSet(shape,(unsigned)(o+i),mx[i]-mn[i]+1)`
of `series_shape`, from index `i` on for `n` rounds. -/
def shape_set_loop (o : Nat) (mn mx : TPos) : Nat → Nat → nd_t → nd_t
  | 0, _, shape => shape
  | n + 1, i, shape =>
    shape_set_loop o mn mx n (i + 1)
      (ndShapeSet shape ((o + i) % 2 ^ 64 % 2 ^ 32)
        ((mx.getD i 0 + 2 ^ 64 - mn.getD i 0 + 1) % 2 ^ 64))

/-- The source function `series_shape(file)`: `none` is the null return. -/
def series_shape (ext : RE2.Ext) (w : World) (self : series_t) : Option nd_t :=
  match self.minmax ext w.dir [] [] with
  | none => none
  | some (mn, mx) =>
    match self.single_file_shape ext w with
    | none => none
    | some shape =>
      let o := shape.ndim
      let shape := ndInsertDim shape ((o + mx.length + 2 ^ 64 - 1) % 2 ^ 64 % 2 ^ 32)
      some (shape_set_loop o mn mx mn.length 0 shape)

/-- The two `for(size_t i=0;i<self->ndim_;++i) ndoffset(dst,(unsigned)(o+i),...)`
loops of `series_read`, from index `i` on for `n` rounds; `back` selects the
second loop, which passes `-(int64_t)v[i]+(int64_t)mn[i]`. -/
def read_offsets (o : Nat) (v mn : TPos) (back : Bool) : Nat → Nat → nd_t → Option nd_t
  | 0, _, dst => some dst
  | n + 1, i, dst =>
    let d : Int :=
      if back = true then -(toInt64 (v.getD i 0)) + toInt64 (mn.getD i 0)
      else toInt64 ((v.getD i 0 + 2 ^ 64 - mn.getD i 0) % 2 ^ 64)
    match ndoffset dst ((o + i) % 2 ^ 64 % 2 ^ 32) d with
    | some dst1 => read_offsets o v mn back n (i + 1) dst1
    | none => none

/-- The `readdir` loop of `series_read`: the array after the entries, and the
files read, each with the array as it was handed to `ndioRead`. -/
def read_loop (ext : RE2.Ext) (w : World) (self : series_t) (o : Nat) (mn : TPos) :
    List Str → nd_t → List (Str × nd_t) → Option (nd_t × List (Str × nd_t))
  | [], dst, reads => some (dst, reads)
  | ent :: ents, dst, reads =>
    match self.parse ext ent with
    | none => read_loop ext w self o mn ents dst reads
    | some v =>
      match openfile w self.path_ ent with
      | none => read_loop ext w self o mn ents dst reads
      | some _ =>
        match read_offsets o v mn false self.ndim_ 0 dst with
        | none => none
        | some dst1 =>
          match read_offsets o v mn true self.ndim_ 0 dst1 with
          | none => none
          | some dst2 => read_loop ext w self o mn ents dst2 (reads ++ [(ent, dst1)])

/-- The outcome of `series_read`: the returned value, the array as the call
leaves it, and the files handed to `ndioRead` with the array as handed over. -/
structure ReadResult where
  ret : Nat
  dst : nd_t
  reads : List (Str × nd_t)

/-- The source function `series_read(file,dst)`. No result (`none`) when a call
of `ndoffset` names an axis `dst` does not have. -/
def series_read (ext : RE2.Ext) (w : World) (self : series_t) (dst : nd_t) : Option ReadResult :=
  let o := (dst.ndim + 2 ^ 64 - self.ndim_ % 2 ^ 64) % 2 ^ 64
  match self.minmax ext w.dir [] [] with
  | none => some { ret := 0, dst := dst, reads := [] }
  | some (mn, _) =>
    if self.isr_ = false then some { ret := 0, dst := dst, reads := [] }
    else
      match w.dir with
      | none => some { ret := 0, dst := dst, reads := [] }
      | some ents =>
        (read_loop ext w self o mn ents dst []).map
          (fun r => { ret := 1, dst := r.1, reads := r.2 })

/-- The source function `setpos(src,o,ipos)`, from index `i` on. -/
def setpos_loop (o : Nat) : List Nat → Nat → nd_t → Option nd_t
  | [], _, src => some src
  | v :: vs, i, src =>
    match ndoffset src ((o + i) % 2 ^ 64 % 2 ^ 32) (toInt64 v) with
    | some src1 => setpos_loop o vs (i + 1) src1
    | none => none

/-- The source function `setpos(src,o,ipos)`. No result when `ndoffset` is
given an axis `src` does not have. -/
def setpos (src : nd_t) (o : Nat) (ipos : List Nat) : Option nd_t := setpos_loop o ipos 0 src

/-- The source function `unsetpos(src,o,ipos)`, from index `i` on. -/
def unsetpos_loop (o : Nat) : List Nat → Nat → nd_t → Option nd_t
  | [], _, src => some src
  | v :: vs, i, src =>
    match ndoffset src ((o + i) % 2 ^ 64 % 2 ^ 32) (-(toInt64 v)) with
    | some src1 => unsetpos_loop o vs (i + 1) src1
    | none => none

/-- The source function `unsetpos(src,o,ipos)`. -/
def unsetpos (src : nd_t) (o : Nat) (ipos : List Nat) : Option nd_t := unsetpos_loop o ipos 0 src

/-- The carry loop of `inc` with `kdim = n - 1`: `none` when the shape array
has no entry `o+kdim`. -/
def inc_loop (src : nd_t) (o : Nat) : Nat → List Nat → Option (Bool × List Nat)
  | 0, ipos => some (false, ipos)
  | n + 1, ipos =>
    match src.shape.get? ((o + n) % 2 ^ 64) with
    | none => none
    | some e =>
      if ipos.getD n 0 = (e + 2 ^ 64 - 1) % 2 ^ 64 then inc_loop src o n (ipos.set n 0)
      else some (true, ipos.set n ((ipos.getD n 0 + 1) % 2 ^ 64))

/-- The source function `inc(src,o,ipos)`: the returned flag and `ipos` as the
call leaves it. -/
def inc (src : nd_t) (o : Nat) (ipos : List Nat) : Option (Bool × List Nat) :=
  inc_loop src o ipos.length ipos

/-- The outcome of `series_write`: the returned value, the context and the
array as the call leaves them, and the files written in order, each with the
array as it was handed to `ndioWrite`. -/
structure WriteResult where
  ret : Nat
  self : series_t
  src : nd_t
  files : List (Str × nd_t)

/-- The `do ... while(inc(src,o,ipos))` loop of `series_write`, for at most
`fuel` rounds. `none`: the rounds are used up, or a library call is given an
axis or a shape entry the array does not have. -/
def write_loop (self : series_t) (o : Nat) :
    Nat → nd_t → List Nat → List (Str × nd_t) → Option WriteResult
  | 0, _, _, _ => none
  | fuel + 1, src, ipos, files =>
    match setpos src o ipos with
    | none => none
    | some src1 =>
      match ndreshape src1 ((o + 2 ^ 64 - self.ndim_ % 2 ^ 64 + 1) % 2 ^ 64 % 2 ^ 32) src1.shape with
      | none => none
      | some src2 =>
        match self.makename ipos with
        | none => some { ret := 0, self := self, src := src2, files := files }
        | some (outname, ipos1) =>
          match ndreshape src2 ((o + 1) % 2 ^ 64 % 2 ^ 32) src2.shape with
          | none => none
          | some src3 =>
            match unsetpos src3 o ipos1 with
            | none => none
            | some src4 =>
              match inc src4 o ipos1 with
              | none => none
              | some (true, ipos2) =>
                write_loop self o fuel src4 ipos2 (files ++ [(outname, src2)])
              | some (false, ipos2) =>
                some { ret := 1,
                       self := { self with last_ := (self.last_ + ipos2.getLastD 0) % 2 ^ 64 },
                       src := src4, files := files ++ [(outname, src2)] }

/-- The source function `series_write(file,src)`, its loop bounded by `fuel`
rounds. -/
def series_write (fuel : Nat) (self : series_t) (src : nd_t) : Option WriteResult :=
  if self.isw_ = false then some { ret := 0, self := self, src := src, files := [] }
  else
    write_loop self ((src.ndim + 2 ^ 64 - 1) % 2 ^ 64) fuel src (List.replicate self.ndim_ 0) []

/-! ### Directories of the tests and of the specification -/

/-- The decimal rendering padded with zeros to four digits. -/
def pad4 (j : Nat) : Str :=
  List.replicate (4 - (Nat.toDigits 10 j).length) '0' ++ Nat.toDigits 10 j

/-- Test set a: ten files `vol.1ch0.tif` … `vol.1ch9.tif`, each of shape
`(620,512)`. -/
def setA : World :=
  { dir := some ((List.range 10).map
      (fun i => "vol.1ch".toList ++ Nat.toDigits 10 i ++ ".tif".toList)),
    ndioOpen := fun _ => some { ndioShape := some [620, 512] } }

/-- Test set b: the files `vol.0.0000.tif` … `vol.1.0015.tif`, each of shape
`(620,512)`. -/
def setB : World :=
  { dir := some ((List.range 2).flatMap (fun i => (List.range 16).map
      (fun j => "vol.".toList ++ Nat.toDigits 10 i ++ ".".toList ++ pad4 j ++ ".tif".toList))),
    ndioOpen := fun _ => some { ndioShape := some [620, 512] } }

/-- The sparse series of the specification: the positions (5,5), (5,6), (6,5)
and (6,6), next to a file that is not of the series. -/
def setSparse : World :=
  { dir := some ["vol.5.5.tif".toList, "notes.txt".toList, "vol.5.6.tif".toList,
                 "vol.6.5.tif".toList, "vol.6.6.tif".toList],
    ndioOpen := fun _ => some { ndioShape := some [620, 512] } }

/-- A directory of the sparse series whose first entry does not open: the
codec opens `vol.5.6.tif`, of shape `(620,512)`, and gives no file for
`vol.5.5.tif`. -/
def setFirstUnreadable : World :=
  { dir := some ["vol.5.5.tif".toList, "vol.5.6.tif".toList],
    ndioOpen := fun p =>
      if p = "data/b/vol.5.5.tif".toList then none else some { ndioShape := some [620, 512] } }

/-! ### The specification's wording of inference, matching and placement -/

/-- One pass over a name that replaces every maximal run of `%` by one capture
slot: the `%` that opens a run gives the slot, a `%` that continues a run gives
nothing, any other character is kept. `inRun` says that the character just
before was a `%`. -/
def pctScan : Bool → Str → Str
  | _, [] => []
  | inRun, c :: cs =>
    if c = '%' then (if inRun = true then pctScan true cs else slot ++ pctScan true cs)
    else c :: pctScan false cs

/-- The number of maximal runs of `%` seen by the same pass. -/
def pctCount : Bool → Str → Nat
  | _, [] => 0
  | inRun, c :: cs =>
    if c = '%' then (if inRun = true then 0 else 1) + pctCount true cs
    else pctCount false cs

/-- The name with each maximal run of `%` replaced by one capture slot. -/
def pctTemplate (name : Str) : Str := pctScan false name

/-- The number of maximal runs of `%` in the name. -/
def pctRuns (name : Str) : Nat := pctCount false name

/-- Where the example pass stands: in plain text, just after a `.`, or inside
the digits of a field. -/
inductive EgState where
  | text
  | dot
  | field
deriving DecidableEq, Repr

/-- One pass over a name that replaces every maximal run of decimal digits
that directly follows a `.` by one capture slot; a digit anywhere else is kept,
and so is every other character. -/
def egScan : EgState → Str → Str
  | _, [] => []
  | st, c :: cs =>
    if c.isDigit = true then
      match st with
      | .text => c :: egScan .text cs
      | .dot => slot ++ egScan .field cs
      | .field => egScan .field cs
    else if c = '.' then c :: egScan .dot cs
    else c :: egScan .text cs

/-- The number of maximal digit runs directly after a `.` seen by the same pass. -/
def egCount : EgState → Str → Nat
  | _, [] => 0
  | st, c :: cs =>
    if c.isDigit = true then
      match st with
      | .text => egCount .text cs
      | .dot => 1 + egCount .field cs
      | .field => egCount .field cs
    else if c = '.' then egCount .dot cs
    else egCount .text cs

/-- The name with each `.`-prefixed maximal digit run replaced by one slot. -/
def egTemplate (name : Str) : Str := egScan .text name

/-- The number of `.`-prefixed maximal digit runs in the name. -/
def egRuns (name : Str) : Nat := egCount .text name

/-- The filename part of a path: what follows its last separator. -/
def basename (path : Str) : Str :=
  match rfind path PATHSEP with
  | some i => path.drop (i + 1)
  | none => path

/-- The one-pass template and count of a strategy. -/
def Strategy.template : Strategy → Str → Str
  | .placeholder => pctTemplate
  | .eg => egTemplate

/-- The one-pass count of a strategy. -/
def Strategy.runs : Strategy → Str → Nat
  | .placeholder => pctRuns
  | .eg => egRuns

/-- The local variable `name` of the constructor: the whole path when no
separator is found or the last one is the first character, else what follows
the last separator. -/
def ctorName (path : Str) : Str :=
  match rfind path PATHSEP with
  | some i => if i = 0 then path else path.drop (i + 1)
  | none => path

/-- The local variable `n` of the constructor. -/
def ctorSplit (path : Str) : Nat :=
  match rfind path PATHSEP with
  | some i => i
  | none => 0

/-- The pattern and the dimension count the two strategies give, tried in
order: the placeholder one, and the example one only when the first finds no
run. -/
def inferred (name : Str) : Str × Nat :=
  if pctRuns name ≠ 0 then (pctTemplate name, pctRuns name)
  else if egRuns name ≠ 0 then (egTemplate name, egRuns name)
  else ([], 0)

/-- The pattern text of a token list. -/
def render : List Tok → Str
  | [] => []
  | .lit c :: ts => c :: render ts
  | .any :: ts => '.' :: render ts
  | .grp :: ts => slot ++ render ts

/-- The name a pattern gives when its groups are replaced, left to right, by
the given texts; a group without a text stays a slot. -/
def fill : List Tok → List Str → Str
  | [], _ => []
  | .lit c :: ts, rs => c :: fill ts rs
  | .any :: ts, rs => '.' :: fill ts rs
  | .grp :: ts, [] => slot ++ fill ts []
  | .grp :: ts, r :: rs => r ++ fill ts rs

/-- No group is directly followed by a literal decimal digit or by another
group. -/
def delimited : List Tok → Bool
  | [] => true
  | .grp :: .grp :: _ => false
  | .grp :: .lit c :: ts => !c.isDigit && delimited ts
  | _ :: ts => delimited ts

/-- The literal characters of the tokens have no special meaning. -/
def plainToks (ts : List Tok) : Prop := ∀ c, Tok.lit c ∈ ts → RE2.special c = false

/-- The names a pattern stands for: `Inst toks name runs` says that `name` is
the pattern with each group replaced by a non-empty run of decimal digits (the
`runs`, left to right), each wildcard by one character other than the newline,
and each literal character kept. -/
inductive Inst : List Tok → Str → List Str → Prop where
  | nil : Inst [] [] []
  | lit (c : Char) (ts : List Tok) (xs : Str) (rs : List Str) :
      Inst ts xs rs → Inst (Tok.lit c :: ts) (c :: xs) rs
  | any (x : Char) (ts : List Tok) (xs : Str) (rs : List Str) :
      x ≠ '\n' → Inst ts xs rs → Inst (Tok.any :: ts) (x :: xs) rs
  | grp (r : Str) (ts : List Tok) (xs : Str) (rs : List Str) :
      r ≠ [] → (∀ c ∈ r, c.isDigit = true) → Inst ts xs rs →
      Inst (Tok.grp :: ts) (r ++ xs) (r :: rs)

/-- The order in which the matcher prefers one splitting of a name into runs
over another: the earliest run that differs in length is the longer one. -/
def prefer : List Str → List Str → Prop
  | [], [] => True
  | r :: rs, q :: qs => q.length < r.length ∨ (q.length = r.length ∧ prefer rs qs)
  | _, _ => False

/-- The wildcard-free reading of a pattern: each `.` is the character `.`. -/
def literalDots : List Tok → List Tok
  | [] => []
  | .any :: ts => Tok.lit '.' :: literalDots ts
  | t :: ts => t :: literalDots ts

/-- The position with its last component raised by `d`. -/
def bumpLast (p : List Nat) (d : Nat) : List Nat :=
  match p with
  | [] => []
  | [v] => [v + d]
  | v :: w :: vs => v :: bumpLast (w :: vs) d

/-- The name has no character with a special meaning in pattern syntax, the
`.` apart. -/
def plainName (name : Str) : Prop := ∀ c ∈ name, c = '.' ∨ RE2.special c = false

/-- The text starts with a decimal digit. -/
def startsDigit : Str → Bool
  | [] => false
  | c :: _ => c.isDigit

/-- No `%` of the name is directly followed by a decimal digit. -/
def pctDelimited : Str → Bool
  | [] => true
  | c :: cs => (c != '%' || !startsDigit cs) && pctDelimited cs

/-- The tokens do not start with a literal digit or a group. -/
def headOK : List Tok → Bool
  | [] => true
  | .lit c :: _ => !c.isDigit
  | .any :: _ => true
  | .grp :: _ => false

/-- What the accumulators of `minmax` hold once the positions `seen` have been
folded in: nothing before the first one, then the componentwise minimum and
maximum, both attained. -/
def bboxOf (n : Nat) (acc : TPos × TPos) (seen : List TPos) : Prop :=
  (seen = [] ∧ acc = ([], [])) ∨
  (seen ≠ [] ∧ acc.1.length = n ∧ acc.2.length = n ∧
    ∀ i,
      (∀ p ∈ seen, acc.1.getD i 0 ≤ p.getD i 0 ∧ p.getD i 0 ≤ acc.2.getD i 0) ∧
      (∃ p ∈ seen, p.getD i 0 = acc.1.getD i 0) ∧
      (∃ p ∈ seen, p.getD i 0 = acc.2.getD i 0))

/-- The extent `series_shape` passes to `ndShapeSet` for series dimension `i`. -/
def extentArg (mn mx : TPos) (i : Nat) : Nat :=
  (mx.getD i 0 + 2 ^ 64 - mn.getD i 0 + 1) % 2 ^ 64

/-- The displacement one of the two loops of `series_read` passes to `ndoffset`
for series dimension `t`. -/
def readDelta (v mn : TPos) (back : Bool) (t : Nat) : Int :=
  if back = true then -(toInt64 (v.getD t 0)) + toInt64 (mn.getD t 0)
  else toInt64 ((v.getD t 0 + 2 ^ 64 - mn.getD t 0) % 2 ^ 64)

/-- The destination with the series axes `o … o+k-1` displaced by
`v[i] - mn[i]`. -/
def placedAt (o k : Nat) (v mn : TPos) (dst : nd_t) : nd_t :=
  { dst with offset := fun j => dst.offset j +
      (if o ≤ j ∧ j < o + k then ((v.getD (j - o) 0 : Nat) : Int) - ((mn.getD (j - o) 0 : Nat) : Int)
       else 0) }

/-- The files `series_read` hands to the codec, each with the destination as
handed over. -/
def readsOf (ext : RE2.Ext) (w : World) (s : series_t) (o : Nat) (mn : TPos) (dst : nd_t)
    (ents : List Str) : List (Str × nd_t) :=
  ents.filterMap (fun e =>
    match s.parse ext e, openfile w s.path_ e with
    | some v, some _ => some (e, placedAt o s.ndim_ v mn dst)
    | _, _ => none)

/-! ### Positions of a box and the loop over them -/

/-- The extents of the `k` series axes `o … o+k-1` of `src`, as `inc` reads
them from the shape array. -/
def boxExts (src : nd_t) (o k : Nat) : List Nat := (src.shape.drop o).take k

/-- The position lies in the box of the extents: one component per extent,
each below its extent. -/
def inBox : List Nat → List Nat → Prop
  | [], [] => True
  | e :: es, x :: xs => x < e ∧ inBox es xs
  | _, _ => False

/-- The lexicographic order on positions, the first component the slowest. -/
def lexLt : List Nat → List Nat → Prop
  | x :: xs, y :: ys => x < y ∨ (x = y ∧ lexLt xs ys)
  | _, _ => False

/-- The number of in-box positions that precede `p` in lexicographic order. -/
def rankPos : List Nat → List Nat → Nat
  | _ :: es, x :: xs => x * es.prod + rankPos es xs
  | _, _ => 0

/-- The positions a loop `do … while(inc(src,o,ipos))` goes through from
`ipos`, one for each round, for at most `fuel` rounds. `none`: the rounds are
used up, or `inc` has no result. -/
def inc_visits (src : nd_t) (o : Nat) : Nat → List Nat → Option (List (List Nat))
  | 0, _ => none
  | fuel + 1, ipos =>
    match inc src o ipos with
    | none => none
    | some (true, ipos1) => (inc_visits src o fuel ipos1).map (fun l => ipos :: l)
    | some (false, _) => some [ipos]

/-! ### Seeking: `canseek`, the seek table and `series_seek` -/

/-- What the codec answers for its transfers during one call, each file named
by the path it was opened with: the answer of `ndioCanSeek(file,idim)`, whether
`ndioReadSubarray(file,dst,pos,NULL)` and `ndioRead(file,dst)` succeed,
whether `ndioOpen(path,NULL,"w")` gives a file, and whether
`ndioWrite(file,src)` succeeds. -/
structure Codec where
  ndioCanSeek : Str → Nat → Nat
  ndioReadSubarray : Str → nd_t → List Nat → Bool
  ndioRead : Str → nd_t → Bool
  ndioOpenW : Str → Bool
  ndioWrite : Str → nd_t → Bool

/-- The source function `vadd(acc,pos)`: `pos[i]` is added to `acc[i]` for every
component of `acc`. No result when `pos` has fewer components than `acc`. -/
def vadd : List Nat → TPos → Option (List Nat)
  | [], _ => some []
  | _ :: _, [] => none
  | a :: acc, p :: pos => (vadd acc pos).map (fun r => (a + p) % 2 ^ 64 :: r)

/-- The assignment `seektable_[pos]=name` on a `std::map`: the name stored for
`pos` is replaced, or a new pair is added. -/
def seektable_set : List (TPos × Str) → TPos → Str → List (TPos × Str)
  | [], pos, name => [(pos, name)]
  | (p, n) :: rest, pos, name =>
    if p = pos then (p, name) :: rest else (p, n) :: seektable_set rest pos name

/-- The lookup `seektable_.find(ipos)`: the name stored for `ipos`, `none` for
`seektable_.end()`. -/
def seektable_find (t : List (TPos × Str)) (ipos : TPos) : Option Str :=
  (t.find? (fun e => decide (e.1 = ipos))).map Prod.snd

/-- The body of the `readdir` loop of `build_seek_table_`, for one entry. -/
def seek_table_step (ext : RE2.Ext) (self : series_t) (t : List (TPos × Str)) (ent : Str) :
    List (TPos × Str) :=
  match self.parse ext ent with
  | some pos => seektable_set t pos ent
  | none => t

/-- The source method `series_t::build_seek_table_()` on the directory listing:
`none` is the `false` return. -/
def series_t.build_seek_table_ (ext : RE2.Ext) (self : series_t) (dir : Option (List Str)) :
    Option series_t :=
  match dir with
  | none => none
  | some ents => some { self with seektable_ := ents.foldl (seek_table_step ext self) [] }

/-- The source method `series_t::find(out,ipos)`: the name put in `out` (`none`
for the `false` return) and the context as the call leaves it. -/
def series_t.find (ext : RE2.Ext) (w : World) (self : series_t) (ipos : TPos) :
    Option Str × series_t :=
  match (if self.seektable_.isEmpty = true then self.build_seek_table_ ext w.dir else some self) with
  | none => (none, self)
  | some self1 =>
    match seektable_find self1.seektable_ ipos with
    | none => (none, self1)
    | some name => (some (self1.dirPrefix ++ name), self1)

/-- The `readdir` loop of `canseek`: the returned value and the context as the
call leaves it. -/
def canseek_loop (ext : RE2.Ext) (w : World) (codec : Codec) (self : series_t) (idim : Nat) :
    List Str → Nat × series_t
  | [] => (0, self)
  | ent :: ents =>
    match self.parse ext ent with
    | none => canseek_loop ext w codec self idim ents
    | some _ =>
      match openfile w self.path_ ent with
      | none => (0, self)
      | some file =>
        match file.ndioShape with
        | none => (0, self)
        | some shape =>
          (if idim < (nd_t.ofShape shape).ndim then
              codec.ndioCanSeek (self.path_ ++ [PATHSEP] ++ ent) idim
            else 1,
           { self with fdim_ := ((nd_t.ofShape shape).ndim : Int) })

/-- The source method `series_t::canseek(idim)`: the returned value and the
context as the call leaves it. -/
def series_t.canseek (ext : RE2.Ext) (w : World) (codec : Codec) (self : series_t) (idim : Nat) :
    Nat × series_t :=
  match w.dir with
  | none => (0, self)
  | some ents => canseek_loop ext w codec self idim ents

/-- The source function `series_canseek(file,idim)`. -/
def series_canseek (ext : RE2.Ext) (w : World) (codec : Codec) (self : series_t) (idim : Nat) :
    Nat × series_t :=
  self.canseek ext w codec idim

/-- The loop `for(size_t i=0;i<ndndim(dst);++i) if(self->canseek(i)) ndshape(dst)[i]=1`
of `series_seek`, from index `i` on for `n` rounds. The shape array of an array
of the library holds an entry for each of its dimensions, so the assignment
stays inside it. -/
def seek_reduce (ext : RE2.Ext) (w : World) (codec : Codec) :
    Nat → Nat → series_t → nd_t → series_t × nd_t
  | 0, _, self, dst => (self, dst)
  | n + 1, i, self, dst =>
    seek_reduce ext w codec n (i + 1) (self.canseek ext w codec i).2
      (if (self.canseek ext w codec i).1 ≠ 0 then { dst with shape := dst.shape.set i 1 } else dst)

/-- The copy `memcpy(ndshape(dst),shape,ndndim(dst)*sizeof(size_t))` that
`series_seek` makes on return: the first `ndndim(dst)` entries of the saved
shape are written back. No result when the saved shape has fewer entries. -/
def seek_restore (dst : nd_t) (saved : List Nat) : Option nd_t :=
  if dst.ndim ≤ saved.length then
    some { dst with shape := saved.take dst.ndim ++ dst.shape.drop dst.ndim }
  else none

/-- The outcome of `series_seek`: the returned value, the context and the
array as the call leaves them, and the file handed to `ndioReadSubarray`, if
any, with the array as handed over. -/
structure SeekResult where
  ret : Nat
  self : series_t
  dst : nd_t
  read : Option (Str × nd_t)

/-- The `Error:` exit of `series_seek`. -/
def seek_error (self : series_t) (dst : nd_t) (saved : List Nat) (read : Option (Str × nd_t)) :
    Option SeekResult :=
  (seek_restore dst saved).map (fun d => { ret := 0, self := self, dst := d, read := read })

/-- The source function `series_seek(file,dst,pos)`. No result (`none`) when
`pos` has fewer than `fdim_ + ndim_` entries, when the bounding-box minimum has
fewer than `ndim_` components, or when a library call reads a shape past its
end. -/
def series_seek (ext : RE2.Ext) (w : World) (codec : Codec) (self : series_t) (dst : nd_t)
    (pos : List Nat) : Option SeekResult :=
  let odim := dst.ndim
  let saved := dst.shape.take dst.ndim
  let self1 := (seek_reduce ext w codec dst.ndim 0 self dst).1
  let dst1 := (seek_reduce ext w codec dst.ndim 0 self dst).2
  match self1.minmax ext w.dir [] [] with
  | none => seek_error self1 dst1 saved none
  | some (mn, _) =>
    if ¬ (0 < self1.fdim_) then seek_error self1 dst1 saved none
    else if pos.length < self1.fdim_.toNat + self1.ndim_ then none
    else
      match vadd ((pos.drop self1.fdim_.toNat).take self1.ndim_) mn with
      | none => none
      | some ipos =>
        match (self1.find ext w ipos).1 with
        | none => seek_error (self1.find ext w ipos).2 dst1 saved none
        | some outname =>
          match w.ndioOpen outname with
          | none => seek_error (self1.find ext w ipos).2 dst1 saved none
          | some _ =>
            match ndreshape dst1 (self1.fdim_.toNat % 2 ^ 32) dst1.shape with
            | none => none
            | some dst2 =>
              if codec.ndioReadSubarray outname dst2 pos = false then
                seek_error (self1.find ext w ipos).2 dst2 saved (some (outname, dst2))
              else
                match ndreshape dst2 (odim % 2 ^ 32) dst2.shape with
                | none => none
                | some dst3 =>
                  (seek_restore dst3 saved).map (fun d =>
                    { ret := 1, self := (self1.find ext w ipos).2, dst := d,
                      read := some (outname, dst2) })

/-! ### Codecs of the examples and the transfers of a call -/

/-- The results of the calls `ndioRead(file,dst)` of one `series_read`, in the
order of the calls: each file is the one `openfile(path_,name)` opened. -/
def ReadResult.transfers (codec : Codec) (self : series_t) (r : ReadResult) : List Bool :=
  r.reads.map (fun f => codec.ndioRead (self.path_ ++ [PATHSEP] ++ f.1) f.2)

/-- The results of the calls `ndioWrite(ndioOpen(outname,NULL,"w"),src)` of one
`series_write`, in the order of the calls: a transfer succeeds when the file
opens and the write succeeds. -/
def WriteResult.transfers (codec : Codec) (r : WriteResult) : List Bool :=
  r.files.map (fun f => codec.ndioOpenW f.1 && codec.ndioWrite f.1 f.2)

/-- A codec whose files seek along every axis but the first and whose
transfers all succeed. -/
def codecOk : Codec :=
  { ndioCanSeek := fun _ idim => if idim = 0 then 0 else 1,
    ndioReadSubarray := fun _ _ _ => true,
    ndioRead := fun _ _ => true,
    ndioOpenW := fun _ => true,
    ndioWrite := fun _ _ => true }

/-- A codec whose transfers all fail: no read, sub-array read or write
succeeds, and no file opens for writing. -/
def codecFail : Codec :=
  { ndioCanSeek := fun _ idim => if idim = 0 then 0 else 1,
    ndioReadSubarray := fun _ _ _ => false,
    ndioRead := fun _ _ => false,
    ndioOpenW := fun _ => false,
    ndioWrite := fun _ _ => false }

/-! ### The specification's wording of the seek -/

/-- The seek table built from the listing `seen`. -/
def seekTableOf (ext : RE2.Ext) (s : series_t) (seen : List Str) : List (TPos × Str) :=
  seen.foldl (seek_table_step ext s) []

/-- The last entry of the listing whose parse is exactly `q`. -/
def lastMatch (ext : RE2.Ext) (s : series_t) (seen : List Str) (q : TPos) : Option Str :=
  seen.reverse.find? (fun e => decide (s.parse ext e = some q))

/-- The position `q` with `q[i] = pos[f+i] + mn[i]` for `i < k`, in `size_t`
arithmetic. -/
def seekPos (f k : Nat) (pos : List Nat) (mn : TPos) : TPos :=
  (List.range k).map (fun i => (pos.getD (f + i) 0 + mn.getD i 0) % 2 ^ 64)

/-! ## The loop of `gen_pattern_`, with the lemmas its termination needs -/

theorem dropWhile_countP_le (p q : Char → Bool) (l : Str) :
    (l.dropWhile q).countP p ≤ l.countP p :=
  List.Sublist.countP_le _ (List.dropWhile_sublist _)

theorem rewriteText_placeholder : RE2.rewriteText Strategy.placeholder.repl = slot := by decide

theorem rewriteText_eg : RE2.rewriteText Strategy.eg.repl = '.' :: slot := by decide

/-- One step of `Replace` with the placeholder expression, by cases on the head. -/
theorem Replace_ptn_cons (c : Char) (cs : Str) :
    RE2.Replace (c :: cs) .ptn_field Strategy.placeholder.repl =
      if c = '%' then some (slot ++ cs.dropWhile (fun x => x = '%'))
      else (RE2.Replace cs .ptn_field Strategy.placeholder.repl).map (fun r => c :: r) := by
  by_cases hc : c = '%'
  · simp [RE2.Replace, RE2.matchHead, hc, rewriteText_placeholder]
  · simp [RE2.Replace, RE2.matchHead, hc]

/-- One step of `Replace` with the example expression at the last character. -/
theorem Replace_eg_single (c : Char) :
    RE2.Replace [c] .eg_field Strategy.eg.repl = none := by
  simp [RE2.Replace, RE2.matchHead]

/-- One step of `Replace` with the example expression, by cases on the first two
characters. -/
theorem Replace_eg_cons (c d : Char) (ds : Str) :
    RE2.Replace (c :: d :: ds) .eg_field Strategy.eg.repl =
      if c = '.' ∧ d.isDigit = true then some ('.' :: slot ++ ds.dropWhile Char.isDigit)
      else (RE2.Replace (d :: ds) .eg_field Strategy.eg.repl).map (fun r => c :: r) := by
  by_cases hc : c = '.' ∧ d.isDigit = true
  · rw [RE2.Replace]
    simp only [RE2.matchHead, hc, and_self, if_true, rewriteText_eg]
  · rw [RE2.Replace]
    simp only [RE2.matchHead, hc, if_false]

theorem Replace_placeholder_count (s t : Str)
    (h : RE2.Replace s .ptn_field Strategy.placeholder.repl = some t) :
    t.countP (Strategy.trigger .placeholder) < s.countP (Strategy.trigger .placeholder) := by
  induction s generalizing t with
  | nil => simp [RE2.Replace] at h
  | cons c cs ih =>
    rw [Replace_ptn_cons] at h
    by_cases hc : c = '%'
    · simp only [hc, if_true] at h
      injection h with h
      subst h
      subst hc
      have h1 := dropWhile_countP_le (Strategy.trigger .placeholder) (fun x => x = '%') cs
      simp only [Strategy.trigger] at h1 ⊢
      simp [slot, List.countP_cons] at h1 ⊢
      omega
    · simp only [hc, if_false] at h
      cases hr : RE2.Replace cs .ptn_field Strategy.placeholder.repl with
      | none => simp [hr] at h
      | some r =>
        simp only [hr, Option.map_some', Option.some.injEq] at h
        subst h
        have := ih r hr
        simp only [Strategy.trigger] at this ⊢
        simp [List.countP_cons, hc]
        exact this

theorem Replace_eg_count (s t : Str)
    (h : RE2.Replace s .eg_field Strategy.eg.repl = some t) :
    t.countP (Strategy.trigger .eg) < s.countP (Strategy.trigger .eg) := by
  induction s generalizing t with
  | nil => simp [RE2.Replace] at h
  | cons c cs ih =>
    cases cs with
    | nil => simp [Replace_eg_single] at h
    | cons d ds =>
      rw [Replace_eg_cons] at h
      by_cases hc : c = '.' ∧ d.isDigit = true
      · simp only [hc, and_self, if_true] at h
        injection h with h
        subst h
        have h1 := dropWhile_countP_le Char.isDigit Char.isDigit ds
        obtain ⟨hc1, hd⟩ := hc
        subst hc1
        have e1 : Char.isDigit '.' = false := by decide
        have e2 : Char.isDigit '(' = false := by decide
        have e3 : Char.isDigit '\\' = false := by decide
        have e4 : Char.isDigit 'd' = false := by decide
        have e5 : Char.isDigit '+' = false := by decide
        have e6 : Char.isDigit ')' = false := by decide
        simp only [Strategy.trigger, slot, List.cons_append,
          List.nil_append, List.countP_cons, e1, e2, e3, e4, e5, e6, hd] at h1 ⊢
        simp
        omega
      · simp only [hc, if_false] at h
        cases hr : RE2.Replace (d :: ds) .eg_field Strategy.eg.repl with
        | none => simp [hr] at h
        | some r =>
          simp only [hr, Option.map_some', Option.some.injEq] at h
          subst h
          have := ih r hr
          simp only [Strategy.trigger, List.countP_cons] at this ⊢
          omega

theorem Replace_strategy_count (st : Strategy) (s t : Str)
    (h : RE2.Replace s st.re st.repl = some t) :
    t.countP st.trigger < s.countP st.trigger := by
  cases st with
  | placeholder => exact Replace_placeholder_count s t h
  | eg => exact Replace_eg_count s t h

/-- The loop `while(RE2::Replace(&name,re,repl)) ++ndim_;` of `gen_pattern_`:
the name and the count when `Replace` first fails. Each round removes a
trigger character of the strategy, which bounds the number of rounds. -/
def gen_loop (st : Strategy) (name : Str) (ndim : Nat) : Str × Nat :=
  match h : RE2.Replace name st.re st.repl with
  | some name' => gen_loop st name' (ndim + 1)
  | none => (name, ndim)
termination_by name.countP st.trigger
decreasing_by exact Replace_strategy_count st _ _ h

/-- The source method `series_t::gen_pattern_(name,re,repl)`: the context after
the call, `name` as the call leaves it (it is passed by reference), and the
returned flag. -/
def series_t.gen_pattern_ (self : series_t) (name : Str) (st : Strategy) :
    series_t × Str × Bool :=
  let r := gen_loop st name self.ndim_
  ({ self with ndim_ := r.2, pattern_ := if r.2 ≠ 0 then r.1 else self.pattern_ },
   r.1, decide (0 < r.2))

/-- The constructor `series_t(path,mode)`. A failed `parse_mode_string` jumps to
`Error:` with the fields as they are. -/
def series_t.ctor (path mode : Str) : series_t :=
  let m := parse_mode_string mode
  let self := { series_t.init with isr_ := m.2.1, isw_ := m.2.2 }
  if m.1 = false then self
  else
    let n := match rfind path PATHSEP with
      | some i => i
      | none => 0
    let self := { self with path_ := path.take n }
    let name := if n = 0 then path else path.drop (n + 1)
    let r := self.gen_pattern_ name .placeholder
    if r.2.2 = true then r.1 else (r.1.gen_pattern_ r.2.1 .eg).1

/-- The source function `series_open(path,mode)`: `none` is the null return. -/
def series_open (path mode : Str) : Option series_t :=
  let out := series_t.ctor path mode
  if out.isok = true then some out else none

/-! ## Lemmas and claims -/

/-! ### The rewriting loop computes the one-pass templates -/

theorem pctScan_true (cs : Str) :
    pctScan true cs = pctScan false (cs.dropWhile (fun x => x = '%')) ∧
    pctCount true cs = pctCount false (cs.dropWhile (fun x => x = '%')) := by
  induction cs with
  | nil => simp [pctScan, pctCount]
  | cons c cs ih =>
    by_cases hc : c = '%'
    · simp [pctScan, pctCount, hc, List.dropWhile_cons, ih.1, ih.2]
    · simp [pctScan, pctCount, hc, List.dropWhile_cons]

theorem pctScan_slot (b : Bool) (s : Str) :
    pctScan b (slot ++ s) = slot ++ pctScan false s ∧
    pctCount b (slot ++ s) = pctCount false s := by
  simp [slot, pctScan, pctCount]

theorem Replace_ptn_some (s t : Str)
    (h : RE2.Replace s .ptn_field Strategy.placeholder.repl = some t) :
    pctScan false t = pctScan false s ∧ pctCount false s = pctCount false t + 1 := by
  induction s generalizing t with
  | nil => simp [RE2.Replace] at h
  | cons c cs ih =>
    rw [Replace_ptn_cons] at h
    by_cases hc : c = '%'
    · simp only [hc, if_true] at h
      injection h with h
      subst h
      subst hc
      have h1 := pctScan_true cs
      have h2 := pctScan_slot false (cs.dropWhile (fun x => x = '%'))
      have e1 : pctScan false ('%' :: cs) = slot ++ pctScan true cs := by simp [pctScan]
      have e2 : pctCount false ('%' :: cs) = 1 + pctCount true cs := by simp [pctCount]
      rw [h2.1, h2.2, e1, e2, h1.1, h1.2]
      exact ⟨rfl, by omega⟩
    · simp only [hc, if_false] at h
      cases hr : RE2.Replace cs .ptn_field Strategy.placeholder.repl with
      | none => simp [hr] at h
      | some r =>
        simp only [hr, Option.map_some', Option.some.injEq] at h
        subst h
        have := ih r hr
        simp [pctScan, pctCount, hc, this.1, this.2]

theorem Replace_ptn_none (s : Str)
    (h : RE2.Replace s .ptn_field Strategy.placeholder.repl = none) :
    pctScan false s = s ∧ pctCount false s = 0 := by
  induction s with
  | nil => simp [pctScan, pctCount]
  | cons c cs ih =>
    rw [Replace_ptn_cons] at h
    by_cases hc : c = '%'
    · simp [hc] at h
    · simp only [hc, if_false, Option.map_eq_none'] at h
      have := ih h
      simp [pctScan, pctCount, hc, this.1, this.2]

theorem egScan_cons (st : EgState) (c : Char) (cs : Str) :
    egScan st (c :: cs) =
      if c.isDigit = true then
        match st with
        | .text => c :: egScan .text cs
        | .dot => slot ++ egScan .field cs
        | .field => egScan .field cs
      else if c = '.' then c :: egScan .dot cs
      else c :: egScan .text cs := by
  simp only [egScan]

theorem egCount_cons (st : EgState) (c : Char) (cs : Str) :
    egCount st (c :: cs) =
      if c.isDigit = true then
        match st with
        | .text => egCount .text cs
        | .dot => 1 + egCount .field cs
        | .field => egCount .field cs
      else if c = '.' then egCount .dot cs
      else egCount .text cs := by
  simp only [egCount]

theorem egScan_nondigit (st : EgState) (c : Char) (cs : Str) (hc : c.isDigit = false) :
    egScan st (c :: cs) = egScan .text (c :: cs) ∧
    egCount st (c :: cs) = egCount .text (c :: cs) := by
  simp [egScan, egCount, hc]

theorem egScan_field (cs : Str) :
    egScan .field cs = egScan .text (cs.dropWhile Char.isDigit) ∧
    egCount .field cs = egCount .text (cs.dropWhile Char.isDigit) := by
  induction cs with
  | nil => simp [egScan, egCount]
  | cons c cs ih =>
    by_cases hc : c.isDigit = true
    · simp [egScan, egCount, hc, List.dropWhile_cons, ih.1, ih.2]
    · have hc2 : c.isDigit = false := by simpa using hc
      simp only [List.dropWhile_cons, hc2]
      exact egScan_nondigit .field c cs hc2

theorem egScan_slot (st : EgState) (s : Str) :
    egScan st ('.' :: slot ++ s) = '.' :: slot ++ egScan .text s ∧
    egCount st ('.' :: slot ++ s) = egCount .text s := by
  have e1 : Char.isDigit '.' = false := by decide
  have e2 : Char.isDigit '(' = false := by decide
  have e3 : Char.isDigit '\\' = false := by decide
  have e4 : Char.isDigit 'd' = false := by decide
  have e5 : Char.isDigit '+' = false := by decide
  have e6 : Char.isDigit ')' = false := by decide
  simp [slot, egScan, egCount, e1, e2, e3, e4, e5, e6]

theorem Replace_eg_some (s t : Str)
    (h : RE2.Replace s .eg_field Strategy.eg.repl = some t) (st : EgState) :
    egScan st t = egScan st s ∧ egCount st s = egCount st t + 1 := by
  induction s generalizing t st with
  | nil => simp [RE2.Replace] at h
  | cons c cs ih =>
    cases cs with
    | nil => simp [Replace_eg_single] at h
    | cons d ds =>
      rw [Replace_eg_cons] at h
      by_cases hc : c = '.' ∧ d.isDigit = true
      · simp only [hc, and_self, if_true] at h
        injection h with h
        subst h
        obtain ⟨hc1, hd⟩ := hc
        subst hc1
        have h1 := egScan_field ds
        have h2 := egScan_slot st (ds.dropWhile Char.isDigit)
        have e1 : Char.isDigit '.' = false := by decide
        rw [h2.1, h2.2]
        simp only [egScan, egCount, e1, hd, if_true, h1.1, h1.2]
        simp
        omega
      · simp only [hc, if_false] at h
        cases hr : RE2.Replace (d :: ds) .eg_field Strategy.eg.repl with
        | none => simp [hr] at h
        | some r =>
          simp only [hr, Option.map_some', Option.some.injEq] at h
          subst h
          have ih1 := fun st => ih r hr st
          rw [egScan_cons st c r, egScan_cons st c (d :: ds), egCount_cons st c r,
            egCount_cons st c (d :: ds)]
          by_cases hcd : c.isDigit = true
          · cases st <;> simp [hcd, ih1]
            all_goals omega
          · by_cases hc1 : c = '.' <;> simp [hcd, hc1, ih1]

theorem Replace_eg_none (s : Str)
    (h : RE2.Replace s .eg_field Strategy.eg.repl = none) :
    egScan .text s = s ∧ egCount .text s = 0 := by
  induction s with
  | nil => simp [egScan, egCount]
  | cons c cs ih =>
    cases cs with
    | nil =>
      by_cases hcd : c.isDigit = true <;> by_cases hc : c = '.' <;>
        simp [egScan, egCount, hcd, hc]
    | cons d ds =>
      rw [Replace_eg_cons] at h
      by_cases hc : c = '.' ∧ d.isDigit = true
      · simp [hc] at h
      · simp only [hc, if_false, Option.map_eq_none'] at h
        have ih1 := ih h
        by_cases hcd : c.isDigit = true
        · rw [egScan, egCount]
          simp [hcd, ih1.1, ih1.2]
        · by_cases hc1 : c = '.'
          · have hd : d.isDigit = false := by
              cases hdd : d.isDigit with
              | false => rfl
              | true => exact absurd ⟨hc1, hdd⟩ hc
            have h3 := egScan_nondigit .dot d ds hd
            rw [egScan, egCount]
            simp [hcd, hc1, h3.1, h3.2, ih1.1, ih1.2]
          · rw [egScan, egCount]
            simp [hcd, hc1, ih1.1, ih1.2]

theorem Replace_strategy_some (st : Strategy) (s t : Str)
    (h : RE2.Replace s st.re st.repl = some t) :
    st.template t = st.template s ∧ st.runs s = st.runs t + 1 := by
  cases st with
  | placeholder => exact Replace_ptn_some s t h
  | eg => exact Replace_eg_some s t h .text

theorem Replace_strategy_none (st : Strategy) (s : Str)
    (h : RE2.Replace s st.re st.repl = none) :
    st.template s = s ∧ st.runs s = 0 := by
  cases st with
  | placeholder => exact Replace_ptn_none s h
  | eg => exact Replace_eg_none s h

/-- The loop of `gen_pattern_` ends with the one-pass template of the name and
has added the one-pass count to the counter. -/
theorem gen_loop_eq (st : Strategy) (name : Str) (ndim : Nat) :
    gen_loop st name ndim = (st.template name, ndim + st.runs name) := by
  suffices H : ∀ (m : Nat) (name : Str) (ndim : Nat), name.countP st.trigger = m →
      gen_loop st name ndim = (st.template name, ndim + st.runs name) from H _ name ndim rfl
  intro m
  induction m using Nat.strong_induction_on with
  | _ m ih =>
    intro name ndim hm
    unfold gen_loop
    split
    · rename_i name' h
      have hlt := Replace_strategy_count st _ _ h
      have hs := Replace_strategy_some st _ _ h
      rw [ih _ (by rw [← hm]; exact hlt) name' (ndim + 1) rfl, hs.1, hs.2]
      congr 1
      omega
    · rename_i h
      have hn := Replace_strategy_none st _ h
      rw [hn.1, hn.2]
      rfl

/-- A name in which the strategy counts no field is its own template: the
first `Replace` fails and leaves it as it is. -/
theorem gen_loop_zero (st : Strategy) (name : Str) (h : st.runs name = 0) :
    st.template name = name := by
  cases hr : RE2.Replace name st.re st.repl with
  | none => exact (Replace_strategy_none st name hr).1
  | some t =>
    have := (Replace_strategy_some st name t hr).2
    omega

/-- When the loop of `gen_pattern_` ends, `Replace` finds no further field. -/
theorem gen_loop_exit (st : Strategy) (name : Str) (ndim : Nat) :
    RE2.Replace (gen_loop st name ndim).1 st.re st.repl = none := by
  suffices H : ∀ (m : Nat) (name : Str) (ndim : Nat), name.countP st.trigger = m →
      RE2.Replace (gen_loop st name ndim).1 st.re st.repl = none from H _ name ndim rfl
  intro m
  induction m using Nat.strong_induction_on with
  | _ m ih =>
    intro name ndim hm
    unfold gen_loop
    split
    · rename_i name' h
      have hlt := Replace_strategy_count st _ _ h
      exact ih _ (by rw [← hm]; exact hlt) name' (ndim + 1) rfl
    · rename_i h
      exact h

/-! ### The constructor in closed form -/

/-- The constructor in closed form. -/
theorem ctor_eq (path mode : Str) :
    series_t.ctor path mode =
      if (parse_mode_string mode).1 = false then
        { series_t.init with isr_ := (parse_mode_string mode).2.1,
                             isw_ := (parse_mode_string mode).2.2 }
      else
        { series_t.init with isr_ := (parse_mode_string mode).2.1,
                             isw_ := (parse_mode_string mode).2.2,
                             path_ := path.take (ctorSplit path),
                             pattern_ := (inferred (ctorName path)).1,
                             ndim_ := (inferred (ctorName path)).2 } := by
  unfold series_t.ctor
  by_cases hm : (parse_mode_string mode).1 = false
  · simp [hm]
  · have hname : (if ctorSplit path = 0 then path else path.drop (ctorSplit path + 1))
        = ctorName path := by
      unfold ctorName ctorSplit
      cases rfind path PATHSEP <;> simp
    have hn : (match rfind path PATHSEP with | some i => i | none => 0) = ctorSplit path := rfl
    simp only [hm, if_false, hn, hname, series_t.gen_pattern_, gen_loop_eq, series_t.init,
      inferred, Strategy.template, Strategy.runs, Nat.zero_add]
    generalize ctorName path = nm
    by_cases h1 : pctRuns nm = 0
    · have h0 : pctTemplate nm = nm := gen_loop_zero .placeholder nm h1
      by_cases h2 : egRuns nm = 0
      · simp [h1, h2, h0]
      · simp [h1, h2, h0]
    · have h3 : 0 < pctRuns nm := by omega
      simp [h1, h3]

theorem pctCount_no_pct (b : Bool) (name : Str) (h : '%' ∉ name) : pctCount b name = 0 := by
  induction name generalizing b with
  | nil => rfl
  | cons c cs ih =>
    have hc : c ≠ '%' := fun e => h (by simp [e])
    have hcs : '%' ∉ cs := fun e => h (by simp [e])
    simp [pctCount, hc, ih false hcs]

theorem rfind_none (p : Str) (c : Char) (h : c ∉ p) : rfind p c = none := by
  induction p with
  | nil => rfl
  | cons x xs ih =>
    have hx : x ≠ c := fun e => h (by simp [e])
    have hxs : c ∉ xs := fun e => h (by simp [e])
    simp [rfind, ih hxs, hx]

theorem rfind_zero (p : Str) (c : Char) (h : rfind p c = some 0) : ∃ rest, p = c :: rest := by
  cases p with
  | nil => simp [rfind] at h
  | cons x xs =>
    simp only [rfind] at h
    cases hr : rfind xs c with
    | some i => simp [hr] at h
    | none =>
      simp only [hr] at h
      by_cases hx : x = c
      · exact ⟨xs, by rw [hx]⟩
      · simp [hx] at h

/-- The name the constructor works on has the runs of the filename part. -/
theorem ctorName_runs (path : Str) :
    pctRuns (ctorName path) = pctRuns (basename path) ∧
    egRuns (ctorName path) = egRuns (basename path) := by
  unfold ctorName basename
  cases hr : rfind path PATHSEP with
  | none => exact ⟨rfl, rfl⟩
  | some i =>
    by_cases hi : i = 0
    · subst hi
      obtain ⟨rest, hp⟩ := rfind_zero path PATHSEP hr
      subst hp
      have e1 : PATHSEP.isDigit = false := by decide
      simp [pctRuns, egRuns, pctCount, egCount, PATHSEP, e1]
    · simp [hi]

theorem parse_mode_loop_ok (mode : Str) (isr isw : Bool) :
    (parse_mode_loop mode isr isw).1 = true ↔ ∀ c ∈ mode, c = 'r' ∨ c = 'w' := by
  induction mode generalizing isr isw with
  | nil => simp [parse_mode_loop]
  | cons c cs ih =>
    by_cases h1 : c = 'r'
    · simp [parse_mode_loop, h1, ih]
    · by_cases h2 : c = 'w'
      · simp [parse_mode_loop, h2, ih]
      · simp [parse_mode_loop, h1, h2]

/-- The mode strings `parse_mode_string` accepts. -/
theorem parse_mode_string_ok (mode : Str) :
    (parse_mode_string mode).1 = true ↔ mode ≠ [] ∧ ∀ c ∈ mode, c = 'r' ∨ c = 'w' := by
  cases mode with
  | nil => simp [parse_mode_string]
  | cons c cs => simp only [parse_mode_string, parse_mode_loop_ok]; simp

/-! ### Decimal rendering and its value -/

theorem digitChar_val : ∀ m, m < 10 →
    ((Nat.digitChar m).toNat - 48 = m ∧ (Nat.digitChar m).isDigit = true ∧
      Nat.digitChar m ≠ '(' ∧ Nat.digitChar m ≠ '\\') := by
  decide

theorem decVal_append_single (pre : Str) (d : Char) :
    decVal (pre ++ [d]) = 10 * decVal pre + (d.toNat - 48) := by
  simp [decVal, List.foldl_append]

/-- The digits `toDigitsCore` puts before its accumulator. -/
theorem toDigitsCore_spec (fuel : Nat) : ∀ (n : Nat) (ds : Str), n < fuel →
    ∃ pre, Nat.toDigitsCore 10 fuel n ds = pre ++ ds ∧ pre ≠ [] ∧
      (∀ c ∈ pre, c.isDigit = true ∧ c ≠ '(' ∧ c ≠ '\\') ∧ decVal pre = n := by
  induction fuel with
  | zero => intro n ds h; omega
  | succ fuel ih =>
    intro n ds h
    have hd := digitChar_val (n % 10) (Nat.mod_lt _ (by decide))
    simp only [Nat.toDigitsCore]
    by_cases h0 : n / 10 = 0
    · refine ⟨[Nat.digitChar (n % 10)], by simp [h0], by simp, ?_, ?_⟩
      · intro c hc
        simp only [List.mem_singleton] at hc
        subst hc
        exact hd.2
      · simp only [decVal, List.foldl_cons, List.foldl_nil, hd.1]
        omega
    · have hlt : n / 10 < fuel := by omega
      obtain ⟨pre, h1, _, h3, h4⟩ := ih (n / 10) (Nat.digitChar (n % 10) :: ds) hlt
      refine ⟨pre ++ [Nat.digitChar (n % 10)], by simp [h0, h1], by simp, ?_, ?_⟩
      · intro c hc
        rcases List.mem_append.mp hc with hc | hc
        · exact h3 c hc
        · simp only [List.mem_singleton] at hc
          subst hc
          exact hd.2
      · rw [decVal_append_single, h4, hd.1]
        omega

/-- The decimal rendering is a non-empty run of digits whose value is the
number. -/
theorem toDigits_spec (n : Nat) :
    Nat.toDigits 10 n ≠ [] ∧
    (∀ c ∈ Nat.toDigits 10 n, c.isDigit = true ∧ c ≠ '(' ∧ c ≠ '\\') ∧
    decVal (Nat.toDigits 10 n) = n := by
  obtain ⟨pre, h1, h2, h3, h4⟩ := toDigitsCore_spec (n + 1) n [] (by omega)
  simp only [List.append_nil] at h1
  unfold Nat.toDigits
  rw [h1]
  exact ⟨h2, h3, h4⟩

/-! ### Patterns of the fragment and the loop of `makename` -/

theorem compile_cons (c : Char) (cs : Str) :
    RE2.compile (c :: cs) =
      if c = '(' then
        match cs with
        | c1 :: c2 :: c3 :: c4 :: rest =>
          if c1 = '\\' ∧ c2 = 'd' ∧ c3 = '+' ∧ c4 = ')' then
            (RE2.compile rest).map (fun ts => Tok.grp :: ts)
          else none
        | _ => none
      else if c = '.' then (RE2.compile cs).map (fun ts => Tok.any :: ts)
      else if RE2.special c = true then none
      else (RE2.compile cs).map (fun ts => Tok.lit c :: ts) := by
  rcases cs with _ | ⟨c1, _ | ⟨c2, _ | ⟨c3, _ | ⟨c4, rest⟩⟩⟩⟩ <;> simp [RE2.compile]

/-- A pattern text of the fragment is the rendering of its tokens. -/
theorem compile_render : ∀ (n : Nat) (pat : Str) (toks : List Tok), pat.length ≤ n →
    RE2.compile pat = some toks → pat = render toks ∧ plainToks toks := by
  intro n
  induction n with
  | zero =>
    intro pat toks hl h
    cases pat with
    | nil =>
      simp only [RE2.compile, Option.some.injEq] at h
      subst h
      exact ⟨rfl, fun c hc => by simp at hc⟩
    | cons c cs => simp at hl
  | succ n ih =>
    intro pat toks hl h
    cases pat with
    | nil =>
      simp only [RE2.compile, Option.some.injEq] at h
      subst h
      exact ⟨rfl, fun c hc => by simp at hc⟩
    | cons c cs =>
      rw [compile_cons] at h
      by_cases h1 : c = '('
      · simp only [h1, if_true] at h
        match cs, h with
        | c1 :: c2 :: c3 :: c4 :: rest, h =>
          simp only at h
          by_cases h2 : c1 = '\\' ∧ c2 = 'd' ∧ c3 = '+' ∧ c4 = ')'
          · simp only [h2, and_self, if_true] at h
            cases hr : RE2.compile rest with
            | none => simp [hr] at h
            | some ts =>
              simp only [hr, Option.map_some', Option.some.injEq] at h
              subst h
              have hlr : rest.length ≤ n := by simp at hl; omega
              obtain ⟨e1, e2⟩ := ih rest ts hlr hr
              obtain ⟨a1, a2, a3, a4⟩ := h2
              subst h1 a1 a2 a3 a4
              refine ⟨by simp [render, slot, ← e1], ?_⟩
              intro c hc
              simp only [List.mem_cons] at hc
              rcases hc with hc | hc
              · exact absurd hc (by simp)
              · exact e2 c hc
          · simp [h2] at h
        | [], h => simp at h
        | [_], h => simp at h
        | [_, _], h => simp at h
        | [_, _, _], h => simp at h
      · simp only [h1, if_false] at h
        have hlr : cs.length ≤ n := by simp at hl; omega
        by_cases h2 : c = '.'
        · simp only [h2, if_true] at h
          cases hr : RE2.compile cs with
          | none => simp [hr] at h
          | some ts =>
            simp only [hr, Option.map_some', Option.some.injEq] at h
            subst h
            obtain ⟨e1, e2⟩ := ih cs ts hlr hr
            refine ⟨by simp [render, ← e1, h2], ?_⟩
            intro c hc
            simp only [List.mem_cons] at hc
            rcases hc with hc | hc
            · exact absurd hc (by simp)
            · exact e2 c hc
        · simp only [h2, if_false] at h
          by_cases h3 : RE2.special c = true
          · simp [h3] at h
          · simp only [h3] at h
            cases hr : RE2.compile cs with
            | none => simp [hr] at h
            | some ts =>
              simp only [hr, Option.map_some', Option.some.injEq] at h
              simp only [Bool.false_eq_true, if_false, Option.map_some', Option.some.injEq] at h
              subst h
              obtain ⟨e1, e2⟩ := ih cs ts hlr hr
              refine ⟨by simp [render, ← e1], ?_⟩
              intro c1 hc
              simp only [List.mem_cons, Tok.lit.injEq] at hc
              rcases hc with hc | hc
              · subst hc
                simpa using h3
              · exact e2 c1 hc

theorem rewriteText_plain (s : Str) (h : ∀ c ∈ s, c ≠ '\\') : RE2.rewriteText s = s := by
  induction s with
  | nil => rfl
  | cons c cs ih =>
    have hc : c ≠ '\\' := h c (by simp)
    have hcs : ∀ x ∈ cs, x ≠ '\\' := fun x hx => h x (by simp [hx])
    unfold RE2.rewriteText
    split
    · rename_i heq
      simp only [List.cons.injEq] at heq
      exact absurd heq.1 hc
    · rename_i heq
      simp only [List.cons.injEq] at heq
      obtain ⟨e1, e2⟩ := heq
      subst e1 e2
      rw [ih hcs]
    · rename_i heq
      simp at heq

theorem Replace_slot_cons (c : Char) (s buf : Str) (hc : c ≠ '(') :
    RE2.Replace (c :: s) .slot_re buf = (RE2.Replace s .slot_re buf).map (fun r => c :: r) := by
  have hne : slot.isPrefixOf (c :: s) = false := by
    simp [slot, List.isPrefixOf, hc]
    intro h
    exact absurd h.symm hc
  simp [RE2.Replace, RE2.matchHead, hne]

theorem Replace_slot_head (s buf : Str) :
    RE2.Replace (slot ++ s) .slot_re buf = some (RE2.rewriteText buf ++ s) := by
  simp [slot, RE2.Replace, RE2.matchHead, List.isPrefixOf]

theorem makename_loop_cons (c : Char) (hc : c ≠ '(') (vs : List Nat) :
    ∀ s : Str, makename_loop (c :: s) vs = (makename_loop s vs).map (fun r => c :: r) := by
  induction vs with
  | nil => intro s; simp [makename_loop]
  | cons v vs ih =>
    intro s
    simp only [makename_loop]
    rw [Replace_slot_cons c s _ hc]
    cases hr : RE2.Replace s .slot_re (Nat.toDigits 10 v) with
    | none => simp
    | some t => simp [ih]

theorem makename_loop_append (pre : Str) (hpre : ∀ c ∈ pre, c ≠ '(') (vs : List Nat) (s : Str) :
    makename_loop (pre ++ s) vs = (makename_loop s vs).map (fun r => pre ++ r) := by
  induction pre with
  | nil => simp
  | cons c cs ih =>
    have hc : c ≠ '(' := hpre c (by simp)
    have hcs : ∀ x ∈ cs, x ≠ '(' := fun x hx => hpre x (by simp [hx])
    rw [List.cons_append, makename_loop_cons c hc, ih hcs]
    cases makename_loop s vs <;> simp

theorem fill_nil (toks : List Tok) : fill toks [] = render toks := by
  induction toks with
  | nil => rfl
  | cons t ts ih => cases t <;> simp [fill, render, ih]

/-- The loop of `makename` on a pattern of the fragment with as many values as
groups gives the pattern filled with the decimal renderings. -/
theorem makename_loop_fill (toks : List Tok) (hplain : plainToks toks) :
    ∀ vs : List Nat, groups toks = vs.length →
      makename_loop (render toks) vs = some (fill toks (vs.map (Nat.toDigits 10))) := by
  induction toks with
  | nil =>
    intro vs h
    cases vs with
    | nil => rfl
    | cons v vs => simp [groups] at h
  | cons t ts ih =>
    have hts : plainToks ts := fun c hc => hplain c (by simp [hc])
    intro vs h
    cases t with
    | lit c =>
      have hc : c ≠ '(' := by
        intro e
        have := hplain c (by simp)
        rw [e] at this
        exact absurd this (by decide)
      have hg : groups ts = vs.length := by simpa [groups] using h
      simp [render, fill, makename_loop_cons c hc, ih hts vs hg]
    | any =>
      have hg : groups ts = vs.length := by simpa [groups] using h
      simp [render, fill, makename_loop_cons '.' (by decide), ih hts vs hg]
    | grp =>
      cases vs with
      | nil => simp [groups] at h
      | cons v vs =>
        have hg : groups ts = vs.length := by simpa [groups] using h
        have hd := toDigits_spec v
        simp only [render, fill, List.map_cons, makename_loop, Replace_slot_head]
        rw [rewriteText_plain _ (fun c hc => (hd.2.1 c hc).2.2)]
        rw [makename_loop_append _ (fun c hc => (hd.2.1 c hc).2.1), ih hts vs hg]
        simp

/-! ### The matcher -/

theorem tryLens_some (k : Str → Option (List Str)) (xs : Str) :
    ∀ (n : Nat) (res : List Str), tryLens k xs n = some res ↔
      ∃ m caps, 1 ≤ m ∧ m ≤ n ∧ k (xs.drop m) = some caps ∧ res = xs.take m :: caps ∧
        ∀ j, m < j → j ≤ n → k (xs.drop j) = none := by
  intro n
  induction n with
  | zero =>
    intro res
    simp only [tryLens]
    constructor
    · intro h; cases h
    · rintro ⟨m, caps, h1, h2, _⟩; omega
  | succ n ih =>
    intro res
    simp only [tryLens]
    cases hk : k (xs.drop (n + 1)) with
    | some caps =>
      simp only [Option.some.injEq]
      constructor
      · intro h
        exact ⟨n + 1, caps, by omega, le_refl _, hk, h.symm, fun j h1 h2 => by omega⟩
      · rintro ⟨m, caps1, h1, h2, h3, h4, h5⟩
        by_cases hm : m = n + 1
        · subst hm
          rw [hk] at h3
          injection h3 with h3
          rw [h4, h3]
        · have := h5 (n + 1) (by omega) (le_refl _)
          rw [hk] at this
          cases this
    | none =>
      simp only []
      rw [ih res]
      constructor
      · rintro ⟨m, caps1, h1, h2, h3, h4, h5⟩
        refine ⟨m, caps1, h1, by omega, h3, h4, ?_⟩
        intro j hj1 hj2
        by_cases hj : j = n + 1
        · rw [hj]; exact hk
        · exact h5 j hj1 (by omega)
      · rintro ⟨m, caps1, h1, h2, h3, h4, h5⟩
        have hm : m ≠ n + 1 := by
          intro e
          rw [e, hk] at h3
          cases h3
        exact ⟨m, caps1, h1, by omega, h3, h4, fun j hj1 hj2 => h5 j hj1 (by omega)⟩

theorem tryLens_none (k : Str → Option (List Str)) (xs : Str) :
    ∀ n : Nat, tryLens k xs n = none ↔ ∀ j, 1 ≤ j → j ≤ n → k (xs.drop j) = none := by
  intro n
  induction n with
  | zero =>
    simp only [tryLens, true_iff]
    intro j h1 h2
    omega
  | succ n ih =>
    simp only [tryLens]
    cases hk : k (xs.drop (n + 1)) with
    | some caps =>
      simp only [false_iff, reduceCtorEq]
      intro h
      have := h (n + 1) (by omega) (le_refl _)
      rw [hk] at this
      cases this
    | none =>
      simp only []
      rw [ih]
      constructor
      · intro h j h1 h2
        by_cases hj : j = n + 1
        · rw [hj]; exact hk
        · exact h j h1 (by omega)
      · intro h j h1 h2
        exact h j h1 (by omega)

theorem takeWhile_digits_append (r rest : Str) (hr : ∀ c ∈ r, c.isDigit = true) :
    (r ++ rest).takeWhile Char.isDigit = r ++ rest.takeWhile Char.isDigit := by
  induction r with
  | nil => rfl
  | cons c cs ih =>
    have hc : c.isDigit = true := hr c (by simp)
    have hcs : ∀ x ∈ cs, x.isDigit = true := fun x hx => hr x (by simp [hx])
    simp [List.takeWhile_cons, hc, ih hcs]

theorem take_takeWhile_digits (xs : Str) (m : Nat)
    (hm : m ≤ (xs.takeWhile Char.isDigit).length) :
    ∀ c ∈ xs.take m, c.isDigit = true := by
  induction xs generalizing m with
  | nil => intro c hc; simp at hc
  | cons x xs ih =>
    intro c hc
    cases m with
    | zero => simp at hc
    | succ m =>
      by_cases hx : x.isDigit = true
      · simp only [List.takeWhile_cons, hx, if_true, List.length_cons] at hm
        simp only [List.take_succ_cons, List.mem_cons] at hc
        rcases hc with hc | hc
        · rw [hc]; exact hx
        · exact ih m (by omega) c hc
      · simp [List.takeWhile_cons, hx] at hm

theorem fill_head_nondigit (ts : List Tok) (h : delimited (Tok.grp :: ts) = true) (rs : List Str) :
    (fill ts rs).takeWhile Char.isDigit = [] ∧ delimited ts = true := by
  cases ts with
  | nil => simp [fill, delimited]
  | cons t ts =>
    cases t with
    | lit c =>
      simp only [delimited, Bool.and_eq_true, Bool.not_eq_true'] at h
      simp [fill, delimited, List.takeWhile_cons, h.1, h.2]
    | any =>
      have e1 : Char.isDigit '.' = false := by decide
      simp only [delimited] at h
      simp [fill, delimited, List.takeWhile_cons, e1, h]
    | grp => simp [delimited] at h

/-- The matcher, on the name a delimited pattern gives for runs of digits,
returns these runs. -/
theorem matchToks_fill (toks : List Tok) :
    ∀ runs : List Str, delimited toks = true → runs.length = groups toks →
      (∀ r ∈ runs, r ≠ [] ∧ ∀ c ∈ r, c.isDigit = true) →
      matchToks toks (fill toks runs) = some runs := by
  induction toks with
  | nil =>
    intro runs _ hl _
    cases runs with
    | nil => rfl
    | cons r rs => simp [groups] at hl
  | cons t ts ih =>
    intro runs hd hl hr
    cases t with
    | lit c =>
      have hd1 : delimited ts = true := by simpa [delimited] using hd
      have hl1 : runs.length = groups ts := by simpa [groups] using hl
      simp [fill, matchToks, ih runs hd1 hl1 hr]
    | any =>
      have hd1 : delimited ts = true := by simpa [delimited] using hd
      have hl1 : runs.length = groups ts := by simpa [groups] using hl
      simp [fill, matchToks, ih runs hd1 hl1 hr]
    | grp =>
      cases runs with
      | nil => simp [groups] at hl
      | cons r rs =>
        have hl1 : rs.length = groups ts := by simpa [groups] using hl
        have hr0 := hr r (by simp)
        have hrs : ∀ q ∈ rs, q ≠ [] ∧ ∀ c ∈ q, c.isDigit = true :=
          fun q hq => hr q (by simp [hq])
        obtain ⟨hf, hd1⟩ := fill_head_nondigit ts hd rs
        have hlen : 1 ≤ r.length := by
          cases r with
          | nil => exact absurd rfl hr0.1
          | cons _ _ => simp
        simp only [fill, matchToks, takeWhile_digits_append r _ hr0.2, hf, List.append_nil]
        rw [tryLens_some]
        refine ⟨r.length, rs, hlen, le_refl _, ?_, by simp, fun j h1 h2 => by omega⟩
        simp [ih rs hd1 hl1 hrs]

theorem Inst_groups {toks : List Tok} {xs : Str} {rs : List Str} (h : Inst toks xs rs) :
    rs.length = groups toks := by
  induction h with
  | nil => rfl
  | lit c ts xs rs _ ih => simpa [groups] using ih
  | any x ts xs rs _ _ ih => simpa [groups] using ih
  | grp r ts xs rs _ _ _ ih => simpa [groups] using ih

theorem Inst_grp_inv {ts : List Tok} {xs : Str} {qs : List Str}
    (h : Inst (Tok.grp :: ts) xs qs) :
    ∃ r rs ys, qs = r :: rs ∧ xs = r ++ ys ∧ r ≠ [] ∧ (∀ c ∈ r, c.isDigit = true) ∧
      Inst ts ys rs := by
  cases h with
  | grp r _ ys rs h1 h2 h3 => exact ⟨r, rs, ys, rfl, rfl, h1, h2, h3⟩

/-- The matcher is sound and complete for `Inst`, and what it returns is the
preferred splitting. -/
theorem matchToks_spec (toks : List Tok) : ∀ xs : Str,
    (∀ rs, matchToks toks xs = some rs →
      Inst toks xs rs ∧ ∀ qs, Inst toks xs qs → prefer rs qs) ∧
    (∀ qs, Inst toks xs qs → ∃ rs, matchToks toks xs = some rs) := by
  induction toks with
  | nil =>
    intro xs
    cases xs with
    | nil =>
      refine ⟨?_, fun qs _ => ⟨[], rfl⟩⟩
      intro rs h
      simp only [matchToks, Option.some.injEq] at h
      subst h
      refine ⟨Inst.nil, ?_⟩
      intro qs hq
      cases hq
      trivial
    | cons x xs =>
      refine ⟨fun rs h => by simp [matchToks] at h, ?_⟩
      intro qs hq
      cases hq
  | cons t ts ih =>
    intro xs
    cases t with
    | lit c =>
      cases xs with
      | nil =>
        refine ⟨fun rs h => by simp [matchToks] at h, ?_⟩
        intro qs hq
        cases hq
      | cons x xs =>
        by_cases hx : x = c
        · subst hx
          simp only [matchToks, if_true]
          refine ⟨?_, ?_⟩
          · intro rs h
            obtain ⟨h1, h2⟩ := (ih xs).1 rs h
            refine ⟨Inst.lit _ _ _ _ h1, ?_⟩
            intro qs hq
            cases hq with
            | lit _ _ _ _ hq1 => exact h2 qs hq1
          · intro qs hq
            cases hq with
            | lit _ _ _ _ hq1 => exact (ih xs).2 qs hq1
        · refine ⟨fun rs h => by simp [matchToks, hx] at h, ?_⟩
          intro qs hq
          cases hq
          exact absurd rfl hx
    | any =>
      cases xs with
      | nil =>
        refine ⟨fun rs h => by simp [matchToks] at h, ?_⟩
        intro qs hq
        cases hq
      | cons x xs =>
        by_cases hx : x = '\n'
        · refine ⟨fun rs h => by simp [matchToks, hx] at h, ?_⟩
          intro qs hq
          cases hq with
          | any _ _ _ _ hne _ => exact absurd hx hne
        · simp only [matchToks, hx, if_false]
          refine ⟨?_, ?_⟩
          · intro rs h
            obtain ⟨h1, h2⟩ := (ih xs).1 rs h
            refine ⟨Inst.any _ _ _ _ hx h1, ?_⟩
            intro qs hq
            cases hq with
            | any _ _ _ _ _ hq1 => exact h2 qs hq1
          · intro qs hq
            cases hq with
            | any _ _ _ _ _ hq1 => exact (ih xs).2 qs hq1
    | grp =>
      simp only [matchToks]
      have hbound : ∀ (r ys : Str), xs = r ++ ys → (∀ c ∈ r, c.isDigit = true) →
          r.length ≤ (xs.takeWhile Char.isDigit).length := by
        intro r ys e hr
        rw [e, takeWhile_digits_append r ys hr]
        simp
      refine ⟨?_, ?_⟩
      · intro res h
        rw [tryLens_some] at h
        obtain ⟨m, caps, hm1, hm2, hk, hres, hmax⟩ := h
        obtain ⟨h1, h2⟩ := (ih (xs.drop m)).1 caps hk
        have hmlen : m ≤ xs.length :=
          le_trans hm2 (List.Sublist.length_le (List.takeWhile_sublist _))
        subst hres
        refine ⟨?_, ?_⟩
        · have := Inst.grp (xs.take m) ts (xs.drop m) caps
            (by
              intro e
              have hl : (xs.take m).length = m := by
                rw [List.length_take]
                omega
              rw [e] at hl
              simp only [List.length_nil] at hl
              omega)
            (take_takeWhile_digits xs m hm2) h1
          rwa [List.take_append_drop] at this
        · intro qs hq
          obtain ⟨r, rs, ys, e1, e2, hr1, hr2, hi⟩ := Inst_grp_inv hq
          subst e1
          have hrb := hbound r ys e2 hr2
          have hdrop : xs.drop r.length = ys := by rw [e2]; simp
          have hrl : 1 ≤ r.length := by
            cases r with
            | nil => exact absurd rfl hr1
            | cons _ _ => simp
          have hle : r.length ≤ m := by
            by_contra hcon
            have hnone := hmax r.length (by omega) hrb
            rw [hdrop] at hnone
            obtain ⟨rs1, hrs1⟩ := (ih ys).2 rs hi
            rw [hnone] at hrs1
            cases hrs1
          simp only [prefer, List.length_take]
          by_cases hlt : r.length < m
          · left; omega
          · right
            have hme : r.length = m := by omega
            refine ⟨by omega, ?_⟩
            apply h2
            rw [← hme, hdrop]
            exact hi
      · intro qs hq
        obtain ⟨r, rs, ys, e1, e2, hr1, hr2, hi⟩ := Inst_grp_inv hq
        have hrb := hbound r ys e2 hr2
        have hdrop : xs.drop r.length = ys := by rw [e2]; simp
        have hrl : 1 ≤ r.length := by
          cases r with
          | nil => exact absurd rfl hr1
          | cons _ _ => simp
        cases hres : tryLens (fun ys => matchToks ts ys) xs (xs.takeWhile Char.isDigit).length with
        | some res => exact ⟨res, rfl⟩
        | none =>
          rw [tryLens_none] at hres
          have hnone := hres r.length hrl hrb
          simp only [hdrop] at hnone
          obtain ⟨rs1, hrs1⟩ := (ih ys).2 rs hi
          rw [hnone] at hrs1
          cases hrs1

/-- Two splittings of one name, each preferred over the other, are the same. -/
theorem prefer_antisymm {toks : List Tok} {xs : Str} {rs : List Str} (h1 : Inst toks xs rs) :
    ∀ qs, Inst toks xs qs → prefer rs qs → prefer qs rs → rs = qs := by
  induction h1 with
  | nil =>
    intro qs hq _ _
    cases hq
    rfl
  | lit c ts xs rs _ ih =>
    intro qs hq p1 p2
    cases hq with
    | lit _ _ _ _ hq1 => exact ih qs hq1 p1 p2
  | any x ts xs rs _ _ ih =>
    intro qs hq p1 p2
    cases hq with
    | any _ _ _ _ _ hq1 => exact ih qs hq1 p1 p2
  | grp r ts xs rs hr1 hr2 _ ih =>
    intro qs hq p1 p2
    obtain ⟨q, qs1, ys, e1, e2, _, _, hi⟩ := Inst_grp_inv hq
    subst e1
    simp only [prefer] at p1 p2
    have hlen : q.length = r.length := by omega
    have hp1 : prefer rs qs1 := by
      rcases p1 with p1 | p1
      · omega
      · exact p1.2
    have hp2 : prefer qs1 rs := by
      rcases p2 with p2 | p2
      · omega
      · exact p2.2
    have hsplit := List.append_inj e2 hlen.symm
    obtain ⟨e3, e4⟩ := hsplit
    subst e3 e4
    rw [ih qs1 hi hp1 hp2]

/-- The matcher returns `rs` exactly when `rs` is the preferred splitting of
the name along the pattern. -/
theorem matchToks_iff (toks : List Tok) (xs : Str) (rs : List Str) :
    matchToks toks xs = some rs ↔
      (Inst toks xs rs ∧ ∀ qs, Inst toks xs qs → prefer rs qs) := by
  constructor
  · exact (matchToks_spec toks xs).1 rs
  · rintro ⟨h1, h2⟩
    obtain ⟨rs1, h3⟩ := (matchToks_spec toks xs).2 rs h1
    obtain ⟨h4, h5⟩ := (matchToks_spec toks xs).1 rs1 h3
    rw [h3, prefer_antisymm h4 rs h1 (h5 rs h1) (h2 rs1 h4)]

/-- Some splitting exists exactly when the matcher succeeds. -/
theorem matchToks_isSome (toks : List Tok) (xs : Str) :
    (∃ rs, Inst toks xs rs) ↔ (matchToks toks xs).isSome = true := by
  constructor
  · rintro ⟨rs, h⟩
    obtain ⟨rs1, h1⟩ := (matchToks_spec toks xs).2 rs h
    simp [h1]
  · intro h
    cases hm : matchToks toks xs with
    | none => simp [hm] at h
    | some rs => exact ⟨rs, ((matchToks_spec toks xs).1 rs hm).1⟩

/-! ### `parse` and `makename` on patterns of the fragment -/

/-- On a pattern of the fragment `parse` does not depend on what the library
does outside the fragment. -/
theorem parse_ext_irrelevant (ext1 ext2 : RE2.Ext) (s : series_t) (name : Str)
    (h : (RE2.compile s.pattern_).isSome = true) : s.parse ext1 name = s.parse ext2 name := by
  cases hc : RE2.compile s.pattern_ with
  | none => simp [hc] at h
  | some toks => simp only [series_t.parse, RE2.FullMatchN, hc]

theorem minmax_ext_irrelevant (ext1 ext2 : RE2.Ext) (s : series_t) (dir : Option (List Str))
    (mn mx : TPos) (h : (RE2.compile s.pattern_).isSome = true) :
    s.minmax ext1 dir mn mx = s.minmax ext2 dir mn mx := by
  have hstep : minmax_step ext1 s = minmax_step ext2 s := by
    funext acc ent
    simp only [minmax_step, parse_ext_irrelevant ext1 ext2 s ent h]
  simp only [series_t.minmax, hstep]

theorem parseArgs_some (rs : List Str) : ∀ vs : List Nat,
    parseArgs rs = some vs ↔ ((∀ r ∈ rs, decVal r < 2 ^ 32) ∧ vs = rs.map decVal) := by
  induction rs with
  | nil => intro vs; simp [parseArgs, eq_comm]
  | cons r rs ih =>
    intro vs
    simp only [parseArgs, parseUnsigned]
    by_cases hr : decVal r < 2 ^ 32
    · simp only [hr, if_true, List.mem_cons, forall_eq_or_imp, true_and, List.map_cons]
      cases hp : parseArgs rs with
      | none =>
        simp only [Option.map_none', false_iff, reduceCtorEq]
        rintro ⟨h1, h2⟩
        have := (ih (rs.map decVal)).mpr ⟨h1, rfl⟩
        rw [hp] at this
        cases this
      | some ws =>
        have hw := (ih ws).mp hp
        simp only [Option.map_some', Option.some.injEq]
        constructor
        · intro h
          exact ⟨hw.1, by rw [← h, hw.2]⟩
        · rintro ⟨_, h2⟩
          rw [h2, hw.2]
    · simp only [hr, if_false, false_iff, reduceCtorEq]
      rintro ⟨h1, _⟩
      exact hr (h1 r (by simp))

/-- The source method `parse` on a series whose pattern is in the fragment and
has exactly `ndim_` groups, `1 ≤ ndim_ ≤ 9`. -/
theorem parse_fragment (ext : RE2.Ext) (s : series_t) (toks : List Tok) (name : Str)
    (hpat : RE2.compile s.pattern_ = some toks) (hgrp : groups toks = s.ndim_)
    (hk1 : 1 ≤ s.ndim_) (hk9 : s.ndim_ ≤ 9) :
    s.parse ext name =
      match matchToks toks name with
      | some caps => parseArgs caps
      | none => none := by
  have h1 : s.isok = true := by simp [series_t.isok]; omega
  have h2 : s.ndim_ < 10 := by omega
  simp only [series_t.parse, h1, h2, RE2.FullMatchN, hpat, hgrp]
  simp only [Bool.true_eq_false, if_false, not_true_eq_false, lt_self_iff_false]
  cases hm : matchToks toks name with
  | none => rfl
  | some caps =>
    have hl := Inst_groups ((matchToks_spec toks name).1 caps hm).1
    simp only []
    rw [List.take_of_length_le (by omega)]

theorem addLast_length (p : List Nat) (d : Nat) : (addLast p d).length = p.length := by
  induction p with
  | nil => rfl
  | cons v vs ih =>
    cases vs with
    | nil => rfl
    | cons w ws => simp only [addLast, List.length_cons] at ih ⊢; omega

theorem addLast_small (p : List Nat) (d : Nat) (h : p.getLastD 0 + d < 2 ^ 64) :
    addLast p d = bumpLast p d := by
  induction p with
  | nil => rfl
  | cons v vs ih =>
    cases vs with
    | nil =>
      simp only [List.getLastD_cons, List.getLastD_nil] at h
      simp only [addLast, bumpLast, Nat.mod_eq_of_lt h]
    | cons w ws =>
      have h2 : (w :: ws).getLastD 0 + d < 2 ^ 64 := by simpa [List.getLastD] using h
      simp only [addLast, bumpLast, ih h2]

theorem subLast_cons (v : Nat) (l : List Nat) (d : Nat) (h : l ≠ []) :
    subLast (v :: l) d = v :: subLast l d := by
  cases l with
  | nil => exact absurd rfl h
  | cons _ _ => rfl

theorem subLast_addLast (p : List Nat) (d : Nat) (h : ∀ v ∈ p, v < 2 ^ 64) :
    subLast (addLast p d) d = p := by
  induction p with
  | nil => rfl
  | cons v vs ih =>
    cases vs with
    | nil =>
      have hv : v < 2 ^ 64 := h v (by simp)
      simp only [addLast, subLast, List.cons.injEq, and_true]
      have hd : d % 2 ^ 64 < 2 ^ 64 := Nat.mod_lt _ (by decide)
      have e : ((v + d) % 2 ^ 64 + 2 ^ 64 - d % 2 ^ 64) % 2 ^ 64 = v % 2 ^ 64 := by
        have h1 : (v + d) % 2 ^ 64 = (v + d % 2 ^ 64) % 2 ^ 64 := by omega
        rw [h1]
        omega
      rw [e, Nat.mod_eq_of_lt hv]
    | cons w ws =>
      have h2 : ∀ x ∈ w :: ws, x < 2 ^ 64 := fun x hx => h x (by simp [hx])
      have hne : addLast (w :: ws) d ≠ [] := by
        intro e
        have := addLast_length (w :: ws) d
        rw [e] at this
        simp at this
      simp only [addLast]
      rw [subLast_cons v _ d hne, ih h2]

theorem bumpLast_mem (p : List Nat) (d b : Nat) (h : ∀ v ∈ p, v < b)
    (hl : p.getLastD 0 + d < b) : ∀ v ∈ bumpLast p d, v < b := by
  induction p with
  | nil => intro v hv; simp [bumpLast] at hv
  | cons x xs ih =>
    cases xs with
    | nil =>
      intro v hv
      simp only [bumpLast, List.mem_singleton] at hv
      simp only [List.getLastD_cons, List.getLastD_nil] at hl
      omega
    | cons w ws =>
      intro v hv
      simp only [bumpLast, List.mem_cons] at hv
      have h2 : ∀ y ∈ w :: ws, y < b := fun y hy => h y (by simp [hy])
      have hl2 : (w :: ws).getLastD 0 + d < b := by simpa [List.getLastD] using hl
      rcases hv with hv | hv
      · rw [hv]; exact h x (by simp)
      · exact ih h2 hl2 v (by simpa [bumpLast] using hv)

theorem bumpLast_inj (d : Nat) : ∀ p q : List Nat, p.length = q.length →
    bumpLast p d = bumpLast q d → p = q := by
  intro p
  induction p with
  | nil =>
    intro q hl _
    cases q with
    | nil => rfl
    | cons _ _ => simp at hl
  | cons v vs ih =>
    intro q hl h
    cases q with
    | nil => simp at hl
    | cons w ws =>
      cases vs with
      | nil =>
        cases ws with
        | nil =>
          simp only [bumpLast, List.cons.injEq, and_true] at h
          have : v = w := by omega
          rw [this]
        | cons _ _ => simp at hl
      | cons v2 vs2 =>
        cases ws with
        | nil => simp at hl
        | cons w2 ws2 =>
          simp only [bumpLast, List.cons.injEq] at h
          have hl2 : (v2 :: vs2).length = (w2 :: ws2).length := by simpa using hl
          rw [h.1, ih (w2 :: ws2) hl2 (by simpa [bumpLast] using h.2)]

/-- Round trip on a pattern of the fragment whose groups are delimited:
`makename` gives the pattern filled with the decimal renderings, and `parse`
of that name gives the position back, its last component raised by `last_`. -/
theorem round_trip (ext : RE2.Ext) (s : series_t) (toks : List Tok) (p : List Nat)
    (hpat : RE2.compile s.pattern_ = some toks) (hgrp : groups toks = s.ndim_)
    (hdel : delimited toks = true) (hk1 : 1 ≤ s.ndim_) (hk9 : s.ndim_ ≤ 9)
    (hlen : p.length = s.ndim_) (hp : ∀ v ∈ p, v < 2 ^ 32)
    (hlast : p.getLastD 0 + s.last_ < 2 ^ 32) :
    s.makename p =
      some (s.dirPrefix ++ fill toks ((bumpLast p s.last_).map (Nat.toDigits 10)), p) ∧
    s.parse ext (fill toks ((bumpLast p s.last_).map (Nat.toDigits 10))) =
      some (bumpLast p s.last_) := by
  have hadd : addLast p s.last_ = bumpLast p s.last_ := addLast_small p _ (by omega)
  have hsub : subLast (addLast p s.last_) s.last_ = p :=
    subLast_addLast p _ (fun v hv => by have := hp v hv; omega)
  have hblen : (bumpLast p s.last_).length = s.ndim_ := by
    rw [← hadd, addLast_length, hlen]
  have hbval := bumpLast_mem p s.last_ (2 ^ 32) hp hlast
  obtain ⟨hren, hplain⟩ := compile_render _ s.pattern_ toks (le_refl _) hpat
  constructor
  · have hne : p.isEmpty = false := by
      cases p with
      | nil => simp at hlen; omega
      | cons _ _ => rfl
    simp only [series_t.makename, hne, hsub]
    rw [hadd, hren, makename_loop_fill toks hplain _ (by rw [hblen, hgrp])]
    simp
  · rw [parse_fragment ext s toks _ hpat hgrp hk1 hk9]
    rw [matchToks_fill toks _ hdel (by simp [hblen, hgrp])
      (by
        intro r hr
        simp only [List.mem_map] at hr
        obtain ⟨v, _, hv⟩ := hr
        rw [← hv]
        exact ⟨(toDigits_spec v).1, fun c hc => ((toDigits_spec v).2.1 c hc).1⟩)]
    simp only []
    rw [parseArgs_some]
    have hval : ((bumpLast p s.last_).map (Nat.toDigits 10)).map decVal
        = bumpLast p s.last_ := by
      rw [List.map_map]
      conv => rhs; rw [← List.map_id (bumpLast p s.last_)]
      apply List.map_congr_left
      intro v _
      exact (toDigits_spec v).2.2
    refine ⟨?_, hval.symm⟩
    intro r hr
    simp only [List.mem_map] at hr
    obtain ⟨v, hv1, hv⟩ := hr
    rw [← hv, (toDigits_spec v).2.2]
    exact hbval v hv1

/-! ### The pattern inferred from a plain name -/

theorem delimited_grp (ts : List Tok) :
    delimited (Tok.grp :: ts) = (headOK ts && delimited ts) := by
  cases ts with
  | nil => rfl
  | cons t ts => cases t <;> simp [delimited, headOK]

theorem delimited_lit (c : Char) (ts : List Tok) :
    delimited (Tok.lit c :: ts) = delimited ts := by
  simp [delimited]

theorem delimited_any (ts : List Tok) : delimited (Tok.any :: ts) = delimited ts := by
  simp [delimited]

theorem compile_slot (x : Str) :
    RE2.compile (slot ++ x) = (RE2.compile x).map (fun ts => Tok.grp :: ts) := by
  simp [slot, compile_cons]

theorem compile_dot (x : Str) :
    RE2.compile ('.' :: x) = (RE2.compile x).map (fun ts => Tok.any :: ts) := by
  simp [compile_cons]

theorem compile_plain (c : Char) (x : Str) (h1 : c ≠ '.') (h2 : RE2.special c = false) :
    RE2.compile (c :: x) = (RE2.compile x).map (fun ts => Tok.lit c :: ts) := by
  have h3 : c ≠ '(' := by
    intro e
    rw [e] at h2
    exact absurd h2 (by decide)
  simp [compile_cons, h1, h2, h3]

theorem digit_plain (c : Char) (h : c.isDigit = true) : c ≠ '.' ∧ RE2.special c = false ∧ c ≠ '%' := by
  have hv : 48 ≤ c.val ∧ c.val ≤ 57 := by simpa [Char.isDigit] using h
  refine ⟨?_, ?_, ?_⟩
  · intro e
    rw [e] at hv
    exact absurd hv (by decide)
  · simp only [RE2.special, List.mem_cons, List.mem_singleton, List.not_mem_nil, or_false,
      decide_eq_false_iff_not, not_or]
    refine ⟨?_, ?_, ?_, ?_, ?_, ?_, ?_, ?_, ?_, ?_, ?_, ?_, ?_, ?_⟩ <;>
      (intro e; rw [e] at hv; exact absurd hv (by decide))
  · intro e
    rw [e] at hv
    exact absurd hv (by decide)

/-- The placeholder template of a plain name reads as tokens, with one group
for each run; when no `%` is directly followed by a digit, the groups are
delimited. -/
theorem pctScan_compile (name : Str) : ∀ b : Bool, plainName name →
    ∃ toks, RE2.compile (pctScan b name) = some toks ∧ groups toks = pctCount b name ∧
      (pctDelimited name = true → (b = true → startsDigit name = false) →
        delimited toks = true ∧ (b = true → headOK toks = true)) := by
  induction name with
  | nil =>
    intro b _
    exact ⟨[], rfl, rfl, fun _ _ => ⟨rfl, fun _ => rfl⟩⟩
  | cons c cs ih =>
    intro b hp
    have hpc := hp c (by simp)
    have hpcs : plainName cs := fun x hx => hp x (by simp [hx])
    by_cases hc : c = '%'
    · subst hc
      obtain ⟨toks, h1, h2, h3⟩ := ih true hpcs
      cases b with
      | true =>
        refine ⟨toks, by simpa [pctScan] using h1, by simpa [pctCount] using h2, ?_⟩
        intro hd _
        simp only [pctDelimited, bne_self_eq_false, Bool.false_or, Bool.and_eq_true,
          Bool.not_eq_true'] at hd
        exact h3 hd.2 (fun _ => hd.1)
      | false =>
        refine ⟨Tok.grp :: toks, ?_, ?_, ?_⟩
        · simp only [pctScan, if_true, Bool.false_eq_true, if_false]
          rw [compile_slot, h1]
          rfl
        · simp only [pctCount, if_true, Bool.false_eq_true, if_false, ← h2, groups,
            List.count_cons_self]
          omega
        · intro hd _
          simp only [pctDelimited, bne_self_eq_false, Bool.false_or, Bool.and_eq_true,
            Bool.not_eq_true'] at hd
          obtain ⟨g1, g2⟩ := h3 hd.2 (fun _ => hd.1)
          refine ⟨?_, fun h => by cases h⟩
          rw [delimited_grp, g1, g2 rfl]
          rfl
    · obtain ⟨toks, h1, h2, h3⟩ := ih false hpcs
      have hd1 : ∀ hd : pctDelimited (c :: cs) = true, pctDelimited cs = true := by
        intro hd
        simp only [pctDelimited, Bool.and_eq_true] at hd
        exact hd.2
      by_cases hdot : c = '.'
      · subst hdot
        refine ⟨Tok.any :: toks, ?_, ?_, ?_⟩
        · simp only [pctScan, hc, if_false]
          rw [compile_dot, h1]
          rfl
        · simpa [pctCount, groups] using h2
        · intro hd _
          obtain ⟨g1, _⟩ := h3 (hd1 hd) (fun h => by cases h)
          exact ⟨by rw [delimited_any, g1], fun _ => rfl⟩
      · have hsp : RE2.special c = false := by
          rcases hpc with h | h
          · exact absurd h hdot
          · exact h
        refine ⟨Tok.lit c :: toks, ?_, ?_, ?_⟩
        · simp only [pctScan, hc, if_false]
          rw [compile_plain c _ hdot hsp, h1]
          rfl
        · simpa [pctCount, groups, hc] using h2
        · intro hd hb
          obtain ⟨g1, _⟩ := h3 (hd1 hd) (fun h => by cases h)
          refine ⟨by rw [delimited_lit, g1], ?_⟩
          intro hbt
          have := hb hbt
          simp only [startsDigit] at this
          simp [headOK, this]

/-- The example template of a plain name reads as tokens, with one group for
each field, and its groups are delimited. -/
theorem egScan_compile (name : Str) : ∀ st : EgState, plainName name →
    ∃ toks, RE2.compile (egScan st name) = some toks ∧ groups toks = egCount st name ∧
      delimited toks = true ∧ (st = EgState.field → headOK toks = true) := by
  induction name with
  | nil =>
    intro st _
    exact ⟨[], rfl, rfl, rfl, fun _ => rfl⟩
  | cons c cs ih =>
    intro st hp
    have hpc := hp c (by simp)
    have hpcs : plainName cs := fun x hx => hp x (by simp [hx])
    by_cases hd : c.isDigit = true
    · have hdp := digit_plain c hd
      cases st with
      | text =>
        obtain ⟨toks, h1, h2, h3, _⟩ := ih .text hpcs
        refine ⟨Tok.lit c :: toks, ?_, ?_, ?_, fun h => by cases h⟩
        · rw [egScan_cons]
          simp only [hd, if_true]
          rw [compile_plain c _ hdp.1 hdp.2.1, h1]
          rfl
        · rw [egCount_cons]
          simpa [hd, groups] using h2
        · rw [delimited_lit, h3]
      | dot =>
        obtain ⟨toks, h1, h2, h3, h4⟩ := ih .field hpcs
        refine ⟨Tok.grp :: toks, ?_, ?_, ?_, fun h => by cases h⟩
        · rw [egScan_cons]
          simp only [hd, if_true]
          rw [compile_slot, h1]
          rfl
        · rw [egCount_cons]
          simp only [hd, if_true, ← h2, groups, List.count_cons_self]
          omega
        · rw [delimited_grp, h3, h4 rfl]
          rfl
      | field =>
        obtain ⟨toks, h1, h2, h3, h4⟩ := ih .field hpcs
        refine ⟨toks, ?_, ?_, h3, fun _ => h4 rfl⟩
        · rw [egScan_cons]
          simpa [hd] using h1
        · rw [egCount_cons]
          simpa [hd] using h2
    · have hd2 : c.isDigit = false := by simpa using hd
      by_cases hdot : c = '.'
      · subst hdot
        obtain ⟨toks, h1, h2, h3, _⟩ := ih .dot hpcs
        refine ⟨Tok.any :: toks, ?_, ?_, ?_, fun _ => rfl⟩
        · rw [egScan_cons]
          simp only [hd2, Bool.false_eq_true, if_false, if_true]
          rw [compile_dot, h1]
          rfl
        · rw [egCount_cons]
          simpa [hd2, groups] using h2
        · rw [delimited_any, h3]
      · have hsp : RE2.special c = false := by
          rcases hpc with h | h
          · exact absurd h hdot
          · exact h
        obtain ⟨toks, h1, h2, h3, _⟩ := ih .text hpcs
        refine ⟨Tok.lit c :: toks, ?_, ?_, ?_, fun _ => by simp [headOK, hd2]⟩
        · rw [egScan_cons]
          simp only [hd2, Bool.false_eq_true, if_false, hdot]
          rw [compile_plain c _ hdot hsp, h1]
          rfl
        · rw [egCount_cons]
          simpa [hd2, hdot, groups] using h2
        · rw [delimited_lit, h3]

/-- The pattern inferred from a plain name is in the fragment and has as many
groups as dimensions; its groups are delimited when no `%` of the name is
directly followed by a digit. -/
theorem inferred_compile (name : Str) (hp : plainName name) :
    ∃ toks, RE2.compile (inferred name).1 = some toks ∧ groups toks = (inferred name).2 ∧
      (pctDelimited name = true → delimited toks = true) := by
  unfold inferred
  by_cases h1 : pctRuns name = 0
  · by_cases h2 : egRuns name = 0
    · simp only [h1, h2, ne_eq, not_true_eq_false, if_false]
      exact ⟨[], rfl, rfl, fun _ => rfl⟩
    · obtain ⟨toks, e1, e2, e3, _⟩ := egScan_compile name .text hp
      simp only [h1, h2, ne_eq, not_true_eq_false, if_false, not_false_eq_true, if_true]
      exact ⟨toks, e1, e2, fun _ => e3⟩
  · obtain ⟨toks, e1, e2, e3⟩ := pctScan_compile name false hp
    simp only [h1, ne_eq, not_false_eq_true, if_true]
    exact ⟨toks, e1, e2, fun hd => (e3 hd (fun h => by cases h)).1⟩

/-! ### Pattern inference and opening (C1, C2, C5) -/

/-- C1. Placeholder inference: a filename without path separator that has
exactly `k ≥ 1` maximal runs of `%`, constructed with a valid mode, gets
`ndim_ = k` and as `pattern_` the name with each maximal run replaced by one
capture slot and every other character kept; the example strategy is not
applied. -/
theorem C1_placeholder_inference (name mode : Str) (k : Nat)
    (hsep : PATHSEP ∉ name) (hmode : (parse_mode_string mode).1 = true)
    (hk : pctRuns name = k) (h1 : 1 ≤ k) :
    (series_t.ctor name mode).ndim_ = k ∧
    (series_t.ctor name mode).pattern_ = pctTemplate name := by
  have hname : ctorName name = name := by
    unfold ctorName
    rw [rfind_none name PATHSEP hsep]
  have hne : pctRuns name ≠ 0 := by omega
  rw [ctor_eq]
  subst hk
  simp [hmode, hname, inferred, hne]

/-- C1, at the name of test set a: the `.1` of `vol.1ch%.tif` stays literal. -/
theorem C1_placeholder_inference_witness :
    PATHSEP ∉ "vol.1ch%.tif".toList ∧ (parse_mode_string "r".toList).1 = true ∧
    pctRuns "vol.1ch%.tif".toList = 1 ∧
    (series_t.ctor "vol.1ch%.tif".toList "r".toList).ndim_ = 1 ∧
    (series_t.ctor "vol.1ch%.tif".toList "r".toList).pattern_ = pctTemplate "vol.1ch%.tif".toList ∧
    pctTemplate "vol.1ch%.tif".toList = "vol.1ch(\\d+).tif".toList ∧
    pctTemplate "a%%%b%.x".toList = "a(\\d+)b(\\d+).x".toList :=
  ⟨by decide, by decide, by decide,
   (C1_placeholder_inference _ _ 1 (by decide) (by decide) (by decide) (by decide)).1,
   (C1_placeholder_inference _ _ 1 (by decide) (by decide) (by decide) (by decide)).2,
   by decide, by decide⟩

/-- C2. Example inference: a filename without path separator and without `%`
that has exactly `k` maximal digit runs directly after a `.`, constructed with
a valid mode, gets `ndim_ = k` and as `pattern_` the name with each such run
replaced by one slot (the empty pattern when `k = 0`); digits elsewhere are
kept. The rewriting loop ends, with `Replace` failing on its result. -/
theorem C2_example_inference (name mode : Str) (k : Nat)
    (hsep : PATHSEP ∉ name) (hmode : (parse_mode_string mode).1 = true)
    (hpct : '%' ∉ name) (hk : egRuns name = k) :
    (series_t.ctor name mode).ndim_ = k ∧
    (series_t.ctor name mode).pattern_ = (if k = 0 then [] else egTemplate name) ∧
    gen_loop .eg name 0 = (egTemplate name, k) ∧
    RE2.Replace (egTemplate name) .eg_field Strategy.eg.repl = none := by
  have hname : ctorName name = name := by
    unfold ctorName
    rw [rfind_none name PATHSEP hsep]
  have h0 : pctRuns name = 0 := pctCount_no_pct false name hpct
  have hloop : gen_loop .eg name 0 = (egTemplate name, k) := by
    rw [gen_loop_eq]
    simp [Strategy.template, Strategy.runs, hk]
  have hexit := gen_loop_exit .eg name 0
  rw [hloop] at hexit
  refine ⟨?_, ?_, hloop, hexit⟩
  · rw [ctor_eq]
    by_cases hz : k = 0
    · subst hk; simp [hmode, hname, inferred, h0, hz]
    · subst hk; simp [hmode, hname, inferred, h0, hz]
  · rw [ctor_eq]
    by_cases hz : k = 0
    · subst hk; simp [hmode, hname, inferred, h0, hz]
    · subst hk; simp [hmode, hname, inferred, h0, hz]

/-- C2, at the name of test set b: `vol.0.0000.tif` gives two dimensions; and a
name with digits but none after a `.` gives none. -/
theorem C2_example_inference_witness :
    (series_t.ctor "vol.0.0000.tif".toList "r".toList).ndim_ = 2 ∧
    (series_t.ctor "vol.0.0000.tif".toList "r".toList).pattern_ =
      "vol.(\\d+).(\\d+).tif".toList ∧
    (series_t.ctor "vol12.tif".toList "r".toList).ndim_ = 0 ∧
    (series_t.ctor "vol12.tif".toList "r".toList).pattern_ = [] :=
  ⟨(C2_example_inference "vol.0.0000.tif".toList "r".toList 2
      (by decide) (by decide) (by decide) (by decide)).1,
   (C2_example_inference "vol.0.0000.tif".toList "r".toList 2
      (by decide) (by decide) (by decide) (by decide)).2.1.trans (by decide),
   (C2_example_inference "vol12.tif".toList "r".toList 0
      (by decide) (by decide) (by decide) (by decide)).1,
   (C2_example_inference "vol12.tif".toList "r".toList 0
      (by decide) (by decide) (by decide) (by decide)).2.1⟩

/-- C5. Open validity: `series_open` returns a context exactly when the mode is
accepted by `parse_mode_string` (non-empty, made of `r` and `w`) and the
filename part of the path has at least one placeholder run or one
`.`-prefixed digit run; with a rejected mode no inference is done and `ndim_`
stays 0. The names of the open/close test fail and open as the test expects. -/
theorem C5_open_validity (path mode : Str) :
    ((series_open path mode).isSome = true ↔
      ((parse_mode_string mode).1 = true ∧
        (1 ≤ pctRuns (basename path) ∨ 1 ≤ egRuns (basename path)))) ∧
    ((parse_mode_string mode).1 = true ↔ (mode ≠ [] ∧ ∀ c ∈ mode, c = 'r' ∨ c = 'w')) ∧
    ((parse_mode_string mode).1 = false →
      (series_t.ctor path mode).ndim_ = 0 ∧ (series_t.ctor path mode).pattern_ = [] ∧
      series_open path mode = none) ∧
    series_open "does_not_exist.im.super.serious".toList "r".toList = none ∧
    series_open "does_not_exist.im.super.serious".toList "w".toList = none ∧
    series_open [] "r".toList = none ∧
    series_open [] "w".toList = none ∧
    (series_open "data/a/vol.1ch%.tif".toList "r".toList).isSome = true ∧
    (series_open "data/b/vol.0.0000.tif".toList "r".toList).isSome = true ∧
    series_open "vol.%.tif".toList "x".toList = none := by
  have hopen : ∀ p m : Str, (series_open p m).isSome = true ↔
      ((parse_mode_string m).1 = true ∧
        (1 ≤ pctRuns (basename p) ∨ 1 ≤ egRuns (basename p))) := by
    intro p m
    have hr := ctorName_runs p
    unfold series_open series_t.isok
    rw [ctor_eq]
    by_cases hm : (parse_mode_string m).1 = true
    · by_cases h1 : pctRuns (ctorName p) = 0
      · by_cases h2 : egRuns (ctorName p) = 0
        · simp [hm, inferred, h1, h2, ← hr.1, ← hr.2]
        · have : 1 ≤ egRuns (ctorName p) := by omega
          simp [hm, inferred, h1, h2, ← hr.1, ← hr.2, this]
          omega
      · have : 1 ≤ pctRuns (ctorName p) := by omega
        simp [hm, inferred, h1, ← hr.1, ← hr.2, this]
        omega
    · have hm2 : (parse_mode_string m).1 = false := by simpa using hm
      simp [hm2, series_t.init]
  have hnone : ∀ p m : Str, (series_open p m).isSome = false → series_open p m = none := by
    intro p m h
    cases hs : series_open p m with
    | none => rfl
    | some x => simp [hs] at h
  refine ⟨hopen path mode, parse_mode_string_ok mode, ?_, ?_, ?_, ?_, ?_, ?_, ?_, ?_⟩
  · intro hm
    refine ⟨?_, ?_, ?_⟩
    · rw [ctor_eq]; simp [hm, series_t.init]
    · rw [ctor_eq]; simp [hm, series_t.init]
    · apply hnone
      have := hopen path mode
      simp only [hm] at this
      cases h : (series_open path mode).isSome with
      | false => rfl
      | true => exact absurd (this.mp h).1 (by simp)
  · apply hnone
    have := hopen "does_not_exist.im.super.serious".toList "r".toList
    cases h : (series_open "does_not_exist.im.super.serious".toList "r".toList).isSome with
    | false => rfl
    | true => exact absurd (this.mp h).2 (by decide)
  · apply hnone
    have := hopen "does_not_exist.im.super.serious".toList "w".toList
    cases h : (series_open "does_not_exist.im.super.serious".toList "w".toList).isSome with
    | false => rfl
    | true => exact absurd (this.mp h).2 (by decide)
  · apply hnone
    have := hopen [] "r".toList
    cases h : (series_open [] "r".toList).isSome with
    | false => rfl
    | true => exact absurd (this.mp h).2 (by decide)
  · apply hnone
    have := hopen [] "w".toList
    cases h : (series_open [] "w".toList).isSome with
    | false => rfl
    | true => exact absurd (this.mp h).2 (by decide)
  · exact (hopen _ _).mpr (by decide)
  · exact (hopen _ _).mpr (by decide)
  · apply hnone
    have := hopen "vol.%.tif".toList "x".toList
    cases h : (series_open "vol.%.tif".toList "x".toList).isSome with
    | false => rfl
    | true => exact absurd (this.mp h).1 (by decide)

/-! ### Round trip and matcher (C3, C4) -/

theorem ctor_inferred (path mode : Str) (hmode : (parse_mode_string mode).1 = true) :
    (series_t.ctor path mode).pattern_ = (inferred (ctorName path)).1 ∧
    (series_t.ctor path mode).ndim_ = (inferred (ctorName path)).2 := by
  rw [ctor_eq]
  simp [hmode]

/-- C3 as stated fails. Two positions of the series `a%1%.tif` get one
filename, which parses to only one of them; and the position `2^32` of
`vol.%.tif` gets a filename that `parse` rejects. -/
theorem C3_round_trip_counterexample :
    (series_t.ctor "a%1%.tif".toList "w".toList).ndim_ = 2 ∧
    (series_t.ctor "a%1%.tif".toList "w".toList).last_ = 0 ∧
    (series_t.ctor "a%1%.tif".toList "w".toList).makename [1, 11] =
      some ("a1111.tif".toList, [1, 11]) ∧
    (series_t.ctor "a%1%.tif".toList "w".toList).makename [11, 1] =
      some ("a1111.tif".toList, [11, 1]) ∧
    (∀ ext : RE2.Ext,
      (series_t.ctor "a%1%.tif".toList "w".toList).parse ext "a1111.tif".toList =
        some [11, 1]) ∧
    (series_t.ctor "vol.%.tif".toList "w".toList).makename [4294967296] =
      some ("vol.4294967296.tif".toList, [4294967296]) ∧
    (∀ ext : RE2.Ext,
      (series_t.ctor "vol.%.tif".toList "w".toList).parse ext
        "vol.4294967296.tif".toList = none) := by
  refine ⟨by rw [ctor_eq]; decide, by rw [ctor_eq]; decide, by rw [ctor_eq]; decide,
    by rw [ctor_eq]; decide, ?_, by rw [ctor_eq]; decide, ?_⟩
  · intro ext
    rw [parse_ext_irrelevant ext RE2.noExt _ _ (by rw [ctor_eq]; decide), ctor_eq]
    decide
  · intro ext
    rw [parse_ext_irrelevant ext RE2.noExt _ _ (by rw [ctor_eq]; decide), ctor_eq]
    decide

/-- C3, amended. For a path with a valid mode whose filename part has no
pattern-syntax character other than `.` and no `%` directly followed by a
decimal digit, with `1 ≤ ndim_ ≤ 9`, for every append cursor `c` and every
position `p` of length `ndim_` whose components, the last one after adding `c`,
are below `2^32`: `makename` succeeds, leaves `p` as it was, and `parse` of the
produced name without the directory prefix gives `p` with its last component
raised by `c`; a position `q` under the same bounds that gets the same filename
is `p`. -/
theorem C3_round_trip (ext : RE2.Ext) (path mode : Str) (c : Nat) (p : List Nat)
    (hmode : (parse_mode_string mode).1 = true)
    (hplain : plainName (ctorName path))
    (hdel : pctDelimited (ctorName path) = true)
    (hk1 : 1 ≤ (series_t.ctor path mode).ndim_)
    (hk9 : (series_t.ctor path mode).ndim_ ≤ 9)
    (hlen : p.length = (series_t.ctor path mode).ndim_)
    (hp : ∀ v ∈ p, v < 2 ^ 32)
    (hlast : p.getLastD 0 + c < 2 ^ 32) :
    ∃ t,
      ({ series_t.ctor path mode with last_ := c }).makename p =
        some (({ series_t.ctor path mode with last_ := c }).dirPrefix ++ t, p) ∧
      ({ series_t.ctor path mode with last_ := c }).parse ext t = some (bumpLast p c) ∧
      ∀ q : List Nat, q.length = (series_t.ctor path mode).ndim_ → (∀ v ∈ q, v < 2 ^ 32) →
        q.getLastD 0 + c < 2 ^ 32 →
        (({ series_t.ctor path mode with last_ := c }).makename q).map Prod.fst =
          some (({ series_t.ctor path mode with last_ := c }).dirPrefix ++ t) →
        q = p := by
  obtain ⟨hpatE, hdimE⟩ := ctor_inferred path mode hmode
  obtain ⟨toks, e1, e2, e3⟩ := inferred_compile (ctorName path) hplain
  have hpat : RE2.compile ({ series_t.ctor path mode with last_ := c }).pattern_ = some toks := by
    show RE2.compile (series_t.ctor path mode).pattern_ = some toks
    rw [hpatE, e1]
  have hgrp : groups toks = ({ series_t.ctor path mode with last_ := c }).ndim_ := by
    show groups toks = (series_t.ctor path mode).ndim_
    rw [hdimE, e2]
  have hrt := round_trip ext { series_t.ctor path mode with last_ := c } toks p hpat hgrp
    (e3 hdel) hk1 hk9 hlen hp hlast
  refine ⟨_, hrt.1, hrt.2, ?_⟩
  intro q hql hq hqlast hname
  have hrq := round_trip ext { series_t.ctor path mode with last_ := c } toks q hpat hgrp
    (e3 hdel) hk1 hk9 hql hq hqlast
  rw [hrq.1] at hname
  simp only [Option.map_some', Option.some.injEq] at hname
  have hfill := List.append_cancel_left hname
  have hparse := hrq.2
  rw [hfill] at hparse
  have hb : bumpLast q c = bumpLast p c := by
    have := hparse.symm.trans hrt.2
    simpa using this
  exact bumpLast_inj c q p (by rw [hql, hlen]) hb

/-- C3, amended, at the series `vol.%.%.tif` in directory `out` with append
cursor 3 and position `(4, 5)`: the name is `out/vol.4.8.tif`, read back as
`(4, 8)`. -/
theorem C3_round_trip_witness :
    (parse_mode_string "w".toList).1 = true ∧
    plainName (ctorName "out/vol.%.%.tif".toList) ∧
    pctDelimited (ctorName "out/vol.%.%.tif".toList) = true ∧
    (series_t.ctor "out/vol.%.%.tif".toList "w".toList).ndim_ = 2 ∧
    ∃ t,
      ({ series_t.ctor "out/vol.%.%.tif".toList "w".toList with last_ := 3 }).makename [4, 5] =
        some (({ series_t.ctor "out/vol.%.%.tif".toList "w".toList with
                  last_ := 3 }).dirPrefix ++ t, [4, 5]) ∧
      ({ series_t.ctor "out/vol.%.%.tif".toList "w".toList with last_ := 3 }).parse
        RE2.noExt t = some (bumpLast [4, 5] 3) ∧
      ∀ q : List Nat, q.length = (series_t.ctor "out/vol.%.%.tif".toList "w".toList).ndim_ →
        (∀ v ∈ q, v < 2 ^ 32) → q.getLastD 0 + 3 < 2 ^ 32 →
        (({ series_t.ctor "out/vol.%.%.tif".toList "w".toList with
              last_ := 3 }).makename q).map Prod.fst =
          some (({ series_t.ctor "out/vol.%.%.tif".toList "w".toList with
                    last_ := 3 }).dirPrefix ++ t) →
        q = [4, 5] :=
  ⟨by decide, by unfold plainName; decide, by decide, by rw [ctor_eq]; decide,
   C3_round_trip RE2.noExt "out/vol.%.%.tif".toList "w".toList 3 [4, 5]
     (by decide) (by unfold plainName; decide) (by decide)
     (by rw [ctor_eq]; decide) (by rw [ctor_eq]; decide) (by rw [ctor_eq]; decide)
     (by decide) (by decide)⟩

/-- C4 as stated fails. The series of `vol.0.0000.tif` accepts `volx1y2ztif`,
which is not that name with its two fields replaced by digit runs (each `.`
of the pattern matched another character), and it rejects
`vol.4294967296.0.tif`, which is. -/
theorem C4_exact_matcher_counterexample :
    RE2.compile (series_t.ctor "vol.0.0000.tif".toList "r".toList).pattern_ =
      some [Tok.lit 'v', Tok.lit 'o', Tok.lit 'l', Tok.any, Tok.grp, Tok.any, Tok.grp,
            Tok.any, Tok.lit 't', Tok.lit 'i', Tok.lit 'f'] ∧
    (∀ ext : RE2.Ext,
      (series_t.ctor "vol.0.0000.tif".toList "r".toList).parse ext
        "volx1y2ztif".toList = some [1, 2]) ∧
    (¬ ∃ runs, Inst (literalDots [Tok.lit 'v', Tok.lit 'o', Tok.lit 'l', Tok.any, Tok.grp,
        Tok.any, Tok.grp, Tok.any, Tok.lit 't', Tok.lit 'i', Tok.lit 'f'])
        "volx1y2ztif".toList runs) ∧
    Inst (literalDots [Tok.lit 'v', Tok.lit 'o', Tok.lit 'l', Tok.any, Tok.grp,
        Tok.any, Tok.grp, Tok.any, Tok.lit 't', Tok.lit 'i', Tok.lit 'f'])
        "vol.4294967296.0.tif".toList ["4294967296".toList, "0".toList] ∧
    (∀ ext : RE2.Ext,
      (series_t.ctor "vol.0.0000.tif".toList "r".toList).parse ext
        "vol.4294967296.0.tif".toList = none) := by
  refine ⟨by rw [ctor_eq]; decide, ?_, ?_, ?_, ?_⟩
  · intro ext
    rw [parse_ext_irrelevant ext RE2.noExt _ _ (by rw [ctor_eq]; decide), ctor_eq]
    decide
  · rw [matchToks_isSome]
    decide
  · exact ((matchToks_spec _ _).1 _ (by decide)).1
  · intro ext
    rw [parse_ext_irrelevant ext RE2.noExt _ _ (by rw [ctor_eq]; decide), ctor_eq]
    decide

/-- C4, amended. For a path with a valid mode whose filename part has no
pattern-syntax character other than `.`, and `ndim_ ≥ 1`: when `ndim_ ≤ 9` the
pattern reads as tokens with `ndim_` groups, and `parse(name)` succeeds with
`pos` exactly when `name` is the pattern with each group replaced by a
non-empty digit run, each `.` by one character other than the newline and
every other character kept, the runs (of the splitting that gives the earliest
fields the longest runs) all have a value below `2^32`, and `pos` is their
values in order; in every other case `parse` fails. When `ndim_ ≥ 10`,
`parse` fails on every name. -/
theorem C4_exact_matcher (ext : RE2.Ext) (path mode : Str)
    (hmode : (parse_mode_string mode).1 = true)
    (hplain : plainName (ctorName path))
    (hk1 : 1 ≤ (series_t.ctor path mode).ndim_) :
    ((series_t.ctor path mode).ndim_ ≤ 9 →
      ∃ toks, RE2.compile (series_t.ctor path mode).pattern_ = some toks ∧
        groups toks = (series_t.ctor path mode).ndim_ ∧
        ∀ (name : Str) (pos : TPos),
          (series_t.ctor path mode).parse ext name = some pos ↔
            ∃ runs, Inst toks name runs ∧ (∀ qs, Inst toks name qs → prefer runs qs) ∧
              (∀ r ∈ runs, decVal r < 2 ^ 32) ∧ pos = runs.map decVal) ∧
    (10 ≤ (series_t.ctor path mode).ndim_ →
      ∀ name : Str, (series_t.ctor path mode).parse ext name = none) := by
  constructor
  · intro hk9
    obtain ⟨hpatE, hdimE⟩ := ctor_inferred path mode hmode
    obtain ⟨toks, e1, e2, _⟩ := inferred_compile (ctorName path) hplain
    have hpat : RE2.compile (series_t.ctor path mode).pattern_ = some toks := by
      rw [hpatE, e1]
    have hgrp : groups toks = (series_t.ctor path mode).ndim_ := by
      rw [hdimE, e2]
    refine ⟨toks, hpat, hgrp, ?_⟩
    intro name pos
    rw [parse_fragment ext _ toks name hpat hgrp hk1 hk9]
    constructor
    · intro h
      cases hm : matchToks toks name with
      | none => simp [hm] at h
      | some caps =>
        simp only [hm] at h
        obtain ⟨h1, h2⟩ := (matchToks_iff toks name caps).mp hm
        obtain ⟨h3, h4⟩ := (parseArgs_some caps pos).mp h
        exact ⟨caps, h1, h2, h3, h4⟩
    · rintro ⟨runs, h1, h2, h3, h4⟩
      have hm := (matchToks_iff toks name runs).mpr ⟨h1, h2⟩
      simp only [hm]
      exact (parseArgs_some runs pos).mpr ⟨h3, h4⟩
  · intro h10 name
    have hok : (series_t.ctor path mode).isok = true := by
      simp only [series_t.isok, decide_eq_true_eq]
      omega
    have hnot : ¬ (series_t.ctor path mode).ndim_ < 10 := by omega
    simp [series_t.parse, hok, hnot]

/-- C4, amended, at the series of `vol.0.0000.tif`. -/
theorem C4_exact_matcher_witness :
    (parse_mode_string "r".toList).1 = true ∧
    plainName (ctorName "vol.0.0000.tif".toList) ∧
    (series_t.ctor "vol.0.0000.tif".toList "r".toList).ndim_ = 2 ∧
    (series_t.ctor "vol.0.0000.tif".toList "r".toList).parse RE2.noExt
      "vol.1.0007.tif".toList = some [1, 7] ∧
    (series_t.ctor "vol.0.0000.tif".toList "r".toList).parse RE2.noExt
      "other.txt".toList = none ∧
    (((series_t.ctor "vol.0.0000.tif".toList "r".toList).ndim_ ≤ 9 →
      ∃ toks, RE2.compile (series_t.ctor "vol.0.0000.tif".toList "r".toList).pattern_
          = some toks ∧
        groups toks = (series_t.ctor "vol.0.0000.tif".toList "r".toList).ndim_ ∧
        ∀ (name : Str) (pos : TPos),
          (series_t.ctor "vol.0.0000.tif".toList "r".toList).parse RE2.noExt name = some pos ↔
            ∃ runs, Inst toks name runs ∧ (∀ qs, Inst toks name qs → prefer runs qs) ∧
              (∀ r ∈ runs, decVal r < 2 ^ 32) ∧ pos = runs.map decVal) ∧
    (10 ≤ (series_t.ctor "vol.0.0000.tif".toList "r".toList).ndim_ →
      ∀ name : Str,
        (series_t.ctor "vol.0.0000.tif".toList "r".toList).parse RE2.noExt name = none)) :=
  ⟨by decide, by unfold plainName; decide, by rw [ctor_eq]; decide,
   by rw [ctor_eq]; decide, by rw [ctor_eq]; decide,
   C4_exact_matcher RE2.noExt "vol.0.0000.tif".toList "r".toList
     (by decide) (by unfold plainName; decide) (by rw [ctor_eq]; decide)⟩

/-! ### The bounding box (C6) -/

/-- A position `parse` returns has `ndim_ ≥ 1` components, each below `2^32`. -/
theorem parse_some (ext : RE2.Ext) (s : series_t) (name : Str) (pos : TPos)
    (h : s.parse ext name = some pos) :
    pos.length = s.ndim_ ∧ 0 < s.ndim_ ∧ ∀ v ∈ pos, v < 2 ^ 32 := by
  unfold series_t.parse at h
  by_cases hok : s.isok = false
  · simp [hok] at h
  · have hpos : 0 < s.ndim_ := by
      have : ¬ s.ndim_ = 0 := by simpa [series_t.isok] using hok
      omega
    by_cases h10 : s.ndim_ < 10
    · simp only [hok, if_false, h10, not_true_eq_false, RE2.FullMatchN] at h
      cases hc : RE2.compile s.pattern_ with
      | none =>
        simp only [hc] at h
        cases he : ext name s.pattern_ s.ndim_ with
        | none => simp [he] at h
        | some f =>
          simp only [he, Option.map_some', Bool.true_eq_false, if_false,
            Option.some.injEq] at h
          subst h
          refine ⟨by simp, hpos, ?_⟩
          intro v hv
          simp only [List.mem_ofFn] at hv
          obtain ⟨i, hi⟩ := hv
          rw [← hi]
          exact (f i).isLt
      | some toks =>
        simp only [hc] at h
        by_cases hg : groups toks < s.ndim_
        · simp [hg] at h
        · simp only [hg, if_false] at h
          cases hm : matchToks toks name with
          | none => simp [hm] at h
          | some caps =>
            simp only [hm] at h
            have hl := Inst_groups ((matchToks_spec toks name).1 caps hm).1
            obtain ⟨h1, h2⟩ := (parseArgs_some _ pos).mp h
            refine ⟨?_, hpos, ?_⟩
            · rw [h2, List.length_map, List.length_take]
              omega
            · intro v hv
              rw [h2] at hv
              simp only [List.mem_map] at hv
              obtain ⟨r, hr, hrv⟩ := hv
              rw [← hrv]
              exact h1 r hr
    · simp [hok, h10] at h

theorem zipWith_getD (f : Nat → Nat → Nat) (hf : f 0 0 = 0) :
    ∀ (a b : List Nat) (i : Nat), a.length = b.length →
      (List.zipWith f a b).getD i 0 = f (a.getD i 0) (b.getD i 0) := by
  intro a
  induction a with
  | nil =>
    intro b i h
    cases b with
    | nil => simp [hf]
    | cons _ _ => simp at h
  | cons x xs ih =>
    intro b i h
    cases b with
    | nil => simp at h
    | cons y ys =>
      cases i with
      | zero => simp
      | succ i =>
        have hl : xs.length = ys.length := by simpa using h
        simpa using ih ys i hl

theorem vmin_spec (acc pos : TPos) (h : acc.length = pos.length) :
    (vmin acc pos).length = pos.length ∧
    ∀ i, (vmin acc pos).getD i 0 = min (acc.getD i 0) (pos.getD i 0) := by
  unfold vmin
  simp only [h, ne_eq, not_true_eq_false, if_false]
  refine ⟨by simp [h], ?_⟩
  intro i
  rw [zipWith_getD _ (by simp) acc pos i h]
  split <;> omega

theorem vmax_spec (acc pos : TPos) (h : acc.length = pos.length) :
    (vmax acc pos).length = pos.length ∧
    ∀ i, (vmax acc pos).getD i 0 = max (acc.getD i 0) (pos.getD i 0) := by
  unfold vmax
  simp only [h, ne_eq, not_true_eq_false, if_false]
  refine ⟨by simp [h], ?_⟩
  intro i
  rw [zipWith_getD _ (by simp) acc pos i h]
  split <;> omega

theorem bboxOf_step (n : Nat) (hn : 0 < n) (acc : TPos × TPos) (seen : List TPos) (pos : TPos)
    (hpos : pos.length = n) (h : bboxOf n acc seen) :
    bboxOf n (vmin acc.1 pos, vmax acc.2 pos) (seen ++ [pos]) := by
  rcases h with ⟨h1, h2⟩ | ⟨h1, h2, h3, h4⟩
  · right
    subst h1
    rw [h2]
    have hne : ([] : TPos).length ≠ pos.length := by
      rw [hpos, List.length_nil]
      omega
    have e1 : vmin [] pos = pos := by
      unfold vmin
      rw [if_pos hne]
    have e2 : vmax [] pos = pos := by
      unfold vmax
      rw [if_pos hne]
    simp only [e1, e2, List.nil_append]
    refine ⟨by simp, hpos, hpos, ?_⟩
    intro i
    refine ⟨?_, ⟨pos, by simp, rfl⟩, ⟨pos, by simp, rfl⟩⟩
    intro p hp
    simp only [List.mem_singleton] at hp
    subst hp
    exact ⟨le_refl _, le_refl _⟩
  · right
    obtain ⟨m1, m2⟩ := vmin_spec acc.1 pos (by rw [h2, hpos])
    obtain ⟨x1, x2⟩ := vmax_spec acc.2 pos (by rw [h3, hpos])
    refine ⟨by simp, by rw [m1, hpos], by rw [x1, hpos], ?_⟩
    intro i
    obtain ⟨b1, ⟨p1, hp1, e1⟩, ⟨p2, hp2, e2⟩⟩ := h4 i
    simp only [m2, x2]
    refine ⟨?_, ?_, ?_⟩
    · intro p hp
      rcases List.mem_append.mp hp with hp | hp
      · have := b1 p hp
        omega
      · simp only [List.mem_singleton] at hp
        subst hp
        omega
    · by_cases hc : acc.1.getD i 0 ≤ pos.getD i 0
      · exact ⟨p1, List.mem_append_left _ hp1, by rw [e1]; omega⟩
      · exact ⟨pos, by simp, by omega⟩
    · by_cases hc : pos.getD i 0 ≤ acc.2.getD i 0
      · exact ⟨p2, List.mem_append_left _ hp2, by rw [e2]; omega⟩
      · exact ⟨pos, by simp, by omega⟩

theorem minmax_fold (ext : RE2.Ext) (s : series_t) (ents : List Str) :
    ∀ (acc : TPos × TPos) (seen : List TPos), bboxOf s.ndim_ acc seen →
      bboxOf s.ndim_ (ents.foldl (minmax_step ext s) acc)
        (seen ++ ents.filterMap (s.parse ext)) := by
  induction ents with
  | nil => intro acc seen h; simpa using h
  | cons e es ih =>
    intro acc seen h
    simp only [List.foldl_cons]
    cases hp : s.parse ext e with
    | none =>
      have e1 : minmax_step ext s acc e = acc := by simp [minmax_step, hp]
      rw [e1, List.filterMap_cons_none hp]
      exact ih acc seen h
    | some pos =>
      obtain ⟨q1, q2, _⟩ := parse_some ext s e pos hp
      have e1 : minmax_step ext s acc e = (vmin acc.1 pos, vmax acc.2 pos) := by
        simp [minmax_step, hp]
      rw [e1, List.filterMap_cons_some hp]
      have := ih _ _ (bboxOf_step s.ndim_ q2 acc seen pos q1 h)
      simpa using this

theorem minmax_filter (ext : RE2.Ext) (s : series_t) (ents : List Str) :
    ∀ acc : TPos × TPos,
      (ents.filter (fun e => (s.parse ext e).isSome)).foldl (minmax_step ext s) acc =
        ents.foldl (minmax_step ext s) acc := by
  induction ents with
  | nil => intro acc; rfl
  | cons e es ih =>
    intro acc
    cases hp : s.parse ext e with
    | none =>
      have e1 : minmax_step ext s acc e = acc := by simp [minmax_step, hp]
      simp [List.filter_cons, hp, e1, ih]
    | some pos => simp [List.filter_cons, hp, ih]

/-- The result of `minmax` on a listing, started with empty accumulators. -/
theorem minmax_spec (ext : RE2.Ext) (s : series_t) (ents : List Str) :
    ∃ mn mx, s.minmax ext (some ents) [] [] = some (mn, mx) ∧
      bboxOf s.ndim_ (mn, mx) (ents.filterMap (s.parse ext)) := by
  refine ⟨(ents.foldl (minmax_step ext s) ([], [])).1,
    (ents.foldl (minmax_step ext s) ([], [])).2, rfl, ?_⟩
  have := minmax_fold ext s ents ([], []) [] (Or.inl ⟨rfl, rfl⟩)
  simpa using this

/-- C6. Bounding box: `minmax`, called with empty `mn` and `mx` on a listing,
returns for each dimension the minimum and the maximum of that component over
the positions of exactly the entries that parse (both attained, so
`mn[i] ≤ mx[i]`); `mn` and `mx` stay empty when no entry parses; and the
entries that do not parse change nothing, the result being that of the listing
without them. The positions (0,0),(0,1),(1,0),(1,1) give (0,0) and (1,1). -/
theorem C6_bounding_box (ext : RE2.Ext) (s : series_t) (ents : List Str) :
    (∃ mn mx, s.minmax ext (some ents) [] [] = some (mn, mx) ∧
      (ents.filterMap (s.parse ext) = [] → mn = [] ∧ mx = []) ∧
      (ents.filterMap (s.parse ext) ≠ [] →
        mn.length = s.ndim_ ∧ mx.length = s.ndim_ ∧
        ∀ i, i < s.ndim_ →
          (∀ p ∈ ents.filterMap (s.parse ext),
            mn.getD i 0 ≤ p.getD i 0 ∧ p.getD i 0 ≤ mx.getD i 0) ∧
          (∃ p ∈ ents.filterMap (s.parse ext), p.getD i 0 = mn.getD i 0) ∧
          (∃ p ∈ ents.filterMap (s.parse ext), p.getD i 0 = mx.getD i 0) ∧
          mn.getD i 0 ≤ mx.getD i 0) ∧
      s.minmax ext (some (ents.filter (fun e => (s.parse ext e).isSome))) [] [] =
        some (mn, mx)) ∧
    (series_t.ctor "b/vol.0.0000.tif".toList "r".toList).minmax ext
      (some ["vol.0.0000.tif".toList, "vol.0.0001.tif".toList, "readme.txt".toList,
             "vol.1.0000.tif".toList, "vol.1.0001.tif".toList]) [] [] =
      some ([0, 0], [1, 1]) := by
  refine ⟨?_, by
    rw [minmax_ext_irrelevant ext RE2.noExt _ _ _ _ (by rw [ctor_eq]; decide), ctor_eq]
    decide⟩
  obtain ⟨mn, mx, h1, h2⟩ := minmax_spec ext s ents
  refine ⟨mn, mx, h1, ?_, ?_, ?_⟩
  · intro hnil
    rcases h2 with ⟨_, h3⟩ | ⟨h3, _⟩
    · simp only [Prod.mk.injEq] at h3
      exact h3
    · exact absurd hnil h3
  · intro hne
    rcases h2 with ⟨h3, _⟩ | ⟨_, h4, h5, h6⟩
    · exact absurd h3 hne
    · refine ⟨h4, h5, ?_⟩
      intro i _
      obtain ⟨b1, b2, b3⟩ := h6 i
      refine ⟨b1, b2, b3, ?_⟩
      obtain ⟨p, hp, _⟩ := b2
      have := b1 p hp
      exact le_trans this.1 this.2
  · simp only [series_t.minmax, Option.some.injEq] at h1 ⊢
    rw [minmax_filter, h1]

/-! ### The composed shape (C7) -/

theorem single_file_shape_loop_eq (ext : RE2.Ext) (w : World) (s : series_t) (ents : List Str) :
    single_file_shape_loop ext w s ents =
      match ents.find? (fun e => (s.parse ext e).isSome) with
      | some e0 => get_file_shape w s.path_ e0
      | none => none := by
  induction ents with
  | nil => rfl
  | cons e es ih =>
    cases hp : s.parse ext e with
    | none => simp [single_file_shape_loop, hp, List.find?_cons, ih]
    | some pos => simp [single_file_shape_loop, hp, List.find?_cons]

theorem set_append_cons (l1 l2 : List Nat) (x v : Nat) :
    (l1 ++ x :: l2).set l1.length v = l1 ++ v :: l2 := by
  induction l1 with
  | nil => rfl
  | cons y ys ih => simp [ih]

theorem shape_set_loop_spec (o k : Nat) (mn mx : TPos) (fs : List Nat) (hfs : fs.length = o)
    (hk : o + k < 2 ^ 32) :
    ∀ (n i : Nat) (a : nd_t), i + n ≤ k → a.ndim = o + k →
      a.shape = fs ++ (List.range i).map (extentArg mn mx) ++ List.replicate (k - i) 1 →
      (shape_set_loop o mn mx n i a).ndim = o + k ∧
      (shape_set_loop o mn mx n i a).shape =
        fs ++ (List.range (i + n)).map (extentArg mn mx) ++ List.replicate (k - (i + n)) 1 := by
  intro n
  induction n with
  | zero =>
    intro i a _ h1 h2
    simp only [shape_set_loop, Nat.add_zero]
    exact ⟨h1, h2⟩
  | succ n ih =>
    intro i a hin h1 h2
    have hidx : (o + i) % 2 ^ 64 % 2 ^ 32 = o + i := by omega
    have hlt : o + i < a.ndim := by omega
    have hlen : a.shape.length = a.ndim := by
      rw [h2, h1]
      simp [hfs]
      omega
    have hrep : List.replicate (k - i) 1 = 1 :: List.replicate (k - (i + 1)) 1 := by
      have : k - i = (k - (i + 1)) + 1 := by omega
      rw [this, List.replicate_succ]
    have hset : ndShapeSet a (o + i) (extentArg mn mx i) =
        { a with shape := fs ++ (List.range (i + 1)).map (extentArg mn mx) ++
            List.replicate (k - (i + 1)) 1 } := by
      unfold ndShapeSet
      simp only [hlt, if_true]
      have htake : a.shape.take a.ndim = a.shape := by
        rw [← hlen, List.take_length]
      rw [htake, h2, hrep]
      have hl : (fs ++ (List.range i).map (extentArg mn mx)).length = o + i := by
        simp [hfs]
      rw [← hl, set_append_cons, List.range_succ, List.map_append]
      simp
    simp only [shape_set_loop, hidx]
    have hval : (mx.getD i 0 + 2 ^ 64 - mn.getD i 0 + 1) % 2 ^ 64 = extentArg mn mx i := rfl
    rw [hval, hset]
    have := ih (i + 1)
      { a with shape := fs ++ (List.range (i + 1)).map (extentArg mn mx) ++
          List.replicate (k - (i + 1)) 1 } (by omega) h1 rfl
    have e : i + 1 + n = i + (n + 1) := by omega
    rw [e] at this
    exact this

theorem extentArg_small (mn mx : TPos) (i : Nat) (h1 : mn.getD i 0 ≤ mx.getD i 0)
    (h2 : mx.getD i 0 < 2 ^ 32) : extentArg mn mx i = mx.getD i 0 - mn.getD i 0 + 1 := by
  unfold extentArg
  omega

/-- C7, amended. Shape composition on a directory that can be listed. When the first
matching entry opens with intrinsic shape `fs` (and the rank `f + ndim_` fits
32 bits), `series_shape` returns a shape of rank `f + ndim_` whose first `f`
extents are `fs` and whose extent on axis `f + i` is `mx[i] - mn[i] + 1`.
When no entry matches, or the first matching file does not give a shape,
`series_shape` returns null. -/
theorem C7_shape_composition (ext : RE2.Ext) (w : World) (s : series_t) (ents : List Str)
    (hdir : w.dir = some ents) :
    (∀ (e0 : Str) (file : SubFile) (fs : List Nat) (mn mx : TPos),
      ents.find? (fun e => (s.parse ext e).isSome) = some e0 →
      openfile w s.path_ e0 = some file → file.ndioShape = some fs →
      fs.length + s.ndim_ < 2 ^ 32 →
      s.minmax ext w.dir [] [] = some (mn, mx) →
      ∃ shp, series_shape ext w s = some shp ∧ shp.ndim = fs.length + s.ndim_ ∧
        shp.shape = fs ++ (List.range s.ndim_).map (fun i => mx.getD i 0 - mn.getD i 0 + 1)) ∧
    (ents.find? (fun e => (s.parse ext e).isSome) = none →
      (series_shape ext w s).isNone = true) ∧
    (∀ e0 : Str, ents.find? (fun e => (s.parse ext e).isSome) = some e0 →
      (get_file_shape w s.path_ e0).isNone = true →
      (series_shape ext w s).isNone = true) := by
  obtain ⟨mn0, mx0, hmm0, hbox⟩ := minmax_spec ext s ents
  have hsfs : s.single_file_shape ext w =
      match ents.find? (fun e => (s.parse ext e).isSome) with
      | some e0 => get_file_shape w s.path_ e0
      | none => none := by
    simp only [series_t.single_file_shape, hdir, single_file_shape_loop_eq]
  refine ⟨?_, ?_, ?_⟩
  · intro e0 file fs mn mx hfind hopen hshape hrank hmm
    rw [hdir, hmm0] at hmm
    simp only [Option.some.injEq, Prod.mk.injEq] at hmm
    obtain ⟨hmn, hmx⟩ := hmm
    subst hmn hmx
    have hmem : e0 ∈ ents := List.mem_of_find?_eq_some hfind
    have hsome : (s.parse ext e0).isSome = true := by
      have := List.find?_some hfind
      simpa using this
    obtain ⟨p0, hp0⟩ := Option.isSome_iff_exists.mp hsome
    have hseen : ents.filterMap (s.parse ext) ≠ [] := by
      intro hnil
      have : p0 ∈ ents.filterMap (s.parse ext) := List.mem_filterMap.mpr ⟨e0, hmem, hp0⟩
      rw [hnil] at this
      simp at this
    obtain ⟨_, hk1, _⟩ := parse_some ext s e0 p0 hp0
    rcases hbox with ⟨h1, _⟩ | ⟨_, hl1, hl2, hb⟩
    · exact absurd h1 hseen
    · have hgfs : get_file_shape w s.path_ e0 = some (nd_t.ofShape fs) := by
        simp [get_file_shape, hopen, hshape]
      have hidim : (fs.length + mx0.length + 2 ^ 64 - 1) % 2 ^ 64 % 2 ^ 32
          = fs.length + s.ndim_ - 1 := by
        simp only [] at hl2
        rw [hl2]
        omega
      have hins : ndInsertDim (nd_t.ofShape fs) (fs.length + s.ndim_ - 1) =
          { nd_t.ofShape fs with ndim := fs.length + s.ndim_,
                                 shape := fs ++ List.replicate s.ndim_ 1 } := by
        unfold ndInsertDim nd_t.ofShape
        have h1 : ¬ (fs.length + s.ndim_ - 1 < fs.length) := by omega
        have h2 : fs.length + s.ndim_ - 1 + 1 = fs.length + s.ndim_ := by omega
        have h3 : fs.length + s.ndim_ - fs.length = s.ndim_ := by omega
        simp only [h1, if_false, List.take_length, h2, h3]
      have hloop := shape_set_loop_spec fs.length s.ndim_ mn0 mx0 fs rfl hrank s.ndim_ 0
        { nd_t.ofShape fs with ndim := fs.length + s.ndim_,
                               shape := fs ++ List.replicate s.ndim_ 1 }
        (by omega) rfl (by simp)
      simp only [] at hl1
      refine ⟨_, ?_, hloop.1, ?_⟩
      · simp only [series_shape, hdir, hmm0, hsfs, hfind, hgfs]
        have hnd : (nd_t.ofShape fs).ndim = fs.length := rfl
        rw [hnd, hidim, hins, hl1]
      · rw [hloop.2]
        simp only [Nat.zero_add, Nat.sub_self, List.replicate_zero, List.append_nil]
        have hmap : (List.range s.ndim_).map (extentArg mn0 mx0) =
            (List.range s.ndim_).map (fun i => mx0.getD i 0 - mn0.getD i 0 + 1) := by
          apply List.map_congr_left
          intro i hi
          simp only [List.mem_range] at hi
          obtain ⟨b1, ⟨q1, hq1, e1⟩, ⟨q2, hq2, e2⟩⟩ := hb i
          have hle : mn0.getD i 0 ≤ mx0.getD i 0 := by
            have := b1 q1 hq1
            exact le_trans this.1 this.2
          have hbd : mx0.getD i 0 < 2 ^ 32 := by
            obtain ⟨e, _, he⟩ := List.mem_filterMap.mp hq2
            obtain ⟨q2l, _, q2b⟩ := parse_some ext s e q2 he
            have e3 : q2.getD i 0 = mx0.getD i 0 := e2
            rw [← e3]
            have hi2 : i < q2.length := by omega
            rw [List.getD_eq_getElem _ _ hi2]
            exact q2b _ (List.getElem_mem _)
          exact extentArg_small mn0 mx0 i hle hbd
        rw [hmap]
  · intro hfind
    simp [series_shape, hdir, hsfs, hfind]
    cases (List.foldl (minmax_step ext s) ([], []) ents) with
    | mk a b => rfl
  · intro e0 hfind hnone
    have hn : get_file_shape w s.path_ e0 = none := by
      cases hg : get_file_shape w s.path_ e0 with
      | none => rfl
      | some x => rw [hg] at hnone; cases hnone
    simp [series_shape, hdir, hsfs, hfind, hn]
    cases (List.foldl (minmax_step ext s) ([], []) ents) with
    | mk a b => rfl

/-- C7, at the two test sets: ten files `vol.1ch0.tif` … `vol.1ch9.tif` of
shape `(620,512)` give `(620,512,10)`, and the files `vol.0.0000.tif` …
`vol.1.0015.tif` give `(620,512,2,16)`. -/
theorem C7_shape_composition_witness :
    (∃ shp, series_shape RE2.noExt setA (series_t.ctor "data/a/vol.1ch%.tif".toList "r".toList)
        = some shp ∧ shp.ndim = 3 ∧ shp.shape = [620, 512, 10]) ∧
    (∃ shp, series_shape RE2.noExt setB (series_t.ctor "data/b/vol.0.0000.tif".toList "r".toList)
        = some shp ∧ shp.ndim = 4 ∧ shp.shape = [620, 512, 2, 16]) := by
  constructor
  · obtain ⟨shp, h1, h2, h3⟩ :=
      (C7_shape_composition RE2.noExt setA
        (series_t.ctor "data/a/vol.1ch%.tif".toList "r".toList) _ rfl).1
        "vol.1ch0.tif".toList { ndioShape := some [620, 512] } [620, 512] [0] [9]
        (by rw [ctor_eq]; decide) rfl rfl (by rw [ctor_eq]; decide) (by rw [ctor_eq]; decide)
    refine ⟨shp, h1, ?_, ?_⟩
    · rw [h2, ctor_eq]; decide
    · rw [h3, ctor_eq]; decide
  · obtain ⟨shp, h1, h2, h3⟩ :=
      (C7_shape_composition RE2.noExt setB
        (series_t.ctor "data/b/vol.0.0000.tif".toList "r".toList) _ rfl).1
        "vol.0.0000.tif".toList { ndioShape := some [620, 512] } [620, 512] [0, 0] [1, 15]
        (by rw [ctor_eq]; decide) rfl rfl (by rw [ctor_eq]; decide) (by rw [ctor_eq]; decide)
    refine ⟨shp, h1, ?_, ?_⟩
    · rw [h2, ctor_eq]; decide
    · rw [h3, ctor_eq]; decide

theorem series_shape_ext_irrelevant (ext1 ext2 : RE2.Ext) (w : World) (s : series_t)
    (h : (RE2.compile s.pattern_).isSome = true) :
    series_shape ext1 w s = series_shape ext2 w s := by
  have hloop : ∀ ents : List Str,
      single_file_shape_loop ext1 w s ents = single_file_shape_loop ext2 w s ents := by
    intro ents
    induction ents with
    | nil => rfl
    | cons e es ih =>
      simp only [single_file_shape_loop, parse_ext_irrelevant ext1 ext2 s e h, ih]
  have hsfs : s.single_file_shape ext1 w = s.single_file_shape ext2 w := by
    unfold series_t.single_file_shape
    cases w.dir with
    | none => rfl
    | some ents => exact hloop ents
  simp only [series_shape, minmax_ext_irrelevant ext1 ext2 s w.dir [] [] h, hsfs]

/-- C7 as stated fails. The directory holds the matching entries `vol.5.5.tif`
and `vol.5.6.tif` in this order; the second opens and has the shape
`(620,512)`, so a matching entry whose file opens exists, but the first does
not open, and `series_shape` returns null: `single_file_shape` tries the first
matching entry only. -/
theorem C7_shape_composition_counterexample :
    setFirstUnreadable.dir = some ["vol.5.5.tif".toList, "vol.5.6.tif".toList] ∧
    (∀ ext : RE2.Ext,
      ((series_t.ctor "data/b/vol.0.0000.tif".toList "r".toList).parse ext
        "vol.5.5.tif".toList).isSome = true ∧
      ((series_t.ctor "data/b/vol.0.0000.tif".toList "r".toList).parse ext
        "vol.5.6.tif".toList).isSome = true) ∧
    (openfile setFirstUnreadable (series_t.ctor "data/b/vol.0.0000.tif".toList "r".toList).path_
      "vol.5.5.tif".toList).isNone = true ∧
    (openfile setFirstUnreadable (series_t.ctor "data/b/vol.0.0000.tif".toList "r".toList).path_
      "vol.5.6.tif".toList).bind (fun file => file.ndioShape) = some [620, 512] ∧
    (∀ ext : RE2.Ext,
      (series_shape ext setFirstUnreadable
        (series_t.ctor "data/b/vol.0.0000.tif".toList "r".toList)).isNone = true) := by
  refine ⟨rfl, ?_, by rw [ctor_eq]; decide, by rw [ctor_eq]; decide, ?_⟩
  · intro ext
    constructor
    · rw [parse_ext_irrelevant ext RE2.noExt _ _ (by rw [ctor_eq]; decide), ctor_eq]
      decide
    · rw [parse_ext_irrelevant ext RE2.noExt _ _ (by rw [ctor_eq]; decide), ctor_eq]
      decide
  · intro ext
    rw [series_shape_ext_irrelevant ext RE2.noExt _ _ (by rw [ctor_eq]; decide), ctor_eq]
    decide

/-! ### Read placement (C8) -/

theorem toInt64_small (x : Nat) (h : x < 2 ^ 63) : toInt64 x = (x : Int) := by
  unfold toInt64
  have h1 : x % 2 ^ 64 = x := Nat.mod_eq_of_lt (by omega)
  rw [h1, if_pos h]

theorem read_offsets_spec (o : Nat) (v mn : TPos) (back : Bool) :
    ∀ (n i : Nat) (a : nd_t), o + i + n ≤ a.ndim → a.ndim < 2 ^ 32 →
      ∃ a1, read_offsets o v mn back n i a = some a1 ∧ a1.ndim = a.ndim ∧
        a1.shape = a.shape ∧
        ∀ j, a1.offset j = a.offset j +
          (if o + i ≤ j ∧ j < o + i + n then readDelta v mn back (j - o) else 0) := by
  intro n
  induction n with
  | zero =>
    intro i a _ _
    refine ⟨a, rfl, rfl, rfl, ?_⟩
    intro j
    have : ¬ (o + i ≤ j ∧ j < o + i + 0) := by omega
    simp [this]
  | succ n ih =>
    intro i a h1 h2
    have hidx : (o + i) % 2 ^ 64 % 2 ^ 32 = o + i := by omega
    have hlt : o + i < a.ndim := by omega
    obtain ⟨a1, e1, e2, e3, e4⟩ := ih (i + 1)
      { a with
        offset := Function.update a.offset (o + i) (a.offset (o + i) + readDelta v mn back i) }
      (by simp only []; omega) h2
    refine ⟨a1, ?_, e2, e3, ?_⟩
    · simp only [read_offsets, hidx, ndoffset, hlt, if_true]
      exact e1
    · intro j
      rw [e4 j]
      simp only []
      by_cases hj : j = o + i
      · subst hj
        have c1 : ¬ (o + (i + 1) ≤ o + i ∧ o + i < o + (i + 1) + n) := by omega
        have c2 : o + i ≤ o + i ∧ o + i < o + i + (n + 1) := by omega
        have c3 : o + i - o = i := by omega
        simp [c1, c2, c3]
      · have hu : Function.update a.offset (o + i) (a.offset (o + i) + readDelta v mn back i) j
            = a.offset j := Function.update_noteq hj _ _
        rw [hu]
        by_cases hr : o + (i + 1) ≤ j ∧ j < o + (i + 1) + n
        · have c2 : o + i ≤ j ∧ j < o + i + (n + 1) := by omega
          simp [hr, c2]
        · have c2 : ¬ (o + i ≤ j ∧ j < o + i + (n + 1)) := by omega
          simp [hr, c2]

theorem nd_t_ext (a b : nd_t) (h1 : a.ndim = b.ndim) (h2 : a.shape = b.shape)
    (h3 : ∀ j, a.offset j = b.offset j) : a = b := by
  cases a
  cases b
  simp only [nd_t.mk.injEq]
  exact ⟨h1, h2, funext h3⟩

/-- One matched and opened entry of `series_read`: the array is handed over
displaced, and is back as it was afterwards. -/
theorem read_entry (o k : Nat) (v mn : TPos) (dst : nd_t) (h1 : o + k ≤ dst.ndim)
    (h2 : dst.ndim < 2 ^ 32) (hv : ∀ t, mn.getD t 0 ≤ v.getD t 0 ∧ v.getD t 0 < 2 ^ 32) :
    read_offsets o v mn false k 0 dst = some (placedAt o k v mn dst) ∧
    read_offsets o v mn true k 0 (placedAt o k v mn dst) = some dst := by
  obtain ⟨a1, e1, e2, e3, e4⟩ := read_offsets_spec o v mn false k 0 dst (by omega) h2
  have hfwd : ∀ t, readDelta v mn false t = ((v.getD t 0 : Nat) : Int) - ((mn.getD t 0 : Nat) : Int) := by
    intro t
    obtain ⟨c1, c2⟩ := hv t
    have hm : (v.getD t 0 + 2 ^ 64 - mn.getD t 0) % 2 ^ 64 = v.getD t 0 - mn.getD t 0 := by omega
    simp only [readDelta, Bool.false_eq_true, if_false, hm]
    rw [toInt64_small _ (by omega)]
    omega
  have hback : ∀ t, readDelta v mn true t = -(((v.getD t 0 : Nat) : Int) - ((mn.getD t 0 : Nat) : Int)) := by
    intro t
    obtain ⟨c1, c2⟩ := hv t
    simp only [readDelta, if_true]
    rw [toInt64_small _ (by omega), toInt64_small _ (by omega)]
    omega
  have ha1 : a1 = placedAt o k v mn dst := by
    apply nd_t_ext a1 (placedAt o k v mn dst) e2 e3
    intro j
    rw [e4 j]
    simp only [placedAt, Nat.add_zero, hfwd]
  rw [ha1] at e1
  refine ⟨e1, ?_⟩
  obtain ⟨b1, f1, f2, f3, f4⟩ := read_offsets_spec o v mn true k 0 (placedAt o k v mn dst)
    (by simp only [placedAt]; omega) (by simp only [placedAt]; exact h2)
  have hb1 : b1 = dst := by
    apply nd_t_ext b1 dst f2 f3
    intro j
    rw [f4 j]
    simp only [placedAt, Nat.add_zero, hback]
    by_cases hj : o ≤ j ∧ j < o + k
    · simp only [hj, and_self, if_true]
      omega
    · simp only [hj, if_false]
      omega
  rw [hb1] at f1
  exact f1

theorem read_loop_spec (ext : RE2.Ext) (w : World) (s : series_t) (o : Nat) (mn : TPos)
    (dst : nd_t) (h1 : o + s.ndim_ ≤ dst.ndim) (h2 : dst.ndim < 2 ^ 32) :
    ∀ (ents : List Str) (reads : List (Str × nd_t)),
      (∀ e ∈ ents, ∀ v, s.parse ext e = some v →
        ∀ t, mn.getD t 0 ≤ v.getD t 0 ∧ v.getD t 0 < 2 ^ 32) →
      read_loop ext w s o mn ents dst reads =
        some (dst, reads ++ readsOf ext w s o mn dst ents) := by
  intro ents
  induction ents with
  | nil => intro reads _; simp [read_loop, readsOf]
  | cons e es ih =>
    intro reads hb
    have hbs : ∀ e1 ∈ es, ∀ v, s.parse ext e1 = some v →
        ∀ t, mn.getD t 0 ≤ v.getD t 0 ∧ v.getD t 0 < 2 ^ 32 :=
      fun e1 he1 => hb e1 (by simp [he1])
    cases hp : s.parse ext e with
    | none =>
      simp only [read_loop, hp, readsOf, List.filterMap_cons]
      exact ih reads hbs
    | some v =>
      cases ho : openfile w s.path_ e with
      | none =>
        simp only [read_loop, hp, ho, readsOf, List.filterMap_cons]
        exact ih reads hbs
      | some f =>
        obtain ⟨r1, r2⟩ := read_entry o s.ndim_ v mn dst h1 h2 (hb e (by simp) v hp)
        simp only [read_loop, hp, ho, r1, r2, readsOf, List.filterMap_cons]
        rw [ih _ hbs]
        simp [readsOf]

theorem readsOf_names (ext : RE2.Ext) (w : World) (s : series_t) (o : Nat) (mn : TPos)
    (dst : nd_t) (ents : List Str) :
    (readsOf ext w s o mn dst ents).map Prod.fst =
      ents.filter (fun e => (s.parse ext e).isSome && (openfile w s.path_ e).isSome) := by
  induction ents with
  | nil => rfl
  | cons e es ih =>
    simp only [readsOf] at ih
    cases hp : s.parse ext e with
    | none => simp [readsOf, List.filterMap_cons, List.filter_cons, hp, ih]
    | some v =>
      cases hop : openfile w s.path_ e with
      | none => simp [readsOf, List.filterMap_cons, List.filter_cons, hp, hop, ih]
      | some f => simp [readsOf, List.filterMap_cons, List.filter_cons, hp, hop, ih]

/-- C8. Read placement, for a readable series on a directory that can be
listed and a destination of rank at least `ndim_` (below `2^32`): the call
returns 1 and leaves the destination as it was (each offset is undone after
its file is read); the files handed to the codec are, in listing order, the
entries that parse and open; and each is handed the destination displaced by
`v[i] - mn[i]` on axis `rank - ndim_ + i`, with `mn[i] ≤ v[i] ≤ mx[i]`, and not
displaced on the other axes. -/
theorem C8_read_placement (ext : RE2.Ext) (w : World) (s : series_t) (dst : nd_t)
    (ents : List Str) (hdir : w.dir = some ents) (hisr : s.isr_ = true)
    (hrank : s.ndim_ ≤ dst.ndim) (hsmall : dst.ndim < 2 ^ 32) :
    ∃ mn mx r, s.minmax ext w.dir [] [] = some (mn, mx) ∧
      series_read ext w s dst = some r ∧ r.ret = 1 ∧ r.dst = dst ∧
      r.reads.map Prod.fst =
        ents.filter (fun e => (s.parse ext e).isSome && (openfile w s.path_ e).isSome) ∧
      ∀ e d, (e, d) ∈ r.reads →
        ∃ v, s.parse ext e = some v ∧ d.ndim = dst.ndim ∧ d.shape = dst.shape ∧
          (∀ i, i < s.ndim_ →
            d.offset (dst.ndim - s.ndim_ + i) =
              dst.offset (dst.ndim - s.ndim_ + i) + ((v.getD i 0 : Nat) : Int) - ((mn.getD i 0 : Nat) : Int) ∧
            mn.getD i 0 ≤ v.getD i 0 ∧ v.getD i 0 ≤ mx.getD i 0) ∧
          (∀ j, j < dst.ndim - s.ndim_ → d.offset j = dst.offset j) := by
  obtain ⟨mn, mx, hmm, hbox⟩ := minmax_spec ext s ents
  have ho : (dst.ndim + 2 ^ 64 - s.ndim_ % 2 ^ 64) % 2 ^ 64 = dst.ndim - s.ndim_ := by omega
  have hbound : ∀ e ∈ ents, ∀ v, s.parse ext e = some v →
      ∀ t, (mn.getD t 0 ≤ v.getD t 0 ∧ v.getD t 0 < 2 ^ 32) ∧ v.getD t 0 ≤ mx.getD t 0 := by
    intro e he v hp t
    have hmem : v ∈ ents.filterMap (s.parse ext) := List.mem_filterMap.mpr ⟨e, he, hp⟩
    obtain ⟨q1, _, q3⟩ := parse_some ext s e v hp
    rcases hbox with ⟨h1, _⟩ | ⟨_, _, _, hb⟩
    · rw [h1] at hmem
      simp at hmem
    · have := (hb t).1 v hmem
      refine ⟨⟨this.1, ?_⟩, this.2⟩
      by_cases ht : t < v.length
      · rw [List.getD_eq_getElem _ _ ht]
        exact q3 _ (List.getElem_mem _)
      · rw [List.getD_eq_default _ _ (by omega)]
        decide
  have hloop := read_loop_spec ext w s (dst.ndim - s.ndim_) mn dst (by omega) hsmall ents []
    (fun e he v hp t => (hbound e he v hp t).1)
  refine ⟨mn, mx,
    { ret := 1, dst := dst, reads := readsOf ext w s (dst.ndim - s.ndim_) mn dst ents },
    by rw [hdir]; exact hmm, ?_, rfl, rfl, ?_, ?_⟩
  · simp only [series_read, ho, hdir, hmm, hisr, Bool.true_eq_false, if_false, hloop,
      Option.map_some', List.nil_append]
  · exact readsOf_names ext w s (dst.ndim - s.ndim_) mn dst ents
  · intro e d hmem
    simp only [readsOf, List.mem_filterMap] at hmem
    obtain ⟨e1, he1, hm⟩ := hmem
    cases hp : s.parse ext e1 with
    | none => simp [hp] at hm
    | some v =>
      cases hop : openfile w s.path_ e1 with
      | none => simp [hp, hop] at hm
      | some f =>
        simp only [hp, hop, Option.some.injEq, Prod.mk.injEq] at hm
        obtain ⟨hm1, hm2⟩ := hm
        subst hm1
        subst hm2
        refine ⟨v, hp, rfl, rfl, ?_, ?_⟩
        · intro i hi
          have hb := hbound e1 he1 v hp i
          refine ⟨?_, hb.1.1, hb.2⟩
          have c1 : dst.ndim - s.ndim_ ≤ dst.ndim - s.ndim_ + i ∧
              dst.ndim - s.ndim_ + i < dst.ndim - s.ndim_ + s.ndim_ := by omega
          have c2 : dst.ndim - s.ndim_ + i - (dst.ndim - s.ndim_) = i := by omega
          simp only [placedAt, c1, and_self, if_true, c2]
          omega
        · intro j hj
          have c1 : ¬ (dst.ndim - s.ndim_ ≤ j ∧ j < dst.ndim - s.ndim_ + s.ndim_) := by omega
          simp only [placedAt, c1, if_false]
          omega

/-- C8, at the sparse series of the specification: with the positions (5,5),
(5,6), (6,5), (6,6) the file (5,5) is handed the destination at offset (0,0),
and the destination is back as it was after the call. -/
theorem C8_read_placement_witness :
    (∃ r, series_read RE2.noExt setSparse
        (series_t.ctor "data/b/vol.0.0000.tif".toList "r".toList)
        (nd_t.ofShape [620, 512, 2, 2]) = some r ∧ r.ret = 1 ∧
      r.dst = nd_t.ofShape [620, 512, 2, 2] ∧
      r.reads.map Prod.fst = ["vol.5.5.tif".toList, "vol.5.6.tif".toList,
        "vol.6.5.tif".toList, "vol.6.6.tif".toList]) ∧
    (series_read RE2.noExt setSparse (series_t.ctor "data/b/vol.0.0000.tif".toList "r".toList)
        (nd_t.ofShape [620, 512, 2, 2])).map
        (fun r => r.reads.map (fun f => (f.1, f.2.offset 2, f.2.offset 3))) =
      some [("vol.5.5.tif".toList, 0, 0), ("vol.5.6.tif".toList, 0, 1),
            ("vol.6.5.tif".toList, 1, 0), ("vol.6.6.tif".toList, 1, 1)] := by
  constructor
  · obtain ⟨mn, mx, r, _, h2, h3, h4, h5, _⟩ :=
      C8_read_placement RE2.noExt setSparse
        (series_t.ctor "data/b/vol.0.0000.tif".toList "r".toList)
        (nd_t.ofShape [620, 512, 2, 2]) _ rfl (by rw [ctor_eq]; decide)
        (by rw [ctor_eq]; decide) (by decide)
    refine ⟨r, h2, h3, h4, ?_⟩
    rw [h5, ctor_eq]
    decide
  · rw [ctor_eq]
    decide

/-! ### Writing (C9, C10) -/

/-- C9, at a failing input. For the series `B.%.%.tif` (two series dimensions)
and a source of shape `(4,3,2)`, `series_write` takes `o = 2`, so `setpos`
passes the axis indices 2 and 3 to `ndoffset` and `inc` reads the shape entry
3, while the source has the axes 0, 1 and 2 only and the two trailing axes are
1 and 2: the call has no defined result. With one series dimension
(`B.%.tif`) the same source is written as one file per index of the last
axis. -/
theorem C9_write_axes_failing_input :
    (series_t.ctor "B.%.%.tif".toList "w".toList).ndim_ = 2 ∧
    (nd_t.ofShape [4, 3, 2]).ndim = 3 ∧
    ((nd_t.ofShape [4, 3, 2]).ndim + 2 ^ 64 - 1) % 2 ^ 64 = 2 ∧
    (setpos (nd_t.ofShape [4, 3, 2]) 2 [0, 0]).isNone = true ∧
    (ndoffset (nd_t.ofShape [4, 3, 2]) 3 0).isNone = true ∧
    inc (nd_t.ofShape [4, 3, 2]) 2 [0, 0] = none ∧
    (nd_t.ofShape [4, 3, 2]).shape.get? 3 = none ∧
    (∀ fuel, (series_write fuel (series_t.ctor "B.%.%.tif".toList "w".toList)
      (nd_t.ofShape [4, 3, 2])).isNone = true) ∧
    (series_write 3 (series_t.ctor "B.%.tif".toList "w".toList) (nd_t.ofShape [4, 3, 2])).map
        (fun r => (r.ret, r.files.map (fun f => (f.1, f.2.ndim, f.2.offset 2)))) =
      some (1, [("B.0.tif".toList, 2, 0), ("B.1.tif".toList, 2, 1)]) := by
  refine ⟨by rw [ctor_eq]; decide, by decide, by decide, by decide, by decide, by decide,
    by decide, ?_, by rw [ctor_eq]; decide⟩
  intro fuel
  rw [ctor_eq]
  cases fuel with
  | zero => decide
  | succ n =>
    have h : setpos (nd_t.ofShape [4, 3, 2]) 2 [0, 0] = none := by
      cases hs : setpos (nd_t.ofShape [4, 3, 2]) 2 [0, 0] with
      | none => rfl
      | some x =>
        have : (setpos (nd_t.ofShape [4, 3, 2]) 2 [0, 0]).isNone = true := by decide
        rw [hs] at this
        cases this
    have hw : (parse_mode_string "w".toList).1 = true := by decide
    have hi : (inferred (ctorName "B.%.%.tif".toList)).2 = 2 := by decide
    simp only [series_write, hw, Bool.true_eq_false, if_false, series_t.init, hi]
    have hisw : (parse_mode_string "w".toList).2.2 = true := by decide
    simp only [hisw, Bool.true_eq_false, if_false]
    have ho : ((nd_t.ofShape [4, 3, 2]).ndim + 2 ^ 64 - 1) % 2 ^ 64 = 2 := by decide
    rw [ho]
    simp only [write_loop, List.replicate, h]
    rfl

/-- C10, at a failing input. Two successive writes of a source whose last
extent is 2 through one handle of the series `B.%.tif`: after the first write
the append cursor `last_` is still 0, and the second write gives the filenames
of the first again. -/
theorem C10_append_failing_input :
    (series_write 3 (series_t.ctor "B.%.tif".toList "w".toList) (nd_t.ofShape [4, 3, 2])).map
        (fun r => (r.ret, r.self.last_, r.files.map Prod.fst)) =
      some (1, 0, ["B.0.tif".toList, "B.1.tif".toList]) ∧
    ((series_write 3 (series_t.ctor "B.%.tif".toList "w".toList) (nd_t.ofShape [4, 3, 2])).bind
        (fun r => series_write 3 r.self (nd_t.ofShape [4, 3, 2]))).map
        (fun r2 => (r2.ret, r2.self.last_, r2.files.map Prod.fst)) =
      some (1, 0, ["B.0.tif".toList, "B.1.tif".toList]) := by
  rw [ctor_eq]
  exact ⟨by decide, by decide⟩

/-! ### Position increment (C15) -/

theorem inBox_length : ∀ (es p : List Nat), inBox es p → p.length = es.length
  | [], [], _ => rfl
  | [], _ :: _, h => by simp [inBox] at h
  | _ :: _, [], h => by simp [inBox] at h
  | e :: es, x :: xs, h => by
    simp only [inBox] at h
    simp [inBox_length es xs h.2]

theorem inBox_prod_pos : ∀ (es p : List Nat), inBox es p → 0 < es.prod
  | [], [], _ => by simp
  | [], _ :: _, h => by simp [inBox] at h
  | _ :: _, [], h => by simp [inBox] at h
  | e :: es, x :: xs, h => by
    simp only [inBox] at h
    have := inBox_prod_pos es xs h.2
    simp only [List.prod_cons]
    exact Nat.mul_pos (by omega) this

theorem rankPos_lt : ∀ (es p : List Nat), inBox es p → rankPos es p < es.prod
  | [], [], _ => by simp [rankPos]
  | [], _ :: _, h => by simp [inBox] at h
  | _ :: _, [], h => by simp [inBox] at h
  | e :: es, x :: xs, h => by
    simp only [inBox] at h
    have h1 := rankPos_lt es xs h.2
    simp only [rankPos, List.prod_cons]
    have h2 : (x + 1) * es.prod ≤ e * es.prod := Nat.mul_le_mul_right _ (by omega)
    rw [Nat.add_mul] at h2
    omega

theorem lexLt_iff_rank : ∀ (es p q : List Nat), inBox es p → inBox es q →
    (lexLt p q ↔ rankPos es p < rankPos es q)
  | [], [], [], _, _ => by simp [lexLt, rankPos]
  | [], _ :: _, _, h, _ => by simp [inBox] at h
  | [], [], _ :: _, _, h => by simp [inBox] at h
  | _ :: _, [], _, h, _ => by simp [inBox] at h
  | _ :: _, _ :: _, [], _, h => by simp [inBox] at h
  | e :: es, x :: xs, y :: ys, hp, hq => by
    simp only [inBox] at hp hq
    have ih := lexLt_iff_rank es xs ys hp.2 hq.2
    have h1 := rankPos_lt es xs hp.2
    have h2 := rankPos_lt es ys hq.2
    simp only [lexLt, rankPos, ih]
    rcases Nat.lt_trichotomy x y with hxy | hxy | hxy
    · have h3 : (x + 1) * es.prod ≤ y * es.prod := Nat.mul_le_mul_right _ (by omega)
      rw [Nat.add_mul] at h3
      constructor
      · intro _
        omega
      · intro _
        exact Or.inl hxy
    · subst hxy
      constructor
      · rintro (h | ⟨_, h⟩)
        · omega
        · omega
      · intro h
        exact Or.inr ⟨rfl, by omega⟩
    · have h3 : (y + 1) * es.prod ≤ x * es.prod := Nat.mul_le_mul_right _ (by omega)
      rw [Nat.add_mul] at h3
      constructor
      · rintro (h | ⟨h, _⟩)
        · omega
        · omega
      · intro h
        omega

theorem rankPos_inj : ∀ (es p q : List Nat), inBox es p → inBox es q →
    rankPos es p = rankPos es q → p = q
  | [], [], [], _, _, _ => rfl
  | [], _ :: _, _, h, _, _ => by simp [inBox] at h
  | [], [], _ :: _, _, h, _ => by simp [inBox] at h
  | _ :: _, [], _, h, _, _ => by simp [inBox] at h
  | _ :: _, _ :: _, [], _, h, _ => by simp [inBox] at h
  | e :: es, x :: xs, y :: ys, hp, hq, hr => by
    simp only [inBox] at hp hq
    have h1 := rankPos_lt es xs hp.2
    have h2 := rankPos_lt es ys hq.2
    simp only [rankPos] at hr
    rcases Nat.lt_trichotomy x y with hxy | hxy | hxy
    · have h3 : (x + 1) * es.prod ≤ y * es.prod := Nat.mul_le_mul_right _ (by omega)
      rw [Nat.add_mul] at h3
      omega
    · subst hxy
      have : rankPos es xs = rankPos es ys := by omega
      rw [rankPos_inj es xs ys hp.2 hq.2 this]
    · have h3 : (y + 1) * es.prod ≤ x * es.prod := Nat.mul_le_mul_right _ (by omega)
      rw [Nat.add_mul] at h3
      omega

theorem inBox_snoc : ∀ (es xs : List Nat) (e x : Nat), es.length = xs.length →
    (inBox (es ++ [e]) (xs ++ [x]) ↔ inBox es xs ∧ x < e)
  | [], [], e, x, _ => by simp [inBox]
  | [], _ :: _, _, _, h => by simp at h
  | _ :: _, [], _, _, h => by simp at h
  | e0 :: es, x0 :: xs, e, x, h => by
    have ih := inBox_snoc es xs e x (by simpa using h)
    simp only [List.cons_append, inBox, ih]
    tauto

theorem rankPos_snoc : ∀ (es xs : List Nat) (e x : Nat), es.length = xs.length →
    rankPos (es ++ [e]) (xs ++ [x]) = rankPos es xs * e + x
  | [], [], e, x, _ => by simp [rankPos]
  | [], _ :: _, _, _, h => by simp at h
  | _ :: _, [], _, _, h => by simp at h
  | e0 :: es, x0 :: xs, e, x, h => by
    have ih := rankPos_snoc es xs e x (by simpa using h)
    show x0 * (es ++ [e]).prod + rankPos (es ++ [e]) (xs ++ [x]) =
      (x0 * es.prod + rankPos es xs) * e + x
    rw [ih, List.prod_append, List.prod_cons, List.prod_nil, Nat.mul_one]
    ring

theorem inBox_snoc_inv (es p : List Nat) (e : Nat) (h : inBox (es ++ [e]) p) :
    ∃ xs x, p = xs ++ [x] ∧ es.length = xs.length ∧ inBox es xs ∧ x < e := by
  have hl := inBox_length _ _ h
  have hne : p ≠ [] := by
    intro h0
    subst h0
    simp at hl
  obtain ⟨xs, x, rfl⟩ : ∃ xs x, p = xs ++ [x] := ⟨p.dropLast, p.getLast hne, (List.dropLast_append_getLast hne).symm⟩
  have hlen : es.length = xs.length := by
    simp at hl
    omega
  exact ⟨xs, x, rfl, hlen, ((inBox_snoc es xs e x hlen).1 h).1, ((inBox_snoc es xs e x hlen).1 h).2⟩

theorem getD_snoc_mid (xs lo : List Nat) (x : Nat) : (xs ++ [x] ++ lo).getD xs.length 0 = x := by
  induction xs with
  | nil => simp
  | cons a t ih => simpa using ih

theorem set_snoc_mid (xs lo : List Nat) (x y : Nat) :
    (xs ++ [x] ++ lo).set xs.length y = xs ++ [y] ++ lo := by
  induction xs with
  | nil => simp
  | cons a t ih => simp

theorem inc_loop_spec (src : nd_t) (o : Nat) :
    ∀ (eh hi lo : List Nat), inBox eh hi →
      (∀ i, i < eh.length → src.shape.get? ((o + i) % 2 ^ 64) = some (eh.getD i 0)) →
      (∀ e ∈ eh, e < 2 ^ 64) →
      ∃ b hi', inc_loop src o hi.length (hi ++ lo) = some (b, hi' ++ lo) ∧
        hi'.length = hi.length ∧
        (rankPos eh hi + 1 < eh.prod →
          b = true ∧ inBox eh hi' ∧ rankPos eh hi' = rankPos eh hi + 1) ∧
        (¬ rankPos eh hi + 1 < eh.prod → b = false ∧ hi' = List.replicate hi.length 0) := by
  intro eh
  induction eh using List.reverseRecOn with
  | nil =>
    intro hi lo hb _ _
    have h0 : hi = [] := by
      cases hi with
      | nil => rfl
      | cons a t => simp [inBox] at hb
    subst h0
    exact ⟨false, [], by simp [inc_loop], rfl, by simp [rankPos], by simp⟩
  | append_singleton es e ih =>
    intro hi lo hb hget hlt
    obtain ⟨xs, x, rfl, hlen, hbx, hxe⟩ := inBox_snoc_inv es hi e hb
    have he : src.shape.get? ((o + xs.length) % 2 ^ 64) = some e := by
      have h1 := hget es.length (by simp)
      rw [hlen] at h1
      rw [h1, ← hlen]
      simp [List.getD_eq_getElem?_getD]
    have he64 : e < 2 ^ 64 := hlt e (by simp)
    have hlen1 : (xs ++ [x]).length = xs.length + 1 := by simp
    have hP := rankPos_lt es xs hbx
    have hr : rankPos (es ++ [e]) (xs ++ [x]) = rankPos es xs * e + x := rankPos_snoc es xs e x hlen
    have hprod : (es ++ [e]).prod = es.prod * e := by simp
    have hmul : (rankPos es xs + 1) * e ≤ es.prod * e := Nat.mul_le_mul_right _ (by omega)
    rw [Nat.add_mul, Nat.one_mul] at hmul
    rw [hlen1, hr, hprod]
    simp only [inc_loop, he, getD_snoc_mid]
    have hem : (e + 2 ^ 64 - 1) % 2 ^ 64 = e - 1 := by omega
    rw [hem]
    by_cases hx : x = e - 1
    · rw [if_pos hx, set_snoc_mid]
      obtain ⟨b, hi', hrun, hl', ht, hf⟩ := ih xs (0 :: lo) hbx
        (fun i hi => by
          have h1 := hget i (by simp; omega)
          rw [h1]
          simp [List.getD_eq_getElem?_getD, List.getElem?_append_left hi])
        (fun a ha => hlt a (by simp [ha]))
      refine ⟨b, hi' ++ [0], by simpa using hrun, by simp [hl'], ?_, ?_⟩
      · intro hlt1
        by_cases hc : rankPos es xs + 1 < es.prod
        · obtain ⟨hb1, hb2, hb3⟩ := ht hc
          refine ⟨hb1, (inBox_snoc es hi' e 0 (by omega)).2 ⟨hb2, by omega⟩, ?_⟩
          rw [rankPos_snoc es hi' e 0 (by omega), hb3, Nat.add_mul, Nat.one_mul]
          omega
        · have hPe : es.prod = rankPos es xs + 1 := by omega
          rw [hPe, Nat.add_mul, Nat.one_mul] at hlt1
          omega
      · intro hge
        by_cases hc : rankPos es xs + 1 < es.prod
        · have hmul2 : (rankPos es xs + 2) * e ≤ es.prod * e := Nat.mul_le_mul_right _ (by omega)
          rw [Nat.add_mul] at hmul2
          omega
        · obtain ⟨hb1, hb2⟩ := hf hc
          refine ⟨hb1, ?_⟩
          rw [hb2, List.replicate_succ']
    · rw [if_neg hx, set_snoc_mid]
      have hx1 : (x + 1) % 2 ^ 64 = x + 1 := by omega
      rw [hx1]
      refine ⟨true, xs ++ [x + 1], rfl, by simp, ?_, ?_⟩
      · intro _
        refine ⟨rfl, (inBox_snoc es xs e (x + 1) hlen).2 ⟨hbx, by omega⟩, ?_⟩
        rw [rankPos_snoc es xs e (x + 1) hlen]
        omega
      · intro hge
        omega

theorem boxExts_length (src : nd_t) (o k : Nat) (h : o + k ≤ src.shape.length) :
    (boxExts src o k).length = k := by
  simp only [boxExts, List.length_take, List.length_drop]
  omega

theorem boxExts_get (src : nd_t) (o k : Nat) (h : o + k ≤ src.shape.length)
    (hsize : src.shape.length < 2 ^ 64) (i : Nat) (hi : i < (boxExts src o k).length) :
    src.shape.get? ((o + i) % 2 ^ 64) = some ((boxExts src o k).getD i 0) := by
  rw [boxExts_length src o k h] at hi
  have h1 : (o + i) % 2 ^ 64 = o + i := Nat.mod_eq_of_lt (by omega)
  have h2 : o + i < src.shape.length := by omega
  rw [h1]
  simp only [boxExts, List.getD_eq_getElem?_getD, List.getElem?_take, hi, if_true,
    List.getElem?_drop, List.get?_eq_getElem?, List.getElem?_eq_getElem h2, Option.getD_some]

theorem inc_spec (src : nd_t) (o : Nat) (exts p : List Nat) (hb : inBox exts p)
    (hget : ∀ i, i < exts.length → src.shape.get? ((o + i) % 2 ^ 64) = some (exts.getD i 0))
    (hlt : ∀ e ∈ exts, e < 2 ^ 64) :
    ∃ b p', inc src o p = some (b, p') ∧
      (rankPos exts p + 1 < exts.prod →
        b = true ∧ inBox exts p' ∧ rankPos exts p' = rankPos exts p + 1) ∧
      (¬ rankPos exts p + 1 < exts.prod → b = false ∧ p' = List.replicate p.length 0) := by
  obtain ⟨b, p', h1, _, h3, h4⟩ := inc_loop_spec src o exts p [] hb hget hlt
  simp only [List.append_nil] at h1
  exact ⟨b, p', h1, h3, h4⟩

theorem inBox_zero : ∀ (es p : List Nat), inBox es p →
    inBox es (List.replicate es.length 0) ∧ rankPos es (List.replicate es.length 0) = 0
  | [], [], _ => by simp [inBox, rankPos]
  | [], _ :: _, h => by simp [inBox] at h
  | _ :: _, [], h => by simp [inBox] at h
  | e :: es, x :: xs, h => by
    simp only [inBox] at h
    have ih := inBox_zero es xs h.2
    simp only [List.length_cons, List.replicate_succ, inBox, rankPos, ih.2]
    exact ⟨⟨by omega, ih.1⟩, by simp⟩

theorem inc_visits_spec (src : nd_t) (o : Nat) (exts : List Nat)
    (hget : ∀ i, i < exts.length → src.shape.get? ((o + i) % 2 ^ 64) = some (exts.getD i 0))
    (hlt : ∀ e ∈ exts, e < 2 ^ 64) :
    ∀ (m : Nat) (p : List Nat), inBox exts p → rankPos exts p + m + 1 = exts.prod →
      ∃ visited, (∀ fuel, m + 1 ≤ fuel → inc_visits src o fuel p = some visited) ∧
        visited.map (rankPos exts) = List.range' (rankPos exts p) (m + 1) ∧
        ∀ q ∈ visited, inBox exts q := by
  intro m
  induction m with
  | zero =>
    intro p hb hr
    obtain ⟨b, p', h1, _, h3⟩ := inc_spec src o exts p hb hget hlt
    obtain ⟨hb1, _⟩ := h3 (by omega)
    subst hb1
    refine ⟨[p], ?_, by simp, by simpa using hb⟩
    intro fuel hf
    obtain ⟨f, rfl⟩ : ∃ f, fuel = f + 1 := ⟨fuel - 1, by omega⟩
    simp only [inc_visits, h1]
  | succ m ih =>
    intro p hb hr
    obtain ⟨b, p', h1, h2, _⟩ := inc_spec src o exts p hb hget hlt
    obtain ⟨hb1, hb2, hb3⟩ := h2 (by omega)
    subst hb1
    obtain ⟨vis, hv1, hv2, hv3⟩ := ih p' hb2 (by omega)
    refine ⟨p :: vis, ?_, ?_, ?_⟩
    · intro fuel hf
      obtain ⟨f, rfl⟩ : ∃ f, fuel = f + 1 := ⟨fuel - 1, by omega⟩
      simp only [inc_visits, h1, hv1 f (by omega), Option.map_some']
    · rw [List.map_cons, hv2, hb3]
      rfl
    · intro q hq
      rcases List.mem_cons.1 hq with rfl | hq
      · exact hb
      · exact hv3 q hq

/-- C15. For a position `p` inside the box of the extents `shape[o] …
shape[o+k-1]` (the array has these axes, every extent is a `size_t` and at
least 1): when the box has a position after `p` in lexicographic order, `inc`
returns true and leaves the least such position in `p`; when it has none, `inc`
returns false and leaves all zeros. The loop `do … while(inc(src,o,ipos))`
from the all-zero position, given at least as many rounds as the product of the
extents, stops after exactly that many rounds (one less successful `inc`),
having gone through every position of the box and no other, each once, in
ascending lexicographic order. -/
theorem C15_position_increment (src : nd_t) (o : Nat) (p : List Nat)
    (hrank : o + p.length ≤ src.ndim) (hbuf : src.ndim ≤ src.shape.length)
    (hsize : src.shape.length < 2 ^ 64)
    (hext : ∀ e ∈ boxExts src o p.length, e < 2 ^ 64)
    (hbox : inBox (boxExts src o p.length) p) :
    ((∃ q, inBox (boxExts src o p.length) q ∧ lexLt p q) →
      ∃ p', inc src o p = some (true, p') ∧ inBox (boxExts src o p.length) p' ∧ lexLt p p' ∧
        ∀ q, inBox (boxExts src o p.length) q → lexLt p q → q = p' ∨ lexLt p' q) ∧
    ((∀ q, inBox (boxExts src o p.length) q → ¬ lexLt p q) →
      inc src o p = some (false, List.replicate p.length 0)) ∧
    ∃ visited,
      (∀ fuel, (boxExts src o p.length).prod ≤ fuel →
        inc_visits src o fuel (List.replicate p.length 0) = some visited) ∧
      visited.length = (boxExts src o p.length).prod ∧
      (∀ q, q ∈ visited ↔ inBox (boxExts src o p.length) q) ∧
      visited.Nodup ∧ visited.Pairwise lexLt := by
  have hlen := boxExts_length src o p.length (by omega)
  have hget := boxExts_get src o p.length (by omega) hsize
  generalize boxExts src o p.length = exts at hlen hget hext hbox
  have hP := rankPos_lt exts p hbox
  obtain ⟨b, p', h1, h2, h3⟩ := inc_spec src o exts p hbox hget hext
  refine ⟨?_, ?_, ?_⟩
  · rintro ⟨q, hq, hpq⟩
    have hq1 := rankPos_lt exts q hq
    have hq2 := (lexLt_iff_rank exts p q hbox hq).1 hpq
    obtain ⟨hb1, hb2, hb3⟩ := h2 (by omega)
    subst hb1
    refine ⟨p', h1, hb2, (lexLt_iff_rank exts p p' hbox hb2).2 (by omega), ?_⟩
    intro r hr hpr
    have hr2 := (lexLt_iff_rank exts p r hbox hr).1 hpr
    rcases Nat.lt_or_ge (rankPos exts p') (rankPos exts r) with h | h
    · exact Or.inr ((lexLt_iff_rank exts p' r hb2 hr).2 h)
    · exact Or.inl (rankPos_inj exts r p' hr hb2 (by omega))
  · intro hmax
    have hno : ¬ rankPos exts p + 1 < exts.prod := by
      intro hlt
      obtain ⟨_, hb2, hb3⟩ := h2 hlt
      exact hmax p' hb2 ((lexLt_iff_rank exts p p' hbox hb2).2 (by omega))
    obtain ⟨hb1, hb2⟩ := h3 hno
    rw [h1, hb1, hb2]
  · obtain ⟨hz1, hz2⟩ := inBox_zero exts p hbox
    rw [hlen] at hz1 hz2
    have hpos := inBox_prod_pos exts p hbox
    obtain ⟨vis, hv1, hv2, hv3⟩ := inc_visits_spec src o exts hget hext (exts.prod - 1)
      (List.replicate p.length 0) hz1 (by omega)
    rw [hz2, Nat.sub_add_cancel hpos] at hv2
    refine ⟨vis, fun fuel hf => hv1 fuel (by omega), ?_, ?_, ?_, ?_⟩
    · have := congrArg List.length hv2
      simpa using this
    · intro q
      constructor
      · exact hv3 q
      · intro hq
        have hq1 := rankPos_lt exts q hq
        have hmem : rankPos exts q ∈ vis.map (rankPos exts) := by
          rw [hv2]
          simp [List.mem_range']
          omega
        obtain ⟨q', hq', he⟩ := List.mem_map.1 hmem
        rw [← rankPos_inj exts q' q (hv3 q' hq') hq he]
        exact hq'
    · apply List.Nodup.of_map (rankPos exts)
      rw [hv2]
      exact List.nodup_range' 0 _
    · have hpw : (vis.map (rankPos exts)).Pairwise (fun a b => a < b) := by
        rw [hv2]
        exact List.pairwise_lt_range' 0 _
      rw [List.pairwise_map] at hpw
      have hall : vis.Pairwise (fun a b => inBox exts a ∧ inBox exts b) := by
        rw [List.pairwise_iff_forall_sublist]
        intro a b hab
        have := hab.subset
        exact ⟨hv3 a (this (by simp)), hv3 b (this (by simp))⟩
      exact (hpw.and hall).imp (fun h => (lexLt_iff_rank exts _ _ h.2.1 h.2.2).2 h.1)

theorem C15_position_increment_witness :
    (∃ p', inc (nd_t.ofShape [4, 3, 2]) 1 [1, 1] = some (true, p') ∧ lexLt [1, 1] p' ∧
      inBox [3, 2] p') ∧
    inc (nd_t.ofShape [4, 3, 2]) 1 [2, 1] = some (false, [0, 0]) ∧
    (∃ visited, inc_visits (nd_t.ofShape [4, 3, 2]) 1 6 [0, 0] = some visited ∧
      visited.length = 6 ∧ visited.Nodup) := by
  have hA := C15_position_increment (nd_t.ofShape [4, 3, 2]) 1 [1, 1] (by decide) (by decide)
    (by decide) (by decide) (by simp [boxExts, nd_t.ofShape, inBox])
  have hB := C15_position_increment (nd_t.ofShape [4, 3, 2]) 1 [2, 1] (by decide) (by decide)
    (by decide) (by decide) (by simp [boxExts, nd_t.ofShape, inBox])
  refine ⟨?_, ?_, ?_⟩
  · obtain ⟨p', h1, h2, h3, _⟩ := hA.1 ⟨[2, 0], by simp [boxExts, nd_t.ofShape, inBox],
      by simp [lexLt]⟩
    exact ⟨p', h1, h3, h2⟩
  · apply hB.2.1
    intro q hq hl
    have hq1 : inBox [3, 2] q := hq
    have h1 := (lexLt_iff_rank [3, 2] [2, 1] q (by simp [inBox]) hq1).1 hl
    have h2 := rankPos_lt [3, 2] q hq1
    simp only [rankPos, List.prod_cons, List.prod_nil] at h1 h2
    omega
  · obtain ⟨vis, h1, h2, _, h4, _⟩ := hA.2.2
    exact ⟨vis, h1 6 (by decide), h2, h4⟩

/-! ### The seek table and `series_seek` (C11, C12) -/

theorem seektable_find_cons (t : List (TPos × Str)) (p q : TPos) (n : Str) :
    seektable_find ((p, n) :: t) q = if p = q then some n else seektable_find t q := by
  by_cases h : p = q
  · simp [seektable_find, List.find?_cons, h]
  · simp [seektable_find, List.find?_cons, h]

theorem seektable_find_set (t : List (TPos × Str)) (pos q : TPos) (name : Str) :
    seektable_find (seektable_set t pos name) q =
      if pos = q then some name else seektable_find t q := by
  induction t with
  | nil =>
    rw [seektable_set, seektable_find_cons]
  | cons a t ih =>
    obtain ⟨p, n⟩ := a
    by_cases hp : p = pos
    · rw [seektable_set, if_pos hp, seektable_find_cons, seektable_find_cons]
      subst hp
      by_cases h : p = q
      · simp [h]
      · simp [h]
    · rw [seektable_set, if_neg hp, seektable_find_cons, seektable_find_cons, ih]
      by_cases h : p = q
      · subst h
        simp [Ne.symm hp]
      · simp [h]

theorem seektable_fold (ext : RE2.Ext) (s : series_t) (q : TPos) :
    ∀ (seen : List Str) (acc : List (TPos × Str)),
      seektable_find (seen.foldl (seek_table_step ext s) acc) q =
        (lastMatch ext s seen q).or (seektable_find acc q) := by
  intro seen
  induction seen with
  | nil => intro acc; simp [lastMatch]
  | cons e es ih =>
    intro acc
    rw [List.foldl_cons, ih]
    simp only [lastMatch, List.reverse_cons, List.find?_append] at *
    cases hfind : List.find? (fun e => decide (s.parse ext e = some q)) es.reverse with
    | some x => simp
    | none =>
      simp only [Option.none_or, Option.or]
      cases hp : s.parse ext e with
      | none => simp [seek_table_step, hp]
      | some v =>
        simp only [seek_table_step, hp, seektable_find_set, List.find?_cons, Option.some.injEq,
          List.find?_nil]
        by_cases hv : v = q
        · simp [hv]
        · simp [hv]

theorem seekTable_lookup (ext : RE2.Ext) (s : series_t) (seen : List Str) (q : TPos) :
    seektable_find (seekTableOf ext s seen) q = lastMatch ext s seen q := by
  rw [seekTableOf, seektable_fold]
  simp [seektable_find]

theorem lastMatch_some (ext : RE2.Ext) (s : series_t) (seen : List Str) (q : TPos) (e : Str)
    (h : lastMatch ext s seen q = some e) : e ∈ seen ∧ s.parse ext e = some q := by
  unfold lastMatch at h
  have h1 := List.mem_of_find?_eq_some h
  have h2 := List.find?_some h
  exact ⟨by simpa using h1, by simpa using h2⟩

theorem lastMatch_isSome (ext : RE2.Ext) (s : series_t) (seen : List Str) (q : TPos) :
    (lastMatch ext s seen q).isSome = true ↔ ∃ e ∈ seen, s.parse ext e = some q := by
  unfold lastMatch
  rw [List.find?_isSome]
  simp

/-- The result of `find`, for an empty table (built now, from the listing) and
for a table built earlier. -/
theorem find_spec (ext : RE2.Ext) (w : World) (s : series_t) (seen : List Str) (q : TPos)
    (h : (s.seektable_ = [] ∧ w.dir = some seen) ∨
      (s.seektable_ ≠ [] ∧ s.seektable_ = seekTableOf ext s seen)) :
    s.find ext w q = ((lastMatch ext s seen q).map (fun e => s.dirPrefix ++ e),
      { s with seektable_ := seekTableOf ext s seen }) := by
  rcases h with ⟨h1, h2⟩ | ⟨h1, h2⟩
  · have hl := seekTable_lookup ext s seen q
    unfold seekTableOf at hl
    simp only [series_t.find, h1, List.isEmpty_nil, if_true, series_t.build_seek_table_, h2, hl,
      seekTableOf]
    cases lastMatch ext s seen q with
    | none => rfl
    | some e => rfl
  · have hs : { s with seektable_ := seekTableOf ext s seen } = s := by
      rw [← h2]
    have he : s.seektable_.isEmpty = false := by
      cases hh : s.seektable_ with
      | nil => exact absurd hh h1
      | cons a t => rfl
    have hl := seekTable_lookup ext s seen q
    rw [← h2] at hl
    simp only [series_t.find, he, Bool.false_eq_true, if_false, hl, hs]
    cases lastMatch ext s seen q with
    | none => rfl
    | some e => rfl

theorem series_eta (s : series_t) : { s with fdim_ := s.fdim_ } = s := by
  cases s
  rfl

theorem canseek_loop_fields (ext : RE2.Ext) (w : World) (codec : Codec) (s : series_t)
    (idim : Nat) (ents : List Str) :
    (canseek_loop ext w codec s idim ents).2 =
      { s with fdim_ := (canseek_loop ext w codec s idim ents).2.fdim_ } := by
  induction ents with
  | nil => exact (series_eta s).symm
  | cons a t ih =>
    cases hp : s.parse ext a with
    | none =>
      simp only [canseek_loop, hp]
      exact ih
    | some v =>
      cases ho : openfile w s.path_ a with
      | none =>
        simp only [canseek_loop, hp, ho]
      | some file =>
        cases hs : file.ndioShape with
        | none =>
          simp only [canseek_loop, hp, ho, hs]
        | some shape => simp only [canseek_loop, hp, ho, hs]

theorem canseek_fields (ext : RE2.Ext) (w : World) (codec : Codec) (s : series_t) (idim : Nat) :
    (s.canseek ext w codec idim).2 = { s with fdim_ := (s.canseek ext w codec idim).2.fdim_ } := by
  unfold series_t.canseek
  cases w.dir with
  | none => exact (series_eta s).symm
  | some ents => exact canseek_loop_fields ext w codec s idim ents

theorem seek_reduce_spec (ext : RE2.Ext) (w : World) (codec : Codec) :
    ∀ (n i : Nat) (s : series_t) (dst : nd_t),
      (seek_reduce ext w codec n i s dst).1 =
        { s with fdim_ := (seek_reduce ext w codec n i s dst).1.fdim_ } ∧
      (seek_reduce ext w codec n i s dst).2.ndim = dst.ndim ∧
      (seek_reduce ext w codec n i s dst).2.offset = dst.offset ∧
      (seek_reduce ext w codec n i s dst).2.shape.length = dst.shape.length ∧
      (seek_reduce ext w codec n i s dst).2.shape.drop (i + n) = dst.shape.drop (i + n) := by
  intro n
  induction n with
  | zero =>
    intro i s dst
    exact ⟨(series_eta s).symm, rfl, rfl, rfl, rfl⟩
  | succ n ih =>
    intro i s dst
    simp only [seek_reduce]
    obtain ⟨h1, h2, h3, h4, h5⟩ := ih (i + 1) (s.canseek ext w codec i).2
      (if (s.canseek ext w codec i).1 ≠ 0 then { dst with shape := dst.shape.set i 1 } else dst)
    have hc := canseek_fields ext w codec s i
    refine ⟨?_, ?_, ?_, ?_, ?_⟩
    · rw [h1]
      rw [hc]
    · rw [h2]
      split <;> rfl
    · rw [h3]
      split <;> rfl
    · rw [h4]
      split
      · simp
      · rfl
    · have e : i + 1 + n = i + (n + 1) := by omega
      rw [← e, h5]
      split
      · exact List.drop_set_of_lt _ _ (by omega)
      · rfl

theorem vadd_spec : ∀ (a m : List Nat), a.length ≤ m.length →
    vadd a m = some (List.zipWith (fun x y => (x + y) % 2 ^ 64) a m)
  | [], _, _ => by simp [vadd]
  | _ :: _, [], h => by simp at h
  | x :: a, y :: m, h => by
    simp only [vadd, vadd_spec a m (by simpa using h), Option.map_some', List.zipWith_cons_cons]

theorem vadd_seekPos (f k : Nat) (pos : List Nat) (mn : TPos) (hpos : f + k ≤ pos.length)
    (hmn : mn.length = k) :
    vadd ((pos.drop f).take k) mn = some (seekPos f k pos mn) := by
  rw [vadd_spec _ _ (by simp only [List.length_take, List.length_drop]; omega)]
  congr 1
  apply List.ext_getElem
  · simp only [List.length_zipWith, List.length_take, List.length_drop, seekPos, List.length_map,
      List.length_range]
    omega
  · intro i h1 h2
    simp only [seekPos, List.length_map, List.length_range] at h2
    have hp : f + i < pos.length := by omega
    have hm : i < mn.length := by omega
    simp only [List.getElem_zipWith, List.getElem_take, List.getElem_drop, seekPos,
      List.getElem_map, List.getElem_range, List.getD_eq_getElem?_getD,
      List.getElem?_eq_getElem hp, List.getElem?_eq_getElem hm, Option.getD_some]

/-- The outcome of `series_seek` in closed form, for a destination that has the
`f` file axes and a position array with `f + ndim_` entries. -/
theorem series_seek_eq (ext : RE2.Ext) (w : World) (codec : Codec) (s : series_t) (dst : nd_t)
    (pos : List Nat) (ents seen : List Str) (f : Nat) (mn mx : TPos)
    (hdir : w.dir = some ents)
    (htable : (s.seektable_ = [] ∧ seen = ents) ∨
      (s.seektable_ ≠ [] ∧ s.seektable_ = seekTableOf ext s seen))
    (hmm : s.minmax ext w.dir [] [] = some (mn, mx)) (hmn : mn.length = s.ndim_)
    (hf : (seek_reduce ext w codec dst.ndim 0 s dst).1.fdim_ = (f : Int)) (hfpos : 0 < f)
    (hpos : f + s.ndim_ ≤ pos.length)
    (hdst : f ≤ dst.ndim) (hbuf : dst.ndim ≤ dst.shape.length) (h32 : dst.ndim < 2 ^ 32) :
    series_seek ext w codec s dst pos =
      match lastMatch ext s seen (seekPos f s.ndim_ pos mn) with
      | none =>
        some { ret := 0, self := { s with fdim_ := (f : Int), seektable_ := seekTableOf ext s seen },
               dst := dst, read := none }
      | some e =>
        match w.ndioOpen (s.dirPrefix ++ e) with
        | none =>
          some { ret := 0,
                 self := { s with fdim_ := (f : Int), seektable_ := seekTableOf ext s seen },
                 dst := dst, read := none }
        | some _ =>
          if codec.ndioReadSubarray (s.dirPrefix ++ e)
              { (seek_reduce ext w codec dst.ndim 0 s dst).2 with ndim := f } pos = false then
            some { ret := 0,
                   self := { s with fdim_ := (f : Int), seektable_ := seekTableOf ext s seen },
                   dst := { (seek_reduce ext w codec dst.ndim 0 s dst).2 with
                            ndim := f,
                            shape := dst.shape.take f ++
                              (seek_reduce ext w codec dst.ndim 0 s dst).2.shape.drop f },
                   read := some (s.dirPrefix ++ e,
                     { (seek_reduce ext w codec dst.ndim 0 s dst).2 with ndim := f }) }
          else
            some { ret := 1,
                   self := { s with fdim_ := (f : Int), seektable_ := seekTableOf ext s seen },
                   dst := dst,
                   read := some (s.dirPrefix ++ e,
                     { (seek_reduce ext w codec dst.ndim 0 s dst).2 with ndim := f }) } := by
  obtain ⟨hs1, hn1, ho1, hl1, hd1⟩ := seek_reduce_spec ext w codec dst.ndim 0 s dst
  rw [hf] at hs1
  unfold series_seek
  generalize seek_reduce ext w codec dst.ndim 0 s dst = R at *
  obtain ⟨S1, D1⟩ := R
  simp only at hs1 hn1 ho1 hl1 hd1 hf ⊢
  subst hs1
  have hmm1 : series_t.minmax ext { s with fdim_ := (f : Int) } w.dir [] [] = some (mn, mx) := hmm
  have hfi : (0 : Int) < (f : Int) := by exact_mod_cast hfpos
  have hfind : series_t.find ext w { s with fdim_ := (f : Int) } (seekPos f s.ndim_ pos mn) =
      ((lastMatch ext s seen (seekPos f s.ndim_ pos mn)).map (fun e => s.dirPrefix ++ e),
       { s with fdim_ := (f : Int), seektable_ := seekTableOf ext s seen }) := by
    have := find_spec ext w { s with fdim_ := (f : Int) } seen (seekPos f s.ndim_ pos mn)
      (by
        rcases htable with ⟨h1, h2⟩ | ⟨h1, h2⟩
        · exact Or.inl ⟨h1, by rw [h2]; exact hdir⟩
        · exact Or.inr ⟨h1, h2⟩)
    exact this
  have hsaved : (dst.shape.take dst.ndim).length = dst.ndim := by
    rw [List.length_take]
    omega
  have hrest1 : seek_restore D1 (dst.shape.take dst.ndim) = some dst := by
    simp only [seek_restore, hsaved, hn1, le_refl, if_true, Option.some.injEq]
    apply nd_t_ext
    · rfl
    · have : List.take dst.ndim (List.take dst.ndim dst.shape) = List.take dst.ndim dst.shape := by
        simp
      simp only [this]
      have hd : D1.shape.drop dst.ndim = dst.shape.drop dst.ndim := by simpa using hd1
      rw [hd, List.take_append_drop]
    · intro j
      simp only [ho1]
  simp only [hmm1, hfi, not_true_eq_false, if_false, Int.toNat_ofNat, vadd_seekPos f s.ndim_ pos mn hpos hmn,
    hfind]
  have hlt : ¬ pos.length < f + s.ndim_ := by omega
  simp only [hlt, if_false]
  cases hlast : lastMatch ext s seen (seekPos f s.ndim_ pos mn) with
  | none =>
    simp only [Option.map_none', seek_error, hrest1, Option.map_some']
  | some e =>
    simp only [Option.map_some']
    cases hopen : w.ndioOpen (s.dirPrefix ++ e) with
    | none => simp only [seek_error, hrest1, Option.map_some']
    | some file =>
      have hf32 : f % 2 ^ 32 = f := Nat.mod_eq_of_lt (by omega)
      have ho32 : dst.ndim % 2 ^ 32 = dst.ndim := Nat.mod_eq_of_lt h32
      have hr1 : ndreshape D1 f D1.shape = some { D1 with ndim := f } := by
        simp only [ndreshape, List.take_append_drop]
        rw [if_pos (by omega)]
      have hr2 : ndreshape { D1 with ndim := f } dst.ndim D1.shape = some D1 := by
        simp only [ndreshape, List.take_append_drop]
        rw [if_pos (by omega)]
        rw [← hn1]
      simp only [hf32, ho32, hr1, hr2]
      cases hsub : codec.ndioReadSubarray (s.dirPrefix ++ e) { D1 with ndim := f } pos with
      | false =>
        simp only [if_true, seek_error, seek_restore]
        rw [if_pos (by rw [hsaved]; exact hdst)]
        simp only [Option.map_some', List.take_take, Nat.min_eq_left hdst]
      | true =>
        simp only [Bool.true_eq_false, if_false, hrest1, Option.map_some']

theorem dirPrefix_of_path (s : series_t) (h : s.path_ ≠ []) :
    s.dirPrefix = s.path_ ++ [PATHSEP] := by
  unfold series_t.dirPrefix
  cases hp : s.path_ with
  | nil => exact absurd hp h
  | cons a t => rfl

theorem minmax_length (ext : RE2.Ext) (s : series_t) (ents : List Str)
    (hmatch : ∃ e ∈ ents, (s.parse ext e).isSome = true) :
    ∃ mn mx, s.minmax ext (some ents) [] [] = some (mn, mx) ∧ mn.length = s.ndim_ := by
  obtain ⟨mn, mx, h1, h2⟩ := minmax_spec ext s ents
  refine ⟨mn, mx, h1, ?_⟩
  rcases h2 with ⟨h3, _⟩ | ⟨_, h3, _⟩
  · obtain ⟨e, he, hp⟩ := hmatch
    obtain ⟨v, hv⟩ := Option.isSome_iff_exists.1 hp
    have : v ∈ ents.filterMap (s.parse ext) := List.mem_filterMap.2 ⟨e, he, hv⟩
    rw [h3] at this
    cases this
  · exact h3

/-- C11. A seek into a series whose directory is listed and holds an entry of
the series, with `fdim_ = f > 0` after the `canseek` calls, a position array of
`f + ndim_` entries and a destination that has the `f` file axes: `series_seek`
returns, and with `q[i] = pos[f+i] + mn[i]` (`mn` the minimum `minmax` gives)
`find(q)` succeeds exactly when an entry seen when the table was built (now, if
the table was empty) parses to `q`; the name it gives is `path_`, the separator
and such an entry; when no entry parses to `q` the seek returns 0 without a
read; any file the seek reads is the one `find(q)` names, read into the
destination narrowed to rank `f`; and when that file opens it is read, the
seek returning 1 exactly when the codec's sub-array read succeeds. -/
theorem C11_seek_exactness (ext : RE2.Ext) (w : World) (codec : Codec) (s : series_t) (dst : nd_t)
    (pos : List Nat) (ents seen : List Str) (f : Nat)
    (hdir : w.dir = some ents)
    (htable : (s.seektable_ = [] ∧ seen = ents) ∨
      (s.seektable_ ≠ [] ∧ s.seektable_ = seekTableOf ext s seen))
    (hmatch : ∃ e ∈ ents, (s.parse ext e).isSome = true)
    (hf : (seek_reduce ext w codec dst.ndim 0 s dst).1.fdim_ = (f : Int)) (hfpos : 0 < f)
    (hpos : f + s.ndim_ ≤ pos.length)
    (hdst : f ≤ dst.ndim) (hbuf : dst.ndim ≤ dst.shape.length) (h32 : dst.ndim < 2 ^ 32)
    (hpath : s.path_ ≠ []) :
    ∃ mn mx r, s.minmax ext w.dir [] [] = some (mn, mx) ∧
      series_seek ext w codec s dst pos = some r ∧
      ((s.find ext w (seekPos f s.ndim_ pos mn)).1.isSome = true ↔
        ∃ e ∈ seen, s.parse ext e = some (seekPos f s.ndim_ pos mn)) ∧
      (∀ out, (s.find ext w (seekPos f s.ndim_ pos mn)).1 = some out →
        ∃ e ∈ seen, s.parse ext e = some (seekPos f s.ndim_ pos mn) ∧
          out = s.path_ ++ [PATHSEP] ++ e) ∧
      ((∀ e ∈ seen, s.parse ext e ≠ some (seekPos f s.ndim_ pos mn)) →
        r.ret = 0 ∧ r.read = none) ∧
      (∀ file view, r.read = some (file, view) →
        (s.find ext w (seekPos f s.ndim_ pos mn)).1 = some file ∧ view.ndim = f) ∧
      (∀ out, (s.find ext w (seekPos f s.ndim_ pos mn)).1 = some out → w.ndioOpen out ≠ none →
        ∃ view, r.read = some (out, view) ∧
          (r.ret = 1 ↔ codec.ndioReadSubarray out view pos = true)) := by
  obtain ⟨mn, mx, hmm, hmn⟩ := minmax_length ext s ents hmatch
  rw [← hdir] at hmm
  have hseek := series_seek_eq ext w codec s dst pos ents seen f mn mx hdir htable hmm hmn hf
    hfpos hpos hdst hbuf h32
  have hfind := find_spec ext w s seen (seekPos f s.ndim_ pos mn)
    (by
      rcases htable with ⟨h1, h2⟩ | ⟨h1, h2⟩
      · exact Or.inl ⟨h1, by rw [h2]; exact hdir⟩
      · exact Or.inr ⟨h1, h2⟩)
  have hpre := dirPrefix_of_path s hpath
  have hiff := lastMatch_isSome ext s seen (seekPos f s.ndim_ pos mn)
  refine ⟨mn, mx, ?_⟩
  rw [hfind]
  cases hlast : lastMatch ext s seen (seekPos f s.ndim_ pos mn) with
  | none =>
    rw [hlast] at hseek hiff
    refine ⟨_, hmm, hseek, ?_, ?_, ?_, ?_, ?_⟩
    · simpa using hiff
    · intro out h
      simp at h
    · intro _
      exact ⟨rfl, rfl⟩
    · intro file view h
      simp at h
    · intro out h
      simp at h
  | some e =>
    rw [hlast] at hseek hiff
    simp only at hseek
    obtain ⟨hmem, hparse⟩ := lastMatch_some ext s seen _ e hlast
    simp only [Option.map_some', Option.isSome_some, Option.some.injEq, true_iff]
    cases hopen : w.ndioOpen (s.dirPrefix ++ e) with
    | none =>
      rw [hopen] at hseek
      simp only at hseek
      refine ⟨_, hmm, hseek, ⟨e, hmem, hparse⟩, ?_, ?_, ?_, ?_⟩
      · intro out h
        exact ⟨e, hmem, hparse, by rw [← h, hpre]⟩
      · intro _
        exact ⟨rfl, rfl⟩
      · intro file view h
        simp at h
      · intro out h hne
        rw [← h, hopen] at hne
        exact absurd rfl hne
    | some file =>
      rw [hopen] at hseek
      simp only at hseek
      cases hsub : codec.ndioReadSubarray (s.dirPrefix ++ e)
          { (seek_reduce ext w codec dst.ndim 0 s dst).2 with ndim := f } pos with
      | false =>
        rw [hsub] at hseek
        simp only [if_true] at hseek
        refine ⟨_, hmm, hseek, ⟨e, hmem, hparse⟩, ?_, ?_, ?_, ?_⟩
        · intro out h
          exact ⟨e, hmem, hparse, by rw [← h, hpre]⟩
        · intro hno
          exact absurd hparse (hno e hmem)
        · intro file view h
          simp only [Option.some.injEq, Prod.mk.injEq] at h
          exact ⟨h.1, by rw [← h.2]⟩
        · intro out h _
          subst h
          exact ⟨_, rfl, by simp [hsub]⟩
      | true =>
        rw [hsub] at hseek
        simp only [Bool.true_eq_false, if_false] at hseek
        refine ⟨_, hmm, hseek, ⟨e, hmem, hparse⟩, ?_, ?_, ?_, ?_⟩
        · intro out h
          exact ⟨e, hmem, hparse, by rw [← h, hpre]⟩
        · intro hno
          exact absurd hparse (hno e hmem)
        · intro file view h
          simp only [Option.some.injEq, Prod.mk.injEq] at h
          exact ⟨h.1, by rw [← h.2]⟩
        · intro out h _
          subst h
          exact ⟨_, rfl, by simp [hsub]⟩

theorem C11_seek_exactness_witness :
    ∃ r, series_seek RE2.noExt setSparse codecOk
        (series_t.ctor "data/b/vol.0.0000.tif".toList "r".toList)
        (nd_t.ofShape [620, 512, 2, 2]) [0, 0, 1, 0] = some r ∧ r.ret = 1 ∧
      ∃ view, r.read = some ("data/b/vol.6.5.tif".toList, view) ∧ view.ndim = 2 := by
  obtain ⟨mn, mx, r, hmm, hseek, _, _, _, h4, h5⟩ :=
    C11_seek_exactness RE2.noExt setSparse codecOk
      (series_t.ctor "data/b/vol.0.0000.tif".toList "r".toList)
      (nd_t.ofShape [620, 512, 2, 2]) [0, 0, 1, 0] _ _ 2 rfl
      (Or.inl ⟨by rw [ctor_eq]; decide, rfl⟩)
      ⟨"vol.5.5.tif".toList, by decide, by rw [ctor_eq]; decide⟩
      (by rw [ctor_eq]; decide) (by decide) (by rw [ctor_eq]; decide) (by decide) (by decide)
      (by decide) (by rw [ctor_eq]; decide)
  have hbox : (series_t.ctor "data/b/vol.0.0000.tif".toList "r".toList).minmax RE2.noExt
      setSparse.dir [] [] = some ([5, 5], [6, 6]) := by
    rw [ctor_eq]
    decide
  rw [hbox] at hmm
  simp only [Option.some.injEq, Prod.mk.injEq] at hmm
  obtain ⟨hmn, _⟩ := hmm
  subst hmn
  have hfind : ((series_t.ctor "data/b/vol.0.0000.tif".toList "r".toList).find RE2.noExt
      setSparse (seekPos 2 (series_t.ctor "data/b/vol.0.0000.tif".toList "r".toList).ndim_
        [0, 0, 1, 0] [5, 5])).1 = some "data/b/vol.6.5.tif".toList := by
    rw [ctor_eq]
    decide
  obtain ⟨view, hv, hret⟩ := h5 _ hfind (by simp [setSparse])
  exact ⟨r, hseek, hret.2 rfl, view, hv, (h4 _ view hv).2⟩

/-- C12, at a failing input. A seek into the sparse series at series position
(1,0), the destination of shape `(620,512,2,2)`: when the codec's sub-array
read of `vol.6.5.tif` fails, `series_seek` returns 0 and leaves the destination
with 2 dimensions instead of 4, the extents of the two series axes in the shape
array at 1 instead of 2; when that read succeeds, it returns 1 and the
destination has its 4 dimensions and its shape again. -/
theorem C12_seek_restore_failing_input :
    (nd_t.ofShape [620, 512, 2, 2]).ndim = 4 ∧
    (series_seek RE2.noExt setSparse codecFail
        (series_t.ctor "data/b/vol.0.0000.tif".toList "r".toList)
        (nd_t.ofShape [620, 512, 2, 2]) [0, 0, 1, 0]).map
        (fun r => (r.ret, r.dst.ndim, r.dst.shape, r.read.map Prod.fst)) =
      some (0, 2, [620, 512, 1, 1], some "data/b/vol.6.5.tif".toList) ∧
    (series_seek RE2.noExt setSparse codecOk
        (series_t.ctor "data/b/vol.0.0000.tif".toList "r".toList)
        (nd_t.ofShape [620, 512, 2, 2]) [0, 0, 1, 0]).map
        (fun r => (r.ret, r.dst.ndim, r.dst.shape, r.read.map Prod.fst)) =
      some (1, 4, [620, 512, 2, 2], some "data/b/vol.6.5.tif".toList) := by
  rw [ctor_eq]
  exact ⟨by decide, by decide, by decide⟩

/-! ### `canseek` (C13) -/

theorem canseek_loop_none (ext : RE2.Ext) (w : World) (codec : Codec) (s : series_t) (idim : Nat) :
    ∀ ents : List Str, ents.find? (fun x => (s.parse ext x).isSome) = none →
      canseek_loop ext w codec s idim ents = (0, s) := by
  intro ents
  induction ents with
  | nil => intro _; rfl
  | cons a t ih =>
    intro h
    rw [List.find?_cons] at h
    cases hp : s.parse ext a with
    | none =>
      rw [hp] at h
      simp only [canseek_loop, hp]
      exact ih h
    | some v =>
      rw [hp] at h
      simp at h

theorem canseek_loop_first (ext : RE2.Ext) (w : World) (codec : Codec) (s : series_t) (idim : Nat)
    (e : Str) :
    ∀ ents : List Str, ents.find? (fun x => (s.parse ext x).isSome) = some e →
      canseek_loop ext w codec s idim ents = canseek_loop ext w codec s idim [e] ∧
        (s.parse ext e).isSome = true := by
  intro ents
  induction ents with
  | nil => intro h; simp at h
  | cons a t ih =>
    intro h
    rw [List.find?_cons] at h
    cases hp : s.parse ext a with
    | none =>
      rw [hp] at h
      have := ih h
      exact ⟨by simp only [canseek_loop, hp]; simpa [canseek_loop] using this.1, this.2⟩
    | some v =>
      rw [hp] at h
      simp only [Option.isSome_some, Option.some.injEq] at h
      subst h
      refine ⟨?_, by rw [hp]; rfl⟩
      simp only [canseek_loop, hp]

/-- C13. With the directory listed and `e` its first entry that matches the
pattern: when `e` opens and gives a shape of rank `f`, `canseek(idim)` (and
`series_canseek`, which passes the call on) returns the codec's answer of
`ndioCanSeek` for `idim` on that file when `idim < f` and 1 when `idim ≥ f`,
and stores `f` in `fdim_`, nothing else of the context changing. When no entry
matches, or the first that does fails to open or to give a shape, the call
returns 0 and leaves `fdim_` as it was. -/
theorem C13_canseek_composition (ext : RE2.Ext) (w : World) (codec : Codec) (s : series_t)
    (idim : Nat) (ents : List Str) (hdir : w.dir = some ents) :
    (∀ e file fs, ents.find? (fun x => (s.parse ext x).isSome) = some e →
      openfile w s.path_ e = some file → file.ndioShape = some fs →
      (idim < fs.length →
        (series_canseek ext w codec s idim).1 = codec.ndioCanSeek (s.path_ ++ [PATHSEP] ++ e) idim) ∧
      (fs.length ≤ idim → (series_canseek ext w codec s idim).1 = 1) ∧
      (series_canseek ext w codec s idim).2 = { s with fdim_ := (fs.length : Int) } ∧
      s.canseek ext w codec idim = series_canseek ext w codec s idim) ∧
    (ents.find? (fun x => (s.parse ext x).isSome) = none →
      series_canseek ext w codec s idim = (0, s)) ∧
    (∀ e, ents.find? (fun x => (s.parse ext x).isSome) = some e →
      (openfile w s.path_ e).bind (fun file => file.ndioShape) = none →
      series_canseek ext w codec s idim = (0, s)) := by
  refine ⟨?_, ?_, ?_⟩
  · intro e file fs hfirst hopen hshape
    have h1 := (canseek_loop_first ext w codec s idim e ents hfirst).1
    have h2 := (canseek_loop_first ext w codec s idim e ents hfirst).2
    obtain ⟨v, hv⟩ := Option.isSome_iff_exists.1 h2
    have hval : series_canseek ext w codec s idim =
        (if idim < fs.length then codec.ndioCanSeek (s.path_ ++ [PATHSEP] ++ e) idim else 1,
         { s with fdim_ := (fs.length : Int) }) := by
      simp only [series_canseek, series_t.canseek, hdir, h1, canseek_loop, hv, hopen, hshape,
        nd_t.ofShape]
    rw [hval]
    refine ⟨fun h => by simp [h], fun h => by simp [Nat.not_lt.2 h], rfl, ?_⟩
    rw [← hval]
    rfl
  · intro hnone
    simp only [series_canseek, series_t.canseek, hdir]
    exact canseek_loop_none ext w codec s idim ents hnone
  · intro e hfirst hfail
    have h1 := (canseek_loop_first ext w codec s idim e ents hfirst).1
    have h2 := (canseek_loop_first ext w codec s idim e ents hfirst).2
    obtain ⟨v, hv⟩ := Option.isSome_iff_exists.1 h2
    simp only [series_canseek, series_t.canseek, hdir, h1, canseek_loop, hv]
    cases ho : openfile w s.path_ e with
    | none => rfl
    | some file =>
      rw [ho] at hfail
      simp only [Option.some_bind] at hfail
      simp only [hfail]

theorem C13_canseek_composition_witness :
    (series_canseek RE2.noExt setSparse codecOk
      (series_t.ctor "data/b/vol.0.0000.tif".toList "r".toList) 1).1 =
      codecOk.ndioCanSeek "data/b/vol.5.5.tif".toList 1 ∧
    (series_canseek RE2.noExt setSparse codecOk
      (series_t.ctor "data/b/vol.0.0000.tif".toList "r".toList) 3).1 = 1 ∧
    (series_canseek RE2.noExt setSparse codecOk
      (series_t.ctor "data/b/vol.0.0000.tif".toList "r".toList) 3).2.fdim_ = 2 := by
  have h1 := (C13_canseek_composition RE2.noExt setSparse codecOk
    (series_t.ctor "data/b/vol.0.0000.tif".toList "r".toList) 1 _ rfl).1
      "vol.5.5.tif".toList { ndioShape := some [620, 512] } [620, 512]
      (by rw [ctor_eq]; decide) rfl rfl
  have h3 := (C13_canseek_composition RE2.noExt setSparse codecOk
    (series_t.ctor "data/b/vol.0.0000.tif".toList "r".toList) 3 _ rfl).1
      "vol.5.5.tif".toList { ndioShape := some [620, 512] } [620, 512]
      (by rw [ctor_eq]; decide) rfl rfl
  refine ⟨?_, h3.2.1 (by decide), ?_⟩
  · rw [h1.1 (by decide), ctor_eq]
    rfl
  · rw [h3.2.2.1]
    rfl

/-! ### Codec failures in read and write (C14) -/

/-- C14, at a failing input. With a codec whose reads and writes all fail:
`series_read` of the sparse series hands four files to `ndioRead`, every one of
these reads fails, and the call returns 1; `series_write` of a source of shape
`(4,3,2)` to the series `B.%.tif` makes two transfers, neither file opens for
writing nor is written, and the call returns 1. -/
theorem C14_transfer_failures_failing_input :
    (series_read RE2.noExt setSparse (series_t.ctor "data/b/vol.0.0000.tif".toList "r".toList)
        (nd_t.ofShape [620, 512, 2, 2])).map
        (fun r => (r.ret, r.reads.map Prod.fst,
          r.transfers codecFail (series_t.ctor "data/b/vol.0.0000.tif".toList "r".toList))) =
      some (1, ["vol.5.5.tif".toList, "vol.5.6.tif".toList, "vol.6.5.tif".toList,
        "vol.6.6.tif".toList], [false, false, false, false]) ∧
    (series_write 3 (series_t.ctor "B.%.tif".toList "w".toList) (nd_t.ofShape [4, 3, 2])).map
        (fun r => (r.ret, r.files.map Prod.fst, r.transfers codecFail)) =
      some (1, ["B.0.tif".toList, "B.1.tif".toList], [false, false]) := by
  rw [ctor_eq, ctor_eq]
  exact ⟨by decide, by decide⟩

end NdioSeries
